import Mathlib

/-!
# Tanh-Sinh, Exp-Sinh and Sinh-Sinh quadrature (`quad.c`, `qthsh.c`)

A shallow embedding of the two C sources and theorems about it.

* `Arith α` lists the operations on `double` that the sources use.  Every
  program below is written once, over an arbitrary `Arith α`, so a theorem
  holds for whatever the operations are.  Where a theorem needs an algebraic
  fact about the operations it takes a bundle of laws as a hypothesis.
* `Dbl` is a computable instance: extended rationals with the IEEE rules for
  `±∞` and `NaN` and overflow at the largest finite double.  Finite results are
  exact (no rounding, no underflow, one zero).  It serves to run the programs on
  concrete inputs.
* `Exact` is a second computable instance, the field of rationals: no rounding,
  no overflow, no infinite value.  It stands for real-number arithmetic.
* `Fp` is a third computable instance, with the two zeros of IEEE arithmetic,
  underflow to a signed zero and overflow to a signed infinity; results in
  between are exact (no rounding).  The laws `SignLaws`, `ScaleLaws` and
  `ZeroLaws` are proved of it, and it carries the inputs on which a sign of
  zero or an underflow decides the result.
* A `do … while` loop whose exit depends on the values computed becomes a
  function with a `fuel` argument, `none` meaning that the fuel ran out.
-/

namespace TanhSinh

/-! ## Arithmetic -/

/-- The operations on `double` used by `quad.c` and `qthsh.c`.  `lt` and `eq`
are the C comparisons `<` and `==` (the code's `x > y` is `lt y x`). -/
class Arith (α : Type) extends Add α, Sub α, Mul α, Div α, Neg α where
  /-- conversion of an `int` value, and of an integer literal, to `double` -/
  ofInt : Int → α
  /-- the literal `.25` -/
  quarter : α
  /-- the literal `1e-5` -/
  tiny : α
  /-- `exp` of `math.h` -/
  exp : α → α
  /-- `fabs` of `math.h` -/
  fabs : α → α
  /-- `isfinite` of `math.h` -/
  isfinite : α → Bool
  /-- `x < y` -/
  lt : α → α → Bool
  /-- `x == y` -/
  eq : α → α → Bool

open Arith

/-- Integer literals in `double` context. -/
instance instOfNatArith {α : Type} [Arith α] {n : Nat} : OfNat α n := ⟨ofInt (n : Int)⟩

/-! ## Laws of the arithmetic -/

/-- Sign symmetry of the operations and exactness of multiplication by one, as
for IEEE arithmetic read up to the payload of a NaN.  Sums are left out:
`-(x + y)` and `-x + -y` are equal as numbers, but they are the two different
zeros when `x + y` is an exact zero. -/
structure SignLaws (α : Type) [Arith α] : Prop where
  neg_neg : ∀ x : α, - -x = x
  neg_mul : ∀ x y : α, -x * y = -(x * y)
  neg_div : ∀ x y : α, -x / y = -(x / y)
  one_mul : ∀ x : α, 1 * x = x
  isfinite_neg : ∀ x : α, isfinite (-x) = isfinite x
  eq_neg : ∀ x y : α, eq (-x) (-y) = eq x y

/-- The comparison `==` does not tell the negation of a sum from the sum of the
negations: the two are the same number, `-0` and `+0` when the sum is an exact
zero.  IEEE arithmetic has this. -/
def EqNegAdd (α : Type) [Arith α] : Prop :=
  ∀ x y z : α, eq (-(x + y)) z = eq (-x + -y) z

/-- Multiplication of `x` by `2 ^ m`, for an integer `m` of either sign, with the
operations of the arithmetic. -/
def scale {α : Type} [Arith α] (x : α) (m : Int) : α :=
  if 0 ≤ m then x * ofInt (2 ^ m.toNat) else x / ofInt (2 ^ (-m).toNat)

/-- The two compile-time settings of `FUDGE1` and `FUDGE2` (`-DFAST`). -/
inductive Profile where
  | precise
  | fast
  deriving DecidableEq, Repr

/-- `#define FUDGE1` -/
def FUDGE1 : Profile → Int
  | .precise => 10
  | .fast => 160

/-- `#define FUDGE2` -/
def FUDGE2 : Profile → Int
  | .precise => 1
  | .fast => 16

/-- `#define sign(x) (((x)>0)-((x)<0))` -/
def sign {α : Type} [Arith α] (x : α) : Int :=
  (if lt (0 : α) x then 1 else 0) - (if lt x (0 : α) then 1 else 0)

/-- `1 << e` on `int`, for an exponent in the range where C defines it. -/
def shl1 (e : Int) : Int := 2 ^ e.toNat

/-- Scaling by a power of two up to `2 ^ 16`: one is neutral, halving a power
of two is exact, and a product with such a power keeps its `sign` (it may
overflow to an infinity of that sign).  Binary floating point has these. -/
structure ScaleLaws (α : Type) [Arith α] : Prop where
  mul_one : ∀ x : α, x * 1 = x
  div_one : ∀ x : α, x / 1 = x
  half_pow : ∀ e : Nat, e < 16 → (ofInt (2 ^ (e + 1)) : α) / 2 = ofInt (2 ^ e)
  sign_mul_pow : ∀ (x : α) (e : Nat), e ≤ 16 → sign (x * ofInt (2 ^ e)) = sign x

/-- No quotient of `d` by a power of two up to `2 ^ 16` underflows to zero:
each keeps the `sign` of `d`. -/
def NoUnderflow {α : Type} [Arith α] (d : α) : Prop :=
  ∀ e : Nat, e ≤ 16 → sign (d / ofInt (2 ^ e)) = sign d

/-! ## `exp_sinh_opt_d` (quad.c lines 20-70) -/

/-- What one pass of either `do` body assigns to `r`, `fl`, `fr` and `h`. -/
structure Probe (α : Type) where
  r : α
  fl : α
  fr : α
  h : α
  deriving DecidableEq

/-- Lines 29-33 and 40-44: `r = 1 << (i + j); fl = f(a + d/r);
fr = f(a + d*r)*r*r; h = fl - fr;`. -/
def probe {α : Type} [Arith α] (f : α → α) (a d : α) (i j : Int) : Probe α :=
  let r : α := ofInt (shl1 (i + j))
  let fl := f (a + d / r)
  let fr := f (a + d * r) * r * r
  { r := r, fl := fl, fr := fr, h := fl - fr }

/-- State after the first loop (lines 27-34).  `sh` is a ghost field: the
exponents `i + j` given to `<<` so far, in order. -/
structure Search (α : Type) where
  j : Int
  ev : Int
  pr : Probe α
  sh : List Int
  deriving DecidableEq

/-- Lines 27-34: `do { j /= 2; … } while (j > 1 && !isfinite(h));`.  `j` is
never negative, so the division of C and `/` on `Int` agree. -/
def searchLoop {α : Type} [Arith α] (f : α → α) (a d : α) (i : Int) :
    Nat → Int → Int → List Int → Option (Search α)
  | 0, _, _, _ => none
  | fuel + 1, j, ev, sh =>
    let j := j / 2
    let pr := probe f a d i j
    let ev := ev + 2
    let sh := sh ++ [i + j]
    if j > 1 && !isfinite pr.h then searchLoop f a d i fuel j ev sh
    else some { j := j, ev := ev, pr := pr, sh := sh }

/-- Variables of the second loop (lines 38-56); `sh` as in `Search`. -/
structure Bisect (α : Type) where
  i : Int
  j : Int
  ev : Int
  s : α
  lfl : α
  lfr : α
  lr : α
  sh : List Int
  deriving DecidableEq

/-- Lines 39-55, one pass of the bisection body. -/
def bisectBody {α : Type} [Arith α] (f : α → α) (a d h2 : α) (st : Bisect α) : Bisect α :=
  let j := st.j / 2
  let pr := probe f a d st.i j
  let ev := st.ev + 2
  let sh := st.sh ++ [st.i + j]
  if isfinite pr.h then
    let s := st.s + fabs pr.h
    if sign pr.h = sign h2 then
      { st with i := st.i + j, j := j, ev := ev, s := s, sh := sh }
    else
      { st with j := j, ev := ev, s := s, lfl := pr.fl, lfr := pr.fr, lr := pr.r, sh := sh }
  else
    { st with j := j, ev := ev, sh := sh }

/-- Lines 38-56: `do { … } while (j > 1);`. -/
def bisectLoop {α : Type} [Arith α] (f : α → α) (a d h2 : α) :
    Nat → Bisect α → Option (Bisect α)
  | 0, _ => none
  | fuel + 1, st =>
    let st' := bisectBody f a d h2 st
    if st'.j > 1 then bisectLoop f a d h2 fuel st' else some st'

/-- What the bisection keeps true of `i`, `j` and `lr` at the start of a pass:
`lr` is the `double` of a power of two from `2^1` to `2^16`. -/
def BisectInv {α : Type} [Arith α] (st : Bisect α) : Prop :=
  1 ≤ st.i ∧ 2 ≤ st.j ∧ st.i + st.j ≤ 17 ∧
    ∃ e : Nat, 1 ≤ e ∧ e ≤ 16 ∧ st.lr = ofInt (2 ^ e)

/-- What `exp_sinh_opt_d` returns (`d`), with the counter `ev` and the ghost
list of shift exponents at the `return`. -/
structure OptResult (α : Type) where
  d : α
  ev : Int
  sh : List Int
  deriving DecidableEq

/-- Fuel given to each loop of `exp_sinh_opt_d`: `j` starts at 32 and is halved
in every pass. -/
def optFuel : Nat := 5

/-- Lines 57-66: the adjustment of `d` after the bisection. -/
def adjust {α : Type} [Arith α] (eps d : α) (b : Bisect α) : α :=
  if lt eps b.s then
    let h := b.lfl - b.lfr
    let r := b.lr
    let r := if !eq h (0 : α) then r / 2 else r
    if lt (fabs b.lfl) (fabs b.lfr) then d / r else d * r
  else d

/-- `double exp_sinh_opt_d(double (*f)(double), double a, double eps, double d)`. -/
def exp_sinh_opt_d {α : Type} [Arith α] (f : α → α) (a eps d : α) : Option (OptResult α) :=
  let ev : Int := 2
  let h2 := f (a + d / 2) - f (a + d * 2) * 4
  let i : Int := 1
  let j : Int := 32
  if isfinite h2 && lt tiny (fabs h2) then
    match searchLoop f a d i optFuel j ev [] with
    | none => none
    | some sr =>
      if sr.j > 1 && isfinite sr.pr.h && sign sr.pr.h != sign h2 then
        match bisectLoop f a d h2 optFuel
            { i := i, j := sr.j, ev := sr.ev, s := 0, lfl := sr.pr.fl, lfr := sr.pr.fr,
              lr := 2, sh := sr.sh } with
        | none => none
        | some b => some { d := adjust eps d b, ev := b.ev, sh := b.sh }
      else some { d := d, ev := sr.ev, sh := sr.sh }
  else some { d := d, ev := ev, sh := [] }

/-! ## `quad` (quad.c lines 73-173) -/

/-- Variables fixed by lines 75-104 of `quad`: the bounds after the swap, the
transform parameters, the orientation, the first abscissa and the mode
(Tanh-Sinh = 0, Exp-Sinh = 1, Sinh-Sinh = 2). -/
structure Setup (α : Type) where
  a : α
  b : α
  c : α
  d : α
  sign : α
  v : α
  mode : Nat
  deriving DecidableEq

/-- Lines 83-104 of `quad`, from the bounds and the orientation left by the
swap of lines 77-82 (`c = 0`, `d = 1` are the initial values of line 75). -/
def selectMode {α : Type} [Arith α] (f : α → α) (a b sign eps : α) : Option (Setup α) :=
  let c : α := 0
  let d : α := 1
  if isfinite a && isfinite b then
    some { a := a, b := b, c := (a + b) / 2, d := (b - a) / 2, sign := sign,
           v := (a + b) / 2, mode := 0 }
  else if isfinite a then
    match exp_sinh_opt_d f a eps d with
    | none => none
    | some o => some { a := a, b := b, c := a, d := o.d, sign := sign, v := a + o.d, mode := 1 }
  else if isfinite b then
    match exp_sinh_opt_d f b eps (-d) with
    | none => none
    | some o => some { a := a, b := b, c := b, d := o.d, sign := -sign, v := b + o.d, mode := 1 }
  else
    some { a := a, b := b, c := c, d := d, sign := sign, v := 0, mode := 2 }

/-- Lines 75-104 of `quad`: the swap of the bounds when `b < a`, then the
choice of the mode. -/
def quadSetup {α : Type} [Arith α] (f : α → α) (a b eps : α) : Option (Setup α) :=
  if lt b a then selectMode f b a (-1) eps else selectMode f a b 1 eps

/-- Locals of one level that the inner sweeps update. -/
structure Sweep (α : Type) where
  p : α
  q : α
  fp : α
  fm : α
  t : α
  deriving DecidableEq

/-- Lines 114-130: one pass of the body of the Tanh-Sinh sweep. -/
def tanhSinhStep {α : Type} [Arith α] (f : α → α) (a b d eh : α) (st : Sweep α) : Sweep α :=
  let u := exp (1 / st.t - st.t)
  let r := 2 * u / (1 + u)
  let w := (st.t + 1 / st.t) * r / (1 + u)
  let x := d * r
  let fp := if lt a (a + x) then (if isfinite (f (a + x)) then f (a + x) else st.fp) else st.fp
  let fm := if lt (b - x) b then (if isfinite (f (b - x)) then f (b - x) else st.fm) else st.fm
  let q := w * (fp + fm)
  let p := st.p + q
  { p := p, q := q, fp := fp, fm := fm, t := st.t * eh }

/-- Lines 113-131: the Tanh-Sinh sweep `do { … } while (fabs(q) > eps*fabs(p));`. -/
def tanhSinhSweep {α : Type} [Arith α] (f : α → α) (a b d eps eh : α) :
    Nat → Sweep α → Option (Sweep α)
  | 0, _ => none
  | fuel + 1, st =>
    let st' := tanhSinhStep f a b d eh st
    if lt (eps * fabs st'.p) (fabs st'.q) then tanhSinhSweep f a b d eps eh fuel st'
    else some st'

/-- Lines 136-154: `r`, `w` and `q` before line 155, or `none` at the `break`. -/
def sinhHead {α : Type} [Arith α] (f : α → α) (mode : Nat) (c d t : α) : Option (α × α × α) :=
  let r := exp (t - quarter / t)
  let w := r
  let q : α := 0
  if mode = 1 then
    let x := c + d / r
    if eq x c then none
    else
      let y := f x
      some (r, w, if isfinite y then q + y / w else q)
  else
    let r := (r - 1 / r) / 2
    let w := (w + 1 / w) / 2
    let x := c - d * r
    let y := f x
    some (r, w, if isfinite y then q + y * w else q)

/-- Lines 136-161: one pass of the body of the Exp-Sinh and Sinh-Sinh sweep, or
`none` at the `break`. -/
def sinhStep {α : Type} [Arith α] (f : α → α) (mode : Nat) (c d eh : α) (st : Sweep α) :
    Option (Sweep α) :=
  match sinhHead f mode c d st.t with
  | none => none
  | some (r, w, q) =>
    let y := f (c + d * r)
    let q := if isfinite y then q + y * w else q
    let q := q * (st.t + quarter / st.t)
    let p := st.p + q
    some { st with p := p, q := q, t := st.t * eh }

/-- Lines 135-162: the Exp-Sinh and Sinh-Sinh sweep.  At the `break` the locals
are those of the pass before, but for `q = 0` of line 138. -/
def sinhSweep {α : Type} [Arith α] (f : α → α) (mode : Nat) (c d eps eh : α) :
    Nat → Sweep α → Option (Sweep α)
  | 0, _ => none
  | fuel + 1, st =>
    match sinhStep f mode c d eh st with
    | none => some { st with q := 0 }
    | some st' =>
      if lt (eps * fabs st'.p) (fabs st'.q) then sinhSweep f mode c d eps eh fuel st'
      else some st'

/-- The largest `int`, `2^31 - 1`. -/
def INT_MAX : Int := 2147483647

/-- Variables of the outer loop of `quad` and `qthsh`.  The counter `k` is an
`int` in the source; here it is an integer without bound, which is the same
as long as `++k` does not overflow, that is while `k < INT_MAX`. -/
structure Level (α : Type) where
  s : α
  v : α
  h : α
  k : Int
  deriving DecidableEq

/-- Lines 107-163: the locals of one pass of the outer loop body after its
inner sweep.  `q` is not initialised in the source and is written before it is
read; the model starts it at 0. -/
def levelSweep {α : Type} [Arith α] (f : α → α) (S : Setup α) (eps : α) (fuel : Nat)
    (L : Level α) : Option (Sweep α) :=
  let h := L.h / 2
  let t := exp h
  let eh := if L.k > 0 then t * t else t
  if S.mode = 0 then
    tanhSinhSweep f S.a S.b S.d eps eh fuel { p := 0, q := 0, fp := 0, fm := 0, t := t }
  else
    sinhSweep f S.mode S.c S.d eps eh fuel { p := 0, q := 0, fp := 0, fm := 0, t := t / 2 }

/-- Lines 107-166: one pass of the outer loop body. -/
def level {α : Type} [Arith α] (f : α → α) (S : Setup α) (eps : α) (fuel : Nat)
    (L : Level α) : Option (Level α) :=
  match levelSweep f S eps fuel L with
  | none => none
  | some st => some { s := L.s + st.p, v := L.s - st.p, h := L.h / 2, k := L.k + 1 }

/-- Lines 106-167: `do { … } while (fabs(v) > tol*fabs(s) && k <= n);`.  The
first `Nat` bounds the passes of this loop, `fuel` those of each sweep.  `k`
and `n` are compared as integers without bound: for `n < INT_MAX` no `k` that
is reached exceeds `INT_MAX` and this is the comparison of the two `int`; for
`n = INT_MAX` the test `k <= n` cannot fail in the source and `++k` overflows,
which this definition does not represent. -/
def levels {α : Type} [Arith α] (P : Profile) (f : α → α) (S : Setup α) (n : Int) (eps : α)
    (fuel : Nat) : Nat → Level α → Option (Level α)
  | 0, _ => none
  | g + 1, L =>
    match level f S eps fuel L with
    | none => none
    | some L' =>
      if lt (ofInt (FUDGE1 P) * eps * fabs L'.s) (fabs L'.v) && decide (L'.k ≤ n) then
        levels P f S n eps fuel g L'
      else some L'

/-- Passes allowed to the outer loop: `k` counts them and the loop stops once
`k > n`. -/
def levelFuel (n : Int) : Nat := (n + 1).toNat + 1

/-- The state of `quad` before its outer loop (lines 75 and 105; `v` still holds the first abscissa). -/
def quadInit {α : Type} [Arith α] (f : α → α) (S : Setup α) : Level α :=
  { s := f S.v, v := S.v, h := 2, k := 0 }

/-- Line 105 and the outer loop, from a finished setup. -/
def quadLevels {α : Type} [Arith α] (P : Profile) (f : α → α) (S : Setup α) (n : Int) (eps : α)
    (fuel : Nat) : Option (Level α) :=
  levels P f S n eps fuel (levelFuel n) (quadInit f S)

/-- The returned integral and the value stored through `err`. -/
structure Result (α : Type) where
  value : α
  err : α
  deriving DecidableEq

/-- Lines 169-172, from the setup and the state at the exit of the loop. -/
def quadResult {α : Type} [Arith α] (P : Profile) (eps : α) (S : Setup α) (L : Level α) :
    Result α :=
  { value := S.sign * S.d * L.s * L.h
    err := fabs L.v / (ofInt (FUDGE2 P) * fabs L.s + eps) }

/-- `double quad(double (*f)(double), double a, double b, int n, double eps,
double *err)` with an error slot supplied. -/
def quad {α : Type} [Arith α] (P : Profile) (f : α → α) (a b : α) (n : Int) (eps : α)
    (fuel : Nat) : Option (Result α) :=
  match quadSetup f a b eps with
  | none => none
  | some S =>
    match quadLevels P f S n eps fuel with
    | none => none
    | some L => some (quadResult P eps S L)

/-- The value of `fabs(v) > tol*fabs(s)` at the exit of the outer loop of
`quad`: `some false` when the run returns with its convergence test satisfied,
`some true` when it returns because `k` passed the cap. -/
def exitTest {α : Type} [Arith α] (P : Profile) (f : α → α) (a b : α) (n : Int) (eps : α)
    (fuel : Nat) : Option Bool :=
  match quadSetup f a b eps with
  | none => none
  | some S =>
    match quadLevels P f S n eps fuel with
    | none => none
    | some L => some (lt (ofInt (FUDGE1 P) * eps * fabs L.s) (fabs L.v))

/-! ## `qthsh` (qthsh.c lines 19-61) -/

/-- Lines 34-50 of qthsh.c: one pass of the body of the inner sweep. -/
def qthshStep {α : Type} [Arith α] (f : α → α) (a b d eh : α) (st : Sweep α) : Sweep α :=
  let u := exp (1 / st.t - st.t)
  let r := 2 * u / (1 + u)
  let w := (st.t + 1 / st.t) * r / (1 + u)
  let x := d * r
  let fp := if lt a (a + x) then (if isfinite (f (a + x)) then f (a + x) else st.fp) else st.fp
  let fm := if lt (b - x) b then (if isfinite (f (b - x)) then f (b - x) else st.fm) else st.fm
  let q := w * (fp + fm)
  let p := st.p + q
  { p := p, q := q, fp := fp, fm := fm, t := st.t * eh }

/-- Lines 33-51 of qthsh.c: the inner sweep. -/
def qthshSweep {α : Type} [Arith α] (f : α → α) (a b d eps eh : α) :
    Nat → Sweep α → Option (Sweep α)
  | 0, _ => none
  | fuel + 1, st =>
    let st' := qthshStep f a b d eh st
    if lt (eps * fabs st'.p) (fabs st'.q) then qthshSweep f a b d eps eh fuel st'
    else some st'

/-- Lines 27-51 of qthsh.c: the locals of one pass of the outer loop body after
its inner sweep. -/
def qthshLevelSweep {α : Type} [Arith α] (f : α → α) (a b d eps : α) (fuel : Nat)
    (L : Level α) : Option (Sweep α) :=
  let h := L.h / 2
  let eh := exp h
  let t := eh
  let eh := if L.k > 0 then eh * eh else eh
  qthshSweep f a b d eps eh fuel { p := 0, q := 0, fp := 0, fm := 0, t := t }

/-- Lines 27-54 of qthsh.c: one pass of the outer loop body. -/
def qthshLevel {α : Type} [Arith α] (f : α → α) (a b d eps : α) (fuel : Nat) (L : Level α) :
    Option (Level α) :=
  match qthshLevelSweep f a b d eps fuel L with
  | none => none
  | some st => some { s := L.s + st.p, v := L.s - st.p, h := L.h / 2, k := L.k + 1 }

/-- Lines 26-55 of qthsh.c: the outer loop, with `k` and `n` as in `levels`. -/
def qthshLevels {α : Type} [Arith α] (P : Profile) (f : α → α) (a b d : α) (n : Int) (eps : α)
    (fuel : Nat) : Nat → Level α → Option (Level α)
  | 0, _ => none
  | g + 1, L =>
    match qthshLevel f a b d eps fuel L with
    | none => none
    | some L' =>
      if lt (ofInt (FUDGE1 P) * eps * fabs L'.s) (fabs L'.v) && decide (L'.k ≤ n) then
        qthshLevels P f a b d n eps fuel g L'
      else some L'

/-- The state of `qthsh` before its outer loop (lines 21-25 of qthsh.c).  `v` is
not initialised in the source and is written before it is read; the model
starts it at 0. -/
def qthshInit {α : Type} [Arith α] (f : α → α) (a b : α) : Level α :=
  { s := f ((a + b) / 2), v := 0, h := 2, k := 0 }

/-- Lines 20-55 of qthsh.c: the state at the exit of the outer loop. -/
def qthshRun {α : Type} [Arith α] (P : Profile) (f : α → α) (a b : α) (n : Int) (eps : α)
    (fuel : Nat) : Option (Level α) :=
  let d := (b - a) / 2
  qthshLevels P f a b d n eps fuel (levelFuel n) (qthshInit f a b)

/-- `double qthsh(double (*f)(double), double a, double b, int n, double eps,
double *err)` with an error slot supplied. -/
def qthsh {α : Type} [Arith α] (P : Profile) (f : α → α) (a b : α) (n : Int) (eps : α)
    (fuel : Nat) : Option (Result α) :=
  match qthshRun P f a b n eps fuel with
  | none => none
  | some L =>
    some { value := (b - a) / 2 * L.s * L.h
           err := fabs L.v / (ofInt (FUDGE2 P) * fabs L.s + eps) }

/-! ## The first pass of the Sinh-Sinh sweep -/

/-- `t` at the first pass of the first Sinh-Sinh sweep: `h = 2/2`, `t = exp(h)`,
`t /= 2`. -/
def ssT0 {α : Type} [Arith α] : α := exp ((2 : α) / 2) / 2

/-- `r` of line 148 at that pass: the first abscissa is `c ∓ d*r`. -/
def ssR0 {α : Type} [Arith α] : α :=
  (exp ((ssT0 : α) - quarter / ssT0) - 1 / exp ((ssT0 : α) - quarter / ssT0)) / 2

/-- `w` of line 149 at that pass. -/
def ssW0 {α : Type} [Arith α] : α :=
  (exp ((ssT0 : α) - quarter / ssT0) + 1 / exp ((ssT0 : α) - quarter / ssT0)) / 2

/-- The factor `t + .25/t` of line 159 at that pass. -/
def ssJ0 {α : Type} [Arith α] : α := (ssT0 : α) + quarter / ssT0

/-- Facts about zero, each as it holds of IEEE arithmetic with its two zeros,
rounding to nearest: one is neutral in a product, negation commutes with a
product and keeps finiteness; `0 + 0`, `0 - 0` and `-0 + 0` are `+0`, and
`-0 - 0` is a zero; at the centre 0 the first abscissas of the Sinh-Sinh sweep
are `-r` and `r`; a finite value cancels against its negation; `+0` times
either of two positive constants of the first level is `+0`; and no product
with zero is below zero.  None of them equates the negation of zero with
zero. -/
structure ZeroLaws (α : Type) [Arith α] : Prop where
  one_mul : ∀ x : α, 1 * x = x
  neg_mul : ∀ x y : α, -x * y = -(x * y)
  isfinite_neg : ∀ x : α, isfinite (-x) = isfinite x
  zero_add_zero : (0 : α) + 0 = 0
  zero_sub_zero : (0 : α) - 0 = 0
  negzero_add_zero : -(0 : α) + 0 = 0
  fabs_negzero_sub_zero : fabs (-(0 : α) - 0) = 0
  zero_sub_first : (0 : α) - ssR0 = -ssR0
  zero_add_first : (0 : α) + ssR0 = ssR0
  cancel : ∀ x : α, isfinite x = true → (0 + -x) + x = 0
  zero_mul_jac : (0 : α) * ssJ0 = 0
  zero_mul_half : (0 : α) * (2 / 2) = 0
  fabs_zero : fabs (0 : α) = 0
  lt_mul_zero : ∀ e : α, lt (e * 0) (0 : α) = false

/-! ## Sequential composition of levels -/

/-- The outer loop body of `quad` run `m` times in sequence. -/
def levelIter {α : Type} [Arith α] (f : α → α) (S : Setup α) (eps : α) (fuel : Nat) :
    Nat → Level α → Option (Level α)
  | 0, L => some L
  | m + 1, L =>
    match level f S eps fuel L with
    | none => none
    | some L' => levelIter f S eps fuel m L'

/-- The outer loop body of `qthsh` run `m` times in sequence. -/
def qthshLevelIter {α : Type} [Arith α] (f : α → α) (a b d eps : α) (fuel : Nat) :
    Nat → Level α → Option (Level α)
  | 0, L => some L
  | m + 1, L =>
    match qthshLevel f a b d eps fuel L with
    | none => none
    | some L' => qthshLevelIter f a b d eps fuel m L'

/-- A `Result` with its value negated. -/
def Result.negValue {α : Type} [Arith α] (r : Result α) : Result α :=
  { value := -r.value, err := r.err }

/-! ## The Tanh-Sinh sweep pass by pass -/

/-- Lines 114, 115 and 117: the offset `x = d*r` of the Tanh-Sinh pass at `t`. -/
def tsOffset {α : Type} [Arith α] (d t : α) : α :=
  let u := exp (1 / t - t)
  let r := 2 * u / (1 + u)
  d * r

/-- Lines 114-116: the weight `w` of the Tanh-Sinh pass at `t`. -/
def tsWeight {α : Type} [Arith α] (t : α) : α :=
  let u := exp (1 / t - t)
  let r := 2 * u / (1 + u)
  (t + 1 / t) * r / (1 + u)

/-- The value of `t` at the start of pass `m` (counted from 0) of a sweep that
starts at `t0`: line 130, `t *= eh`, once for every earlier pass. -/
def tsT {α : Type} [Arith α] (eh t0 : α) : Nat → α
  | 0 => t0
  | m + 1 => tsT eh t0 m * eh

/-- The offsets of the first `m` passes of a sweep that starts at `t0`, the
latest first. -/
def tsOffsets {α : Type} [Arith α] (d eh t0 : α) : Nat → List α
  | 0 => []
  | m + 1 => tsOffset d (tsT eh t0 m) :: tsOffsets d eh t0 m

/-- The body of the Tanh-Sinh sweep run `m` times in sequence. -/
def tanhSinhIter {α : Type} [Arith α] (f : α → α) (a b d eh : α) (m : Nat) (st : Sweep α) :
    Sweep α :=
  (tanhSinhStep f a b d eh)^[m] st

/-- The value for the `a` side as the specification words it: for the offsets
`xs` of the passes so far, the latest first, the most recent finite `f(a + x)`
at a position with `a + x > a`, or 0 if there is none. -/
def lastFiniteAbove {α : Type} [Arith α] (f : α → α) (a : α) : List α → α
  | [] => 0
  | x :: xs =>
    if lt a (a + x) && isfinite (f (a + x)) then f (a + x) else lastFiniteAbove f a xs

/-- The value for the `b` side as the specification words it: the most recent
finite `f(b - x)` at a position with `b - x < b`, or 0 if there is none. -/
def lastFiniteBelow {α : Type} [Arith α] (f : α → α) (b : α) : List α → α
  | [] => 0
  | x :: xs =>
    if lt (b - x) b && isfinite (f (b - x)) then f (b - x) else lastFiniteBelow f b xs

/-! ## The passes of the Exp-Sinh and Sinh-Sinh sweeps -/

/-- The sum of the terms of a pass as the specification words it: each term
comes with the sample it is built from; the terms with a finite sample are
added up in order, from 0, and a term whose sample is not finite is left out
(it contributes nothing). -/
def sumFinite {α : Type} [Arith α] (terms : List (α × α)) : α :=
  terms.foldl (fun acc yt => if isfinite yt.1 then acc + yt.2 else acc) 0

/-- The `q` of an Exp-Sinh pass at `t` as the specification words it: with
`r = w = exp(t - .25/t)`, the term `f(c + d/r)/w` and the term `f(c + d*r)*w`,
each if its sample is finite, times `t + .25/t`. -/
def expSinhPass {α : Type} [Arith α] (f : α → α) (c d t : α) : α :=
  let r := exp (t - quarter / t)
  sumFinite [(f (c + d / r), f (c + d / r) / r), (f (c + d * r), f (c + d * r) * r)] *
    (t + quarter / t)

/-- The `q` of a Sinh-Sinh pass at `t` as the specification words it: with
`e = exp(t - .25/t)`, `r = (e - 1/e)/2` and `w = (e + 1/e)/2`, the terms
`f(c - d*r)*w` and `f(c + d*r)*w`, each if its sample is finite, times
`t + .25/t`. -/
def sinhSinhPass {α : Type} [Arith α] (f : α → α) (c d t : α) : α :=
  let e := exp (t - quarter / t)
  let r := (e - 1 / e) / 2
  let w := (e + 1 / e) / 2
  sumFinite [(f (c - d * r), f (c - d * r) * w), (f (c + d * r), f (c + d * r) * w)] *
    (t + quarter / t)

/-! ## Exact arithmetic -/

/-- The arithmetic is exact: `φ` is a one-to-one map into the rationals that
carries `+`, `-`, `*`, `/`, `fabs` and the integer literals to those of `ℚ`.
Real-number arithmetic is of this kind; `double` arithmetic, which rounds and
overflows, is not. -/
structure ExactArith {α : Type} [Arith α] (φ : α → ℚ) : Prop where
  inj : Function.Injective φ
  add : ∀ x y : α, φ (x + y) = φ x + φ y
  sub : ∀ x y : α, φ (x - y) = φ x - φ y
  mul : ∀ x y : α, φ (x * y) = φ x * φ y
  div : ∀ x y : α, φ (x / y) = φ x / φ y
  ofInt : ∀ z : Int, φ (ofInt z) = z
  fabs : ∀ x : α, φ (fabs x) = |φ x|

/-! ## Scaling the integrand -/

/-- The step size `h` after `k` passes of line 27, `h /= 2`, from `h = 2`. -/
def halved {α : Type} [Arith α] : Nat → α
  | 0 => 2
  | k + 1 => halved k / 2

/-! ## The abscissas that are read -/

/-- The integrands `f` and `g` agree at every abscissa that `exp_sinh_opt_d`
can read at the endpoint `a` with the offset `d`: `a + d/2` and `a + d*2`
(line 23), and `a + d/r` and `a + d*r` for `r = 1 << e` with `2 ≤ e ≤ 17`
(lines 30-31 and 41-42).  None of them is tested against `a`. -/
def OptAgree {α : Type} [Arith α] (f g : α → α) (a d : α) : Prop :=
  f (a + d / 2) = g (a + d / 2) ∧ f (a + d * 2) = g (a + d * 2) ∧
    ∀ e : Int, 2 ≤ e → e ≤ 17 →
      f (a + d / ofInt (shl1 e)) = g (a + d / ofInt (shl1 e)) ∧
        f (a + d * ofInt (shl1 e)) = g (a + d * ofInt (shl1 e))

/-- Lines 108-111: `eh` in the outer pass number `k` (from 0). -/
def levelEh {α : Type} [Arith α] (k : Nat) : α :=
  if k > 0 then exp (halved (k + 1)) * exp (halved (k + 1)) else exp (halved (k + 1))

/-- The value of `t` at the start of pass `m` (from 0) of the sweep of the
outer pass number `k` (from 0): `exp(h)` in mode 0 and `exp(h)/2` (line 134)
in the modes 1 and 2, times `eh` for every earlier pass. -/
def sweepT {α : Type} [Arith α] (mode k m : Nat) : α :=
  tsT (levelEh k) (if mode = 0 then exp (halved (k + 1)) else exp (halved (k + 1)) / 2) m

/-- The integrands `f` and `g` agree at every abscissa that a sweep of the
setup `S` can read, in any outer pass `k` and any pass `m` of its sweep.
Tanh-Sinh: `a + x` where `a + x > a`, and `b - x` where `b - x < b`.
Exp-Sinh: `c + d/r` and `c + d*r` of a pass with `c + d/r` not `== c`.
Sinh-Sinh: `c - d*r` and `c + d*r`. -/
def SweepAgree {α : Type} [Arith α] (f g : α → α) (S : Setup α) : Prop :=
  ∀ k m : Nat,
    (S.mode = 0 →
      (lt S.a (S.a + tsOffset S.d (sweepT 0 k m)) = true →
        f (S.a + tsOffset S.d (sweepT 0 k m)) = g (S.a + tsOffset S.d (sweepT 0 k m))) ∧
      (lt (S.b - tsOffset S.d (sweepT 0 k m)) S.b = true →
        f (S.b - tsOffset S.d (sweepT 0 k m)) = g (S.b - tsOffset S.d (sweepT 0 k m)))) ∧
    (S.mode = 1 →
      eq (S.c + S.d / exp (sweepT 1 k m - quarter / sweepT 1 k m)) S.c = false →
      f (S.c + S.d / exp (sweepT 1 k m - quarter / sweepT 1 k m)) =
          g (S.c + S.d / exp (sweepT 1 k m - quarter / sweepT 1 k m)) ∧
        f (S.c + S.d * exp (sweepT 1 k m - quarter / sweepT 1 k m)) =
          g (S.c + S.d * exp (sweepT 1 k m - quarter / sweepT 1 k m))) ∧
    (S.mode = 2 →
      f (S.c - S.d * ((exp (sweepT 2 k m - quarter / sweepT 2 k m) -
            1 / exp (sweepT 2 k m - quarter / sweepT 2 k m)) / 2)) =
          g (S.c - S.d * ((exp (sweepT 2 k m - quarter / sweepT 2 k m) -
            1 / exp (sweepT 2 k m - quarter / sweepT 2 k m)) / 2)) ∧
        f (S.c + S.d * ((exp (sweepT 2 k m - quarter / sweepT 2 k m) -
            1 / exp (sweepT 2 k m - quarter / sweepT 2 k m)) / 2)) =
          g (S.c + S.d * ((exp (sweepT 2 k m - quarter / sweepT 2 k m) -
            1 / exp (sweepT 2 k m - quarter / sweepT 2 k m)) / 2)))

/-- The largest finite `double`, `(2 - 2^-52) * 2^1023`. -/
def maxDbl : ℚ := 2 ^ 1024 - 2 ^ 971

/-- Extended rationals: a finite value within the range of `double`, `+∞`,
`-∞` or `NaN`. -/
inductive Dbl where
  | fin (q : ℚ) (h : |q| ≤ maxDbl)
  | pinf
  | ninf
  | nan
  deriving DecidableEq

namespace Dbl

/-- A rational result as a `Dbl`: beyond `±maxDbl` it overflows. -/
def clip (q : ℚ) : Dbl :=
  if h1 : maxDbl < q then pinf
  else if h2 : q < -maxDbl then ninf
  else fin q (abs_le.mpr ⟨not_lt.mp h2, not_lt.mp h1⟩)

/-- `-x` -/
def neg : Dbl → Dbl
  | fin q h => fin (-q) ((abs_neg q).symm ▸ h)
  | pinf => ninf
  | ninf => pinf
  | nan => nan

/-- `x + y` -/
def add : Dbl → Dbl → Dbl
  | fin p _, fin q _ => clip (p + q)
  | nan, _ => nan
  | _, nan => nan
  | pinf, ninf => nan
  | ninf, pinf => nan
  | pinf, _ => pinf
  | _, pinf => pinf
  | ninf, _ => ninf
  | _, ninf => ninf

/-- `x - y` -/
def sub (x y : Dbl) : Dbl := add x (neg y)

/-- An infinity of the sign of `q`; `NaN` for `q = 0`. -/
def infOfSign (q : ℚ) : Dbl :=
  if 0 < q then pinf else if q < 0 then ninf else nan

/-- `x * y` -/
def mul : Dbl → Dbl → Dbl
  | fin p _, fin q _ => clip (p * q)
  | nan, _ => nan
  | _, nan => nan
  | pinf, fin q _ => infOfSign q
  | ninf, fin q _ => infOfSign (-q)
  | fin p _, pinf => infOfSign p
  | fin p _, ninf => infOfSign (-p)
  | pinf, pinf => pinf
  | ninf, ninf => pinf
  | pinf, ninf => ninf
  | ninf, pinf => ninf

/-- `x / y`; the one zero of the model counts as `+0`. -/
def div : Dbl → Dbl → Dbl
  | fin p _, fin q _ => if q = 0 then infOfSign p else clip (p / q)
  | nan, _ => nan
  | _, nan => nan
  | fin _ _, pinf => clip 0
  | fin _ _, ninf => clip 0
  | pinf, fin q _ => if q < 0 then ninf else pinf
  | ninf, fin q _ => if q < 0 then pinf else ninf
  | pinf, pinf => nan
  | pinf, ninf => nan
  | ninf, pinf => nan
  | ninf, ninf => nan

/-- `fabs` -/
def fabs : Dbl → Dbl
  | fin q h => fin |q| ((abs_abs q).symm ▸ h)
  | pinf => pinf
  | ninf => pinf
  | nan => nan

/-- `isfinite` -/
def isfinite : Dbl → Bool
  | fin _ _ => true
  | _ => false

/-- `x < y`, false when either side is `NaN`. -/
def lt : Dbl → Dbl → Bool
  | fin p _, fin q _ => decide (p < q)
  | fin _ _, pinf => true
  | ninf, fin _ _ => true
  | ninf, pinf => true
  | _, _ => false

/-- `x == y`, false when either side is `NaN`. -/
def eq : Dbl → Dbl → Bool
  | fin p _, fin q _ => decide (p = q)
  | pinf, pinf => true
  | ninf, ninf => true
  | _, _ => false

/-- The sum of `1/i!` for `i ≤ 10`, standing for `e`. -/
def expE : ℚ := 9864101 / 3628800

/-- The Taylor polynomial of `exp` of degree 6, used on `[0, 1)`. -/
def expFrac (r : ℚ) : ℚ :=
  1 + r * (1 + r / 2 * (1 + r / 3 * (1 + r / 4 * (1 + r / 5 * (1 + r / 6)))))

/-- A rational approximation of `exp q`. -/
def expQ (q : ℚ) : ℚ := expE ^ ⌊q⌋ * expFrac (q - ⌊q⌋)

/-- `exp`: an approximation on finite arguments, with overflow above 710 and
underflow to 0 below -746 as for `double`. -/
def exp : Dbl → Dbl
  | fin q _ => if 710 < q then pinf else if q < -746 then clip 0 else clip (expQ q)
  | pinf => pinf
  | ninf => clip 0
  | nan => nan

instance instArith : Arith Dbl where
  add := add
  sub := sub
  mul := mul
  div := div
  neg := neg
  ofInt := fun z => clip (z : ℚ)
  quarter := clip (1 / 4)
  tiny := clip (1 / 100000)
  exp := exp
  fabs := fabs
  isfinite := isfinite
  lt := lt
  eq := eq

end Dbl

/-! ## An exact arithmetic -/

/-- Rationals as an arithmetic of their own: every operation is exact, no value
is infinite, and `x / 0` is 0. -/
structure Exact where
  val : ℚ
  deriving DecidableEq

namespace Exact

instance instArith : Arith Exact where
  add := fun x y => ⟨x.val + y.val⟩
  sub := fun x y => ⟨x.val - y.val⟩
  mul := fun x y => ⟨x.val * y.val⟩
  div := fun x y => ⟨x.val / y.val⟩
  neg := fun x => ⟨-x.val⟩
  ofInt := fun z => ⟨(z : ℚ)⟩
  quarter := ⟨1 / 4⟩
  tiny := ⟨1 / 100000⟩
  exp := fun x => ⟨Dbl.expQ x.val⟩
  fabs := fun x => ⟨|x.val|⟩
  isfinite := fun _ => true
  lt := fun x y => decide (x.val < y.val)
  eq := fun x y => decide (x.val = y.val)

end Exact

/-! ## An arithmetic with signed zeros and underflow -/

/-- The smallest positive `double`, `2^-1074`. -/
def minDbl : ℚ := 1 / 2 ^ 1074

/-- Extended rationals with the two zeros of IEEE arithmetic: a finite value
that is not zero (above half the smallest `double` in magnitude and within the
range of `double`), a zero with its sign bit, an infinity with its sign bit, or
`NaN`. -/
inductive Fp where
  | fin (q : ℚ) (h : minDbl / 2 < |q| ∧ |q| ≤ maxDbl)
  | zero (neg : Bool)
  | inf (neg : Bool)
  | nan
  deriving DecidableEq

namespace Fp

/-- A rational result with the sign bit `s` of the operation as an `Fp`: a
magnitude of at most half the smallest `double` underflows to the zero of that
sign, one beyond `maxDbl` overflows to the infinity of that sign, any other
value is kept exactly. -/
def round (s : Bool) (q : ℚ) : Fp :=
  if h1 : |q| ≤ minDbl / 2 then zero s
  else if h2 : maxDbl < |q| then inf s else fin q ⟨not_le.mp h1, not_lt.mp h2⟩

/-- The sign bit. -/
def signbit : Fp → Bool
  | fin q _ => decide (q < 0)
  | zero s => s
  | inf s => s
  | nan => false

/-- The numeric value of a finite `Fp`; both zeros are 0. -/
def val : Fp → ℚ
  | fin q _ => q
  | _ => 0

/-- `-x`: the sign bit is flipped, also that of a zero. -/
def neg : Fp → Fp
  | fin q h => fin (-q) (by rwa [abs_neg])
  | zero s => zero (!s)
  | inf s => inf (!s)
  | nan => nan

/-- `x + y`: a sum of two zeros is `-0` only if both are; any other sum that
is exactly zero is `+0`. -/
def add : Fp → Fp → Fp
  | nan, _ => nan
  | _, nan => nan
  | inf s, inf t => if s = t then inf s else nan
  | inf s, _ => inf s
  | _, inf t => inf t
  | zero s, zero t => zero (s && t)
  | zero _, fin q h => fin q h
  | fin p h, zero _ => fin p h
  | fin p _, fin q _ =>
    if p + q = 0 then zero false else round (decide (p + q < 0)) (p + q)

/-- `x - y` -/
def sub (x y : Fp) : Fp := add x (neg y)

/-- `x * y`: the sign bit of the result is the exclusive or of the sign bits. -/
def mul : Fp → Fp → Fp
  | nan, _ => nan
  | _, nan => nan
  | inf _, zero _ => nan
  | zero _, inf _ => nan
  | inf s, y => inf (xor s (signbit y))
  | x, inf t => inf (xor (signbit x) t)
  | zero s, y => zero (xor s (signbit y))
  | x, zero t => zero (xor (signbit x) t)
  | fin p _, fin q _ => round (xor (decide (p < 0)) (decide (q < 0))) (p * q)

/-- `x / y`: a finite value that is not zero, divided by a zero, is an infinity
of the exclusive or of the sign bits. -/
def div : Fp → Fp → Fp
  | nan, _ => nan
  | _, nan => nan
  | inf _, inf _ => nan
  | zero _, zero _ => nan
  | inf s, y => inf (xor s (signbit y))
  | x, inf t => zero (xor (signbit x) t)
  | zero s, y => zero (xor s (signbit y))
  | x, zero t => inf (xor (signbit x) t)
  | fin p _, fin q _ => round (xor (decide (p < 0)) (decide (q < 0))) (p / q)

/-- `fabs` -/
def fabs : Fp → Fp
  | fin q h => fin |q| (by rwa [abs_abs])
  | zero _ => zero false
  | inf _ => inf false
  | nan => nan

/-- `isfinite` -/
def isfinite : Fp → Bool
  | fin _ _ => true
  | zero _ => true
  | _ => false

/-- `x < y`, false when either side is `NaN`; the two zeros compare equal. -/
def lt : Fp → Fp → Bool
  | nan, _ => false
  | _, nan => false
  | inf s, inf t => s && !t
  | inf s, _ => s
  | _, inf t => !t
  | x, y => decide (val x < val y)

/-- `x == y`, false when either side is `NaN`; the two zeros compare equal. -/
def eq : Fp → Fp → Bool
  | nan, _ => false
  | _, nan => false
  | inf s, inf t => decide (s = t)
  | inf _, _ => false
  | _, inf _ => false
  | x, y => decide (val x = val y)

/-- `exp`, with the approximation `Dbl.expQ` on finite arguments. -/
def exp : Fp → Fp
  | fin q _ => if 710 < q then inf false else if q < -746 then zero false
      else round false (Dbl.expQ q)
  | zero _ => round false 1
  | inf s => if s then zero false else inf false
  | nan => nan

instance instArith : Arith Fp where
  add := add
  sub := sub
  mul := mul
  div := div
  neg := neg
  ofInt := fun z => round (decide (z < 0)) (z : ℚ)
  quarter := round false (1 / 4)
  tiny := round false (1 / 100000)
  exp := exp
  fabs := fabs
  isfinite := isfinite
  lt := lt
  eq := eq

end Fp

/-! ## Sample integrands on `Dbl` -/

/-- An integrand with a heavy tail: `1/(1+x)^4` below 100, `10^6/x^2` from 100
on. -/
def heavyTail (x : Dbl) : Dbl :=
  if lt x (Dbl.clip 100) then
    Dbl.clip 1 / ((Dbl.clip 1 + x) * (Dbl.clip 1 + x) * (Dbl.clip 1 + x) * (Dbl.clip 1 + x))
  else Dbl.clip 1000000 / (x * x)

/-- An odd integrand of the largest finite magnitude: `maxDbl` at positive
arguments, `-maxDbl` at negative ones, 0 at 0. -/
def oddMax (x : Dbl) : Dbl :=
  if lt (Dbl.clip 0) x then Dbl.clip maxDbl
  else if lt x (Dbl.clip 0) then Dbl.clip (-maxDbl)
  else Dbl.clip 0

/-- A polynomial that is 1 at 0, near `±0.826` and at `±1`, and larger in
between: `1 + 100 x² (x² - 0.683)² (1 - x²)²`. -/
def bumpPoly (x : Dbl) : Dbl :=
  1 + Dbl.clip 100 * (x * x) *
    ((x * x - Dbl.clip (683 / 1000)) * (x * x - Dbl.clip (683 / 1000))) *
    ((1 - x * x) * (1 - x * x))

/-- A smooth bump on a constant: `1 + 1000 exp(-10⁴ (x - 0.366)²)`. -/
def gaussBump (x : Dbl) : Dbl :=
  1 + Dbl.clip 1000 *
    exp (-(Dbl.clip 10000 * ((x - Dbl.clip (366 / 1000)) * (x - Dbl.clip (366 / 1000)))))

/-- A decaying integrand with a slowly growing part that overflows far out:
`exp(-x) + 10⁻⁶ exp(x/100)`. -/
def growDecay (x : Dbl) : Dbl :=
  exp (-x) + Dbl.clip (1 / 1000000) * exp (x / Dbl.clip 100)

/-- An integrand with a pole at 0: `1/|x|`. -/
def recipAbs (x : Dbl) : Dbl := 1 / fabs x

/-- A parabola of a height near the largest `double`: `0.6 maxDbl (1 - x²)`. -/
def tallParabola (x : Dbl) : Dbl := Dbl.clip (6 / 10 * maxDbl) * (1 - x * x)

/-- The setup of `quad` for the bounds `-1` and `1`. -/
def unitSetup : Setup Dbl :=
  { a := Dbl.clip (-1), b := Dbl.clip 1, c := Dbl.clip 0, d := Dbl.clip 1, sign := 1,
    v := Dbl.clip 0, mode := 0 }

/-- The integrand `x² + 1` in exact arithmetic. -/
def sqPlusOne (x : Exact) : Exact := x * x + 1

/-- The setup of `quad` for the bounds 0 and 1 in exact arithmetic. -/
def exactSetup : Setup Exact :=
  { a := ⟨0⟩, b := ⟨1⟩, c := ⟨1 / 2⟩, d := ⟨1 / 2⟩, sign := ⟨1⟩, v := ⟨1 / 2⟩, mode := 0 }

/-- The constant 1 on finite arguments, `-100` at `±∞` and at `NaN`. -/
def farLow (x : Dbl) : Dbl := if isfinite x then 1 else -100

/-- A slowly decaying integrand: `1/(1 + |x|)`. -/
def slowTail (x : Dbl) : Dbl := 1 / (1 + fabs x)

/-- The integrand `slowTail` on finite arguments, 1 at `±∞` and at `NaN`. -/
def slowTailInf (x : Dbl) : Dbl := if isfinite x then 1 / (1 + fabs x) else 1

/-- The identity in exact arithmetic, but 7 at 0 and at 1. -/
def offEnds (x : Exact) : Exact :=
  if x.val = 0 ∨ x.val = 1 then ⟨7⟩ else x

/-- The integrand `1/x` on `Fp`: `+∞` at `+0` and `-∞` at `-0`. -/
def recipFp (x : Fp) : Fp := 1 / x

/-- The sign of the argument read off its sign bit, as `copysign(1, x)`: 1 at
`+0`, `-1` at `-0`; `NaN` at `NaN`. -/
def signFp (x : Fp) : Fp :=
  match x with
  | Fp.nan => Fp.nan
  | _ => if Fp.signbit x then -1 else 1

/-- An integrand that tells the endpoint 0 from every other point: 1 at `+0` and
at `-0`, 0 elsewhere. -/
def oneAtZero (x : Fp) : Fp := if eq x 0 then 1 else 0

/-- The integrand `heavyTailFp` of below, made 7 at every negative argument. -/
def heavyTailOff (x : Fp) : Fp :=
  if lt x 0 then 7
  else if lt x 100 then 1 / ((1 + x) * (1 + x) * (1 + x) * (1 + x))
  else 1000000 / (x * x)

/-- The setup of `quad` for `heavyTailFp` over `(0, +∞)` with `eps = 10^-3`: the
optimizer has turned the offset 1 into `1/64`. -/
def halfLineSetup : Setup Fp :=
  { a := 0, b := Fp.inf false, c := 0, d := Fp.round false (1 / 64), sign := 1,
    v := 0 + Fp.round false (1 / 64), mode := 1 }

/-- The integrand `heavyTail` on `Fp`: `1/(1+x)^4` below 100, `10^6/x^2` from
100 on. -/
def heavyTailFp (x : Fp) : Fp :=
  if lt x 100 then 1 / ((1 + x) * (1 + x) * (1 + x) * (1 + x))
  else 1000000 / (x * x)

/-- The integrand `heavyTailFp` with its argument scaled by `2^1074` (in two
exact steps). -/
def heavyTailTiny (x : Fp) : Fp := heavyTailFp (x * ofInt (2 ^ 537) * ofInt (2 ^ 537))

end TanhSinh

namespace TanhSinh

open Arith

/-! ## The outer loop -/

theorem level_k {α : Type} [Arith α] {f : α → α} {S : Setup α} {eps : α} {fuel : Nat}
    {L L' : Level α} (h : level f S eps fuel L = some L') : L'.k = L.k + 1 := by
  unfold level at h
  split at h
  · cases h
  · cases h; rfl

theorem qthshLevel_k {α : Type} [Arith α] {f : α → α} {a b d eps : α} {fuel : Nat}
    {L L' : Level α} (h : qthshLevel f a b d eps fuel L = some L') : L'.k = L.k + 1 := by
  unfold qthshLevel at h
  split at h
  · cases h
  · cases h; rfl

/-- The outer loop of `quad` is a sequence of `m` passes, with `m` between 1 and
the cap, provided it was given as many passes as `k ≤ n` allows. -/
theorem levels_eq_iter {α : Type} [Arith α] (P : Profile) (f : α → α) (S : Setup α) (n : Int)
    (eps : α) (fuel : Nat) :
    ∀ (g : Nat) (L : Level α), (n + 1 - L.k).toNat < g →
      ∃ m : Nat, 1 ≤ m ∧ L.k + m ≤ max (n + 1) (L.k + 1) ∧
        levels P f S n eps fuel g L = levelIter f S eps fuel m L := by
  intro g
  induction g with
  | zero => intro L h; omega
  | succ g ih =>
    intro L hg
    cases hl : level f S eps fuel L with
    | none =>
      exact ⟨1, le_refl 1, by omega, by simp [levels, levelIter, hl]⟩
    | some L' =>
      have hk := level_k hl
      by_cases hc : (lt (ofInt (FUDGE1 P) * eps * fabs L'.s) (fabs L'.v) && decide (L'.k ≤ n)) = true
      · have hkn : L'.k ≤ n := by
          simp only [Bool.and_eq_true, decide_eq_true_eq] at hc
          exact hc.2
        obtain ⟨m, hm1, hm2, hm3⟩ := ih L' (by omega)
        refine ⟨m + 1, by omega, by omega, ?_⟩
        simp [levels, levelIter, hl, hc, hm3]
      · refine ⟨1, le_refl 1, by omega, ?_⟩
        simp [levels, levelIter, hl, hc]

theorem qthshLevels_eq_iter {α : Type} [Arith α] (P : Profile) (f : α → α) (a b d : α) (n : Int)
    (eps : α) (fuel : Nat) :
    ∀ (g : Nat) (L : Level α), (n + 1 - L.k).toNat < g →
      ∃ m : Nat, 1 ≤ m ∧ L.k + m ≤ max (n + 1) (L.k + 1) ∧
        qthshLevels P f a b d n eps fuel g L = qthshLevelIter f a b d eps fuel m L := by
  intro g
  induction g with
  | zero => intro L h; omega
  | succ g ih =>
    intro L hg
    cases hl : qthshLevel f a b d eps fuel L with
    | none =>
      exact ⟨1, le_refl 1, by omega, by simp [qthshLevels, qthshLevelIter, hl]⟩
    | some L' =>
      have hk := qthshLevel_k hl
      by_cases hc : (lt (ofInt (FUDGE1 P) * eps * fabs L'.s) (fabs L'.v) && decide (L'.k ≤ n)) = true
      · have hkn : L'.k ≤ n := by
          simp only [Bool.and_eq_true, decide_eq_true_eq] at hc
          exact hc.2
        obtain ⟨m, hm1, hm2, hm3⟩ := ih L' (by omega)
        refine ⟨m + 1, by omega, by omega, ?_⟩
        simp [qthshLevels, qthshLevelIter, hl, hc, hm3]
      · refine ⟨1, le_refl 1, by omega, ?_⟩
        simp [qthshLevels, qthshLevelIter, hl, hc]

theorem levelIter_k {α : Type} [Arith α] (f : α → α) (S : Setup α) (eps : α) (fuel : Nat) :
    ∀ (m : Nat) (L L' : Level α), levelIter f S eps fuel m L = some L' → L'.k = L.k + m := by
  intro m
  induction m with
  | zero => intro L L' h; simp [levelIter] at h; simp [h]
  | succ m ih =>
    intro L L' h
    cases hl : level f S eps fuel L with
    | none => simp [levelIter, hl] at h
    | some L1 =>
      simp only [levelIter, hl] at h
      have := ih L1 L' h
      have := level_k hl
      push_cast
      omega

theorem qthshLevelIter_k {α : Type} [Arith α] (f : α → α) (a b d eps : α) (fuel : Nat) :
    ∀ (m : Nat) (L L' : Level α),
      qthshLevelIter f a b d eps fuel m L = some L' → L'.k = L.k + m := by
  intro m
  induction m with
  | zero => intro L L' h; simp [qthshLevelIter] at h; simp [h]
  | succ m ih =>
    intro L L' h
    cases hl : qthshLevel f a b d eps fuel L with
    | none => simp [qthshLevelIter, hl] at h
    | some L1 =>
      simp only [qthshLevelIter, hl] at h
      have := ih L1 L' h
      have := qthshLevel_k hl
      push_cast
      omega

theorem levelIter_isSome {α : Type} [Arith α] (f : α → α) (S : Setup α) (eps : α) (fuel : Nat)
    (h : ∀ L : Level α, (level f S eps fuel L).isSome = true) :
    ∀ (m : Nat) (L : Level α), (levelIter f S eps fuel m L).isSome = true := by
  intro m
  induction m with
  | zero => intro L; rfl
  | succ m ih =>
    intro L
    obtain ⟨L1, h1⟩ := Option.isSome_iff_exists.mp (h L)
    simp only [levelIter, h1]
    exact ih L1

theorem qthshLevelIter_isSome {α : Type} [Arith α] (f : α → α) (a b d eps : α) (fuel : Nat)
    (h : ∀ L : Level α, (qthshLevel f a b d eps fuel L).isSome = true) :
    ∀ (m : Nat) (L : Level α), (qthshLevelIter f a b d eps fuel m L).isSome = true := by
  intro m
  induction m with
  | zero => intro L; rfl
  | succ m ih =>
    intro L
    obtain ⟨L1, h1⟩ := Option.isSome_iff_exists.mp (h L)
    simp only [qthshLevelIter, h1]
    exact ih L1

end TanhSinh

namespace TanhSinh

open Arith

theorem level_congr {α : Type} [Arith α] (f : α → α) (S : Setup α) (eps : α) (fuel : Nat)
    (L L' : Level α) (hs : L.s = L'.s) (hh : L.h = L'.h) (hk : L.k = L'.k) :
    level f S eps fuel L = level f S eps fuel L' := by
  simp [level, levelSweep, hs, hh, hk]

/-- The state at the exit of the outer loop comes from one last pass: it is
built from the state before that pass and the increment `p` of its sweep. -/
theorem levels_last {α : Type} [Arith α] (P : Profile) (f : α → α) (S : Setup α) (n : Int)
    (eps : α) (fuel : Nat) :
    ∀ (g : Nat) (L L' : Level α), levels P f S n eps fuel g L = some L' →
      ∃ (m : Nat) (Lp : Level α) (st : Sweep α),
        levelIter f S eps fuel m L = some Lp ∧ levelSweep f S eps fuel Lp = some st ∧
        L' = { s := Lp.s + st.p, v := Lp.s - st.p, h := Lp.h / 2, k := Lp.k + 1 } := by
  intro g
  induction g with
  | zero => intro L L' h; simp [levels] at h
  | succ g ih =>
    intro L L' h
    cases hl : level f S eps fuel L with
    | none => simp [levels, hl] at h
    | some L1 =>
      simp only [levels, hl] at h
      split at h
      · obtain ⟨m, Lp, st, h1, h2, h3⟩ := ih L1 L' h
        exact ⟨m + 1, Lp, st, by simp [levelIter, hl, h1], h2, h3⟩
      · cases hsw : levelSweep f S eps fuel L with
        | none => simp [level, hsw] at hl
        | some st =>
          refine ⟨0, L, st, rfl, hsw, ?_⟩
          simp only [level, hsw, Option.some.injEq] at hl
          simp only [Option.some.injEq] at h
          rw [← h, ← hl]

theorem qthshLevels_last {α : Type} [Arith α] (P : Profile) (f : α → α) (a b d : α) (n : Int)
    (eps : α) (fuel : Nat) :
    ∀ (g : Nat) (L L' : Level α), qthshLevels P f a b d n eps fuel g L = some L' →
      ∃ (m : Nat) (Lp : Level α) (st : Sweep α),
        qthshLevelIter f a b d eps fuel m L = some Lp ∧
        qthshLevelSweep f a b d eps fuel Lp = some st ∧
        L' = { s := Lp.s + st.p, v := Lp.s - st.p, h := Lp.h / 2, k := Lp.k + 1 } := by
  intro g
  induction g with
  | zero => intro L L' h; simp [qthshLevels] at h
  | succ g ih =>
    intro L L' h
    cases hl : qthshLevel f a b d eps fuel L with
    | none => simp [qthshLevels, hl] at h
    | some L1 =>
      simp only [qthshLevels, hl] at h
      split at h
      · obtain ⟨m, Lp, st, h1, h2, h3⟩ := ih L1 L' h
        exact ⟨m + 1, Lp, st, by simp [qthshLevelIter, hl, h1], h2, h3⟩
      · cases hsw : qthshLevelSweep f a b d eps fuel L with
        | none => simp [qthshLevel, hsw] at hl
        | some st =>
          refine ⟨0, L, st, rfl, hsw, ?_⟩
          simp only [qthshLevel, hsw, Option.some.injEq] at hl
          simp only [Option.some.injEq] at h
          rw [← h, ← hl]

/-! ## `qthsh` against `quad` -/

theorem qthshSweep_eq {α : Type} [Arith α] (f : α → α) (a b d eps eh : α) :
    ∀ (fuel : Nat) (st : Sweep α),
      qthshSweep f a b d eps eh fuel st = tanhSinhSweep f a b d eps eh fuel st := by
  intro fuel
  induction fuel with
  | zero => intro st; rfl
  | succ fuel ih => intro st; simp only [qthshSweep, tanhSinhSweep, qthshStep, tanhSinhStep, ih]

theorem qthshLevel_eq {α : Type} [Arith α] (f : α → α) (S : Setup α) (eps : α) (fuel : Nat)
    (hm : S.mode = 0) (L : Level α) :
    qthshLevel f S.a S.b S.d eps fuel L = level f S eps fuel L := by
  simp [qthshLevel, level, qthshLevelSweep, levelSweep, hm, qthshSweep_eq]

theorem qthshLevels_eq {α : Type} [Arith α] (P : Profile) (f : α → α) (S : Setup α) (n : Int)
    (eps : α) (fuel : Nat) (hm : S.mode = 0) :
    ∀ (g : Nat) (L : Level α),
      qthshLevels P f S.a S.b S.d n eps fuel g L = levels P f S n eps fuel g L := by
  intro g
  induction g with
  | zero => intro L; rfl
  | succ g ih => intro L; simp only [qthshLevels, levels, qthshLevel_eq f S eps fuel hm, ih]

theorem levels_congr {α : Type} [Arith α] (P : Profile) (f : α → α) (S : Setup α) (n : Int)
    (eps : α) (fuel : Nat) (g : Nat) (L L' : Level α) (hs : L.s = L'.s) (hh : L.h = L'.h)
    (hk : L.k = L'.k) : levels P f S n eps fuel g L = levels P f S n eps fuel g L' := by
  cases g with
  | zero => rfl
  | succ g => simp only [levels, level_congr f S eps fuel L L' hs hh hk]

theorem quadSetup_finite {α : Type} [Arith α] (f : α → α) (a b eps : α)
    (ha : isfinite a = true) (hb : isfinite b = true) (hab : lt b a = false) :
    quadSetup f a b eps =
      some { a := a, b := b, c := (a + b) / 2, d := (b - a) / 2, sign := 1,
             v := (a + b) / 2, mode := 0 } := by
  simp [quadSetup, selectMode, ha, hb, hab]

end TanhSinh

namespace TanhSinh

open Arith

/-! ## The laws hold in `Dbl` -/

namespace Dbl

theorem maxDbl_pos : (0 : ℚ) < maxDbl := by
  unfold maxDbl
  norm_num

theorem clip_neg (q : ℚ) : clip (-q) = neg (clip q) := by
  have h := maxDbl_pos
  unfold clip
  by_cases h1 : maxDbl < q
  · have h2 : ¬ maxDbl < -q := by linarith
    have h3 : -q < -maxDbl := by linarith
    simp [h1, h2, h3, neg]
  · by_cases h2 : q < -maxDbl
    · have h3 : maxDbl < -q := by linarith
      simp [h1, h2, h3, neg]
    · have h3 : ¬ maxDbl < -q := by linarith
      have h4 : ¬ -q < -maxDbl := by linarith
      simp [h1, h2, h3, h4, neg]

theorem clip_fin (q : ℚ) (h : |q| ≤ maxDbl) : clip q = fin q h := by
  have := abs_le.mp h
  unfold clip
  have h1 : ¬ maxDbl < q := by linarith
  have h2 : ¬ q < -maxDbl := by linarith
  simp [h1, h2]

theorem neg_fin (q : ℚ) (h : |q| ≤ maxDbl) :
    neg (fin q h) = fin (-q) ((abs_neg q).symm ▸ h) := rfl

theorem neg_pinf : neg pinf = ninf := rfl

theorem neg_ninf : neg ninf = pinf := rfl

theorem neg_nan : neg nan = nan := rfl

theorem negNeg (x : Dbl) : neg (neg x) = x := by
  cases x <;> simp [neg]

theorem infOfSign_neg (q : ℚ) : infOfSign (-q) = neg (infOfSign q) := by
  unfold infOfSign
  rcases lt_trichotomy q 0 with h | h | h
  · have h1 : ¬ 0 < q := by linarith
    have h2 : 0 < -q := by linarith
    simp [h, h1, h2, neg]
  · subst h; simp [neg]
  · have h1 : ¬ q < 0 := by linarith
    have h2 : ¬ 0 < -q := by linarith
    have h3 : -q < 0 := by linarith
    simp [h, h1, h2, h3, neg]

theorem negAdd (x y : Dbl) : neg (add x y) = add (neg x) (neg y) := by
  cases x <;> cases y <;>
    simp only [add, neg_fin, neg_pinf, neg_ninf, neg_nan, ← clip_neg, neg_add]

theorem negMul (x y : Dbl) : mul (neg x) y = neg (mul x y) := by
  cases x <;> cases y <;>
    simp only [mul, neg_fin, neg_pinf, neg_ninf, neg_nan, ← clip_neg, ← infOfSign_neg, neg_mul,
      neg_neg]

theorem negDiv (x y : Dbl) : div (neg x) y = neg (div x y) := by
  cases x <;> cases y <;>
    simp only [div, neg_fin, neg_pinf, neg_ninf, neg_nan, ← clip_neg, ← infOfSign_neg, neg_div,
      neg_neg, neg_zero]
  all_goals (split <;> simp only [neg_fin, neg_pinf, neg_ninf, neg_nan, ← clip_neg,
    ← infOfSign_neg, neg_div])

theorem oneMul (x : Dbl) : mul (clip 1) x = x := by
  have h1 : clip 1 = fin 1 (by rw [abs_one]; unfold maxDbl; norm_num) := clip_fin _ _
  rw [h1]
  cases x with
  | fin q h => simp only [mul, one_mul, clip_fin q h]
  | pinf => simp [mul, infOfSign]
  | ninf => simp [mul, infOfSign]
  | nan => simp [mul]

theorem isfiniteNeg (x : Dbl) : isfinite (neg x) = isfinite x := by
  cases x <;> rfl

theorem eqNeg (x y : Dbl) : eq (neg x) (neg y) = eq x y := by
  cases x <;> cases y <;> simp [eq, neg]

theorem signLaws : SignLaws Dbl where
  neg_neg := negNeg
  neg_mul := negMul
  neg_div := negDiv
  one_mul := fun x => by
    show mul (clip ((1 : Nat) : Int)) x = x
    simpa using oneMul x
  isfinite_neg := isfiniteNeg
  eq_neg := eqNeg

theorem eqNegAdd : EqNegAdd Dbl := fun x y z => by
  show eq (neg (add x y)) z = eq (add (neg x) (neg y)) z
  rw [negAdd]

end Dbl

end TanhSinh

namespace TanhSinh

open Arith

/-! ## The laws hold in `Fp` -/

namespace Fp

theorem fp_add_def (x y : Fp) : x + y = add x y := rfl

theorem fp_sub_def (x y : Fp) : x - y = add x (neg y) := rfl

theorem fp_mul_def (x y : Fp) : x * y = mul x y := rfl

theorem fp_div_def (x y : Fp) : x / y = div x y := rfl

theorem fp_neg_def (x : Fp) : -x = neg x := rfl

theorem fp_lt_def (x y : Fp) : Arith.lt x y = lt x y := rfl

theorem fp_eq_def (x y : Fp) : Arith.eq x y = eq x y := rfl

theorem fp_isfinite_def (x : Fp) : Arith.isfinite x = isfinite x := rfl

theorem fp_fabs_def (x : Fp) : Arith.fabs x = fabs x := rfl

theorem fp_ofInt_def (z : Int) : (ofInt z : Fp) = round (decide (z < 0)) (z : ℚ) := rfl

theorem fp_lit_def (n : Nat) : (OfNat.ofNat n : Fp) = round false (n : ℚ) := by
  show round (decide (((n : Nat) : Int) < 0)) (((n : Nat) : Int) : ℚ) = round false (n : ℚ)
  have : ¬ ((n : Int) < 0) := by omega
  simp [this]

theorem minDbl_pos : (0 : ℚ) < minDbl := by
  unfold minDbl
  positivity

theorem fin_ne_zero {q : ℚ} (h : minDbl / 2 < |q| ∧ |q| ≤ maxDbl) : q ≠ 0 := by
  intro h0
  have := minDbl_pos
  rw [h0, abs_zero] at h
  linarith [h.1]

theorem round_fin (s : Bool) (q : ℚ) (h : minDbl / 2 < |q| ∧ |q| ≤ maxDbl) :
    round s q = fin q h := by
  unfold round
  rw [dif_neg (not_le.mpr h.1), dif_neg (not_lt.mpr h.2)]

theorem neg_round (s : Bool) (q : ℚ) : neg (round s q) = round (!s) (-q) := by
  unfold round
  simp only [abs_neg]
  split
  · rfl
  · split <;> rfl

theorem fpNegNeg (x : Fp) : neg (neg x) = x := by
  cases x <;> simp [neg]

theorem signbit_neg_fin {q : ℚ} (h : q ≠ 0) : decide (-q < 0) = !decide (q < 0) := by
  rcases lt_or_gt_of_ne h with h1 | h1
  · have : ¬ -q < 0 := by linarith
    simp [h1, this]
  · have : ¬ q < 0 := by linarith
    have h2 : -q < 0 := by linarith
    simp [h2, this]

theorem fpNegMul (x y : Fp) : mul (neg x) y = neg (mul x y) := by
  cases x with
  | fin p hp =>
    cases y with
    | fin q hq =>
      show round (xor (decide (-p < 0)) (decide (q < 0))) (-p * q) =
        neg (round (xor (decide (p < 0)) (decide (q < 0))) (p * q))
      rw [neg_round, neg_mul, signbit_neg_fin (fin_ne_zero hp)]
      cases decide (p < 0) <;> cases decide (q < 0) <;> rfl
    | zero t =>
      simp only [neg, mul, signbit, signbit_neg_fin (fin_ne_zero hp)]
      cases decide (p < 0) <;> cases t <;> rfl
    | inf t =>
      simp only [neg, mul, signbit, signbit_neg_fin (fin_ne_zero hp)]
      cases decide (p < 0) <;> cases t <;> rfl
    | nan => rfl
  | zero s => cases y <;> simp [neg, mul, signbit]
  | inf s => cases y <;> simp [neg, mul, signbit]
  | nan => cases y <;> rfl

theorem fpNegDiv (x y : Fp) : div (neg x) y = neg (div x y) := by
  cases x with
  | fin p hp =>
    cases y with
    | fin q hq =>
      show round (xor (decide (-p < 0)) (decide (q < 0))) (-p / q) =
        neg (round (xor (decide (p < 0)) (decide (q < 0))) (p / q))
      rw [neg_round, neg_div, signbit_neg_fin (fin_ne_zero hp)]
      cases decide (p < 0) <;> cases decide (q < 0) <;> rfl
    | zero t =>
      simp only [neg, div, signbit, signbit_neg_fin (fin_ne_zero hp)]
      cases decide (p < 0) <;> cases t <;> rfl
    | inf t =>
      simp only [neg, div, signbit, signbit_neg_fin (fin_ne_zero hp)]
      cases decide (p < 0) <;> cases t <;> rfl
    | nan => rfl
  | zero s => cases y <;> simp [neg, div, signbit]
  | inf s => cases y <;> simp [neg, div, signbit]
  | nan => cases y <;> rfl

theorem one_inRange : minDbl / 2 < |(1 : ℚ)| ∧ |(1 : ℚ)| ≤ maxDbl := by
  unfold minDbl maxDbl
  norm_num

theorem fp_one_def : (1 : Fp) = fin 1 one_inRange := by
  rw [fp_lit_def]
  simp only [Nat.cast_one]
  exact round_fin false 1 one_inRange

theorem fp_zero_def : (0 : Fp) = zero false := by
  rw [fp_lit_def]
  have := minDbl_pos
  simp only [Nat.cast_zero, round, abs_zero]
  rw [dif_pos (by linarith)]

theorem fpOneMul (x : Fp) : mul (fin 1 one_inRange) x = x := by
  cases x with
  | fin q hq =>
    have : ¬ (1 : ℚ) < 0 := by norm_num
    simp only [mul, one_mul, this, decide_False, Bool.false_xor]
    exact round_fin _ q hq
  | zero t => cases t <;> simp [mul, signbit]
  | inf t => cases t <;> simp [mul, signbit]
  | nan => rfl

theorem fpMulOne (x : Fp) : mul x (fin 1 one_inRange) = x := by
  cases x with
  | fin q hq =>
    have : ¬ (1 : ℚ) < 0 := by norm_num
    simp only [mul, mul_one, this, decide_False, Bool.xor_false]
    exact round_fin _ q hq
  | zero t => cases t <;> simp [mul, signbit]
  | inf t => cases t <;> simp [mul, signbit]
  | nan => rfl

theorem fpDivOne (x : Fp) : div x (fin 1 one_inRange) = x := by
  cases x with
  | fin q hq =>
    have : ¬ (1 : ℚ) < 0 := by norm_num
    simp only [div, div_one, this, decide_False, Bool.xor_false]
    exact round_fin _ q hq
  | zero t => cases t <;> simp [div, signbit]
  | inf t => cases t <;> simp [div, signbit]
  | nan => rfl

theorem fpIsfiniteNeg (x : Fp) : isfinite (neg x) = isfinite x := by
  cases x <;> rfl

theorem val_neg (x : Fp) : val (neg x) = -val x := by
  cases x <;> simp [neg, val]

theorem fpEqNeg (x y : Fp) : eq (neg x) (neg y) = eq x y := by
  cases x <;> cases y <;> simp [neg, eq, val, eq_comm]

/-- Two values that are the same number: equal, or both a zero. -/
def Same (x y : Fp) : Prop := x = y ∨ ∃ s t, x = zero s ∧ y = zero t

theorem eq_same {x y : Fp} (h : Same x y) (z : Fp) : eq x z = eq y z := by
  rcases h with h | ⟨s, t, h1, h2⟩
  · rw [h]
  · rw [h1, h2]
    cases z <;> simp [eq, val]

theorem negAdd_same (x y : Fp) : Same (neg (add x y)) (add (neg x) (neg y)) := by
  cases x with
  | fin p hp =>
    cases y with
    | fin q hq =>
      by_cases h0 : p + q = 0
      · have h1 : -p + -q = 0 := by linarith
        exact Or.inr ⟨true, false, by simp [add, neg, h0], by simp [add, neg, h1]⟩
      · have h1 : ¬ -p + -q = 0 := fun h => h0 (by linarith)
        have h2 : -p + -q = -(p + q) := by ring
        refine Or.inl ?_
        show neg (if p + q = 0 then zero false else round (decide (p + q < 0)) (p + q)) =
          (if -p + -q = 0 then zero false else round (decide (-p + -q < 0)) (-p + -q))
        rw [if_neg h0, if_neg h1, neg_round, h2, signbit_neg_fin h0]
    | zero t => exact Or.inl rfl
    | inf t => exact Or.inl rfl
    | nan => exact Or.inl rfl
  | zero s =>
    cases y with
    | fin q hq => exact Or.inl rfl
    | zero t => exact Or.inr ⟨!(s && t), (!s && !t), rfl, rfl⟩
    | inf t => exact Or.inl rfl
    | nan => exact Or.inl rfl
  | inf s =>
    cases y with
    | fin q hq => exact Or.inl rfl
    | zero t => exact Or.inl rfl
    | inf t =>
      refine Or.inl ?_
      cases s <;> cases t <;> rfl
    | nan => exact Or.inl rfl
  | nan => cases y <;> exact Or.inl rfl

/-- `Fp`, with its two zeros, underflow and overflow, has the sign symmetry of
`SignLaws`. -/
theorem fpSignLaws : SignLaws Fp where
  neg_neg := fpNegNeg
  neg_mul := fpNegMul
  neg_div := fpNegDiv
  one_mul := fun x => by rw [fp_one_def]; exact fpOneMul x
  isfinite_neg := fpIsfiniteNeg
  eq_neg := fpEqNeg

/-- On `Fp` the negation of a sum and the sum of the negations are the same
number. -/
theorem fpEqNegAdd : EqNegAdd Fp := fun x y z => eq_same (negAdd_same x y) z

end Fp

end TanhSinh

namespace TanhSinh

open Arith

namespace Fp

theorem sign_zero (s : Bool) : sign (zero s) = 0 := by
  simp [sign, fp_zero_def, fp_lt_def, lt, val]

theorem sign_inf (s : Bool) : sign (inf s) = if s then -1 else 1 := by
  cases s <;> simp [sign, fp_zero_def, fp_lt_def, lt]

theorem sign_nan : sign nan = 0 := by
  simp [sign, fp_zero_def, fp_lt_def, lt]

theorem fp_sign_fin (q : ℚ) (h : minDbl / 2 < |q| ∧ |q| ≤ maxDbl) :
    sign (fin q h) = if q < 0 then -1 else 1 := by
  rcases lt_or_gt_of_ne (fin_ne_zero h) with h1 | h1
  · have : ¬ 0 < q := by linarith
    simp [sign, fp_zero_def, fp_lt_def, lt, val, h1, this]
  · have : ¬ q < 0 := by linarith
    simp [sign, fp_zero_def, fp_lt_def, lt, val, h1, this]

/-- A result that does not underflow has the sign of its sign bit. -/
theorem sign_round (q : ℚ) (h : minDbl / 2 < |q|) :
    sign (round (decide (q < 0)) q) = if q < 0 then -1 else 1 := by
  unfold round
  rw [dif_neg (not_le.mpr h)]
  split
  · rw [sign_inf]
    simp
  · rw [fp_sign_fin]

/-- A result that underflows is a zero. -/
theorem sign_round_zero (s : Bool) (q : ℚ) (h : |q| ≤ minDbl / 2) : sign (round s q) = 0 := by
  unfold round
  rw [dif_pos h, sign_zero]

theorem pow_inRange (e : Nat) (he : e ≤ 16) :
    minDbl / 2 < |(2 : ℚ) ^ e| ∧ |(2 : ℚ) ^ e| ≤ maxDbl := by
  have h1 : (1 : ℚ) ≤ 2 ^ e := one_le_pow₀ (by norm_num)
  have h2 : (2 : ℚ) ^ e ≤ 2 ^ 16 := pow_le_pow_right₀ (by norm_num) he
  rw [abs_of_pos (by positivity)]
  constructor
  · have : minDbl / 2 < 1 := by unfold minDbl; norm_num
    linarith
  · have : (2 : ℚ) ^ 16 ≤ maxDbl := by unfold maxDbl; norm_num
    linarith

theorem fp_ofInt_pow (e : Nat) (he : e ≤ 16) :
    (ofInt (2 ^ e) : Fp) = fin (2 ^ e) (pow_inRange e he) := by
  rw [fp_ofInt_def]
  have : ((2 ^ e : Int) : ℚ) = 2 ^ e := by push_cast; rfl
  rw [this]
  exact round_fin _ _ _

theorem signMulPow (x : Fp) (e : Nat) (he : e ≤ 16) : sign (x * ofInt (2 ^ e)) = sign x := by
  have hp : (0 : ℚ) < 2 ^ e := by positivity
  have h1 : (1 : ℚ) ≤ 2 ^ e := one_le_pow₀ (by norm_num)
  have hn : ¬ (2 : ℚ) ^ e < 0 := not_lt.mpr hp.le
  rw [fp_ofInt_pow e he, fp_mul_def]
  cases x with
  | fin p h =>
    have hs : (p * 2 ^ e < 0) = (p < 0) := by
      apply propext
      constructor
      · intro h2
        by_contra h3
        have := mul_nonneg (not_lt.mp h3) hp.le
        linarith
      · intro h2
        exact mul_neg_of_neg_of_pos h2 hp
    have hb : minDbl / 2 < |p * 2 ^ e| := by
      rw [abs_mul, abs_of_pos hp]
      have := abs_nonneg p
      nlinarith [h.1]
    show sign (round (xor (decide (p < 0)) (decide ((2 : ℚ) ^ e < 0))) (p * 2 ^ e)) = _
    have hx : xor (decide (p < 0)) (decide ((2 : ℚ) ^ e < 0)) = decide (p * 2 ^ e < 0) := by
      simp [hn, hs]
    rw [hx, sign_round _ hb, fp_sign_fin]
    simp only [hs]
  | zero s =>
    show sign (zero (xor s (decide ((2 : ℚ) ^ e < 0)))) = _
    rw [sign_zero, sign_zero]
  | inf s =>
    show sign (inf (xor s (decide ((2 : ℚ) ^ e < 0)))) = _
    simp [hn]
  | nan => rfl

/-- `Fp` has the laws of `ScaleLaws`. -/
theorem fpScaleLaws : ScaleLaws Fp where
  mul_one := fun x => by rw [fp_one_def]; exact fpMulOne x
  div_one := fun x => by rw [fp_one_def]; exact fpDivOne x
  half_pow := fun e he => by
    interval_cases e <;> decide!
  sign_mul_pow := signMulPow

/-- On `Fp` the quotients of a finite `d` other than zero by the powers of two
up to `2^16` keep the `sign` of `d` exactly when `|d|` is above `2^-1059`, that
is from `2^-1058` on for a `double`. -/
theorem noUnderflow_iff (q : ℚ) (h : minDbl / 2 < |q| ∧ |q| ≤ maxDbl) :
    NoUnderflow (fin q h) ↔ minDbl * 2 ^ 15 < |q| := by
  have hm := minDbl_pos
  constructor
  · intro hu
    by_contra hc
    have h16 := hu 16 (le_refl _)
    rw [fp_ofInt_pow 16 (le_refl _), fp_div_def] at h16
    have hsmall : |q / 2 ^ 16| ≤ minDbl / 2 := by
      rw [abs_div, abs_of_pos (by positivity : (0 : ℚ) < 2 ^ 16), div_le_iff₀ (by positivity)]
      have := not_lt.mp hc
      linarith
    have h0 : sign (div (fin q h) (fin (2 ^ 16) (pow_inRange 16 (le_refl _)))) = 0 :=
      sign_round_zero _ _ hsmall
    rw [h0, fp_sign_fin] at h16
    split at h16 <;> omega
  · intro hq e he
    have hp : (0 : ℚ) < 2 ^ e := by positivity
    have h2 : (2 : ℚ) ^ e ≤ 2 ^ 16 := pow_le_pow_right₀ (by norm_num) he
    have hn : ¬ (2 : ℚ) ^ e < 0 := not_lt.mpr hp.le
    rw [fp_ofInt_pow e he, fp_div_def]
    have hs : (q / 2 ^ e < 0) = (q < 0) := by
      apply propext
      constructor
      · intro h2
        by_contra h3
        have := div_nonneg (not_lt.mp h3) hp.le
        linarith
      · intro h2
        exact div_neg_of_neg_of_pos h2 hp
    have hb : minDbl / 2 < |q / 2 ^ e| := by
      rw [abs_div, abs_of_pos hp, lt_div_iff₀ hp]
      have : minDbl / 2 * 2 ^ e ≤ minDbl / 2 * 2 ^ 16 :=
        mul_le_mul_of_nonneg_left h2 (by linarith)
      linarith
    show sign (round (xor (decide (q < 0)) (decide ((2 : ℚ) ^ e < 0))) (q / 2 ^ e)) = _
    have hx : xor (decide (q < 0)) (decide ((2 : ℚ) ^ e < 0)) = decide (q / 2 ^ e < 0) := by
      simp [hn, hs]
    rw [hx, sign_round _ hb, fp_sign_fin]
    simp only [hs]

theorem noUnderflow_one : NoUnderflow (1 : Fp) := by
  rw [fp_one_def, noUnderflow_iff]
  unfold minDbl
  norm_num

theorem fpCancel (x : Fp) (hx : isfinite x = true) :
    add (add (zero false) (neg x)) x = zero false := by
  cases x with
  | fin q h => simp [neg, add]
  | zero s => cases s <;> rfl
  | inf s => cases hx
  | nan => cases hx

theorem fpLtMulZero (e : Fp) : lt (mul e (zero false)) (zero false) = false := by
  cases e <;> simp [mul, lt, val]

/-- `Fp` has the laws of `ZeroLaws`. -/
theorem fpZeroLaws : ZeroLaws Fp where
  one_mul := fpSignLaws.one_mul
  neg_mul := fpSignLaws.neg_mul
  isfinite_neg := fpSignLaws.isfinite_neg
  zero_add_zero := by decide!
  zero_sub_zero := by decide!
  negzero_add_zero := by decide!
  fabs_negzero_sub_zero := by decide!
  zero_sub_first := by decide!
  zero_add_first := by decide!
  cancel := fun x hx => by
    rw [fp_zero_def]
    exact fpCancel x hx
  zero_mul_jac := by decide!
  zero_mul_half := by decide!
  fabs_zero := by decide!
  lt_mul_zero := fun e => by
    rw [fp_zero_def]
    exact fpLtMulZero e

end Fp

end TanhSinh

namespace TanhSinh

open Arith

/-! ## Swapped bounds -/

theorem level_sign {α : Type} [Arith α] (f : α → α) (S : Setup α) (x eps : α) (fuel : Nat)
    (L : Level α) : level f { S with sign := x } eps fuel L = level f S eps fuel L := by
  simp [level, levelSweep]

theorem levels_sign {α : Type} [Arith α] (P : Profile) (f : α → α) (S : Setup α) (x : α)
    (n : Int) (eps : α) (fuel : Nat) :
    ∀ (g : Nat) (L : Level α),
      levels P f { S with sign := x } n eps fuel g L = levels P f S n eps fuel g L := by
  intro g
  induction g with
  | zero => intro L; rfl
  | succ g ih => intro L; simp only [levels, level_sign, ih]

theorem selectMode_sign {α : Type} [Arith α] (f : α → α) (a b s eps : α) :
    selectMode f a b (-s) eps =
      (selectMode f a b s eps).map (fun S => { S with sign := -S.sign }) := by
  unfold selectMode
  cases isfinite a <;> cases isfinite b <;> simp
  · cases exp_sinh_opt_d f b eps (-1) <;> simp
  · cases exp_sinh_opt_d f a eps 1 <;> simp

theorem quadSetup_swap {α : Type} [Arith α] (f : α → α) (a b eps : α)
    (hab : lt a b = true) (hba : lt b a = false) :
    quadSetup f b a eps =
      (quadSetup f a b eps).map (fun S => { S with sign := -S.sign }) := by
  simp [quadSetup, hab, hba, selectMode_sign]

theorem quadResult_neg {α : Type} [Arith α] (laws : SignLaws α) (P : Profile) (eps : α)
    (S : Setup α) (L : Level α) :
    quadResult P eps { S with sign := -S.sign } L = (quadResult P eps S L).negValue := by
  simp [quadResult, Result.negValue, laws.neg_mul]

/-- C2.  For bounds with `a < b` (and hence not `b < a`), `quad` on the swapped
bounds returns the negated value and the same error estimate, in both
directions and for every integrand, cap, tolerance and fuel; both calls return
or both run out of fuel. -/
theorem quad_swap_bounds {α : Type} [Arith α] (laws : SignLaws α) (P : Profile) (f : α → α)
    (a b : α) (n : Int) (eps : α) (fuel : Nat) (hab : lt a b = true) (hba : lt b a = false) :
    quad P f b a n eps fuel = (quad P f a b n eps fuel).map Result.negValue ∧
      quad P f a b n eps fuel = (quad P f b a n eps fuel).map Result.negValue := by
  have h1 : quad P f b a n eps fuel = (quad P f a b n eps fuel).map Result.negValue := by
    unfold quad
    rw [quadSetup_swap f a b eps hab hba]
    cases quadSetup f a b eps with
    | none => rfl
    | some S =>
      simp only [Option.map_some', quadLevels, quadInit, levels_sign]
      cases levels P f S n eps fuel (levelFuel n) { s := f S.v, v := S.v, h := 2, k := 0 } with
      | none => rfl
      | some L => simp [quadResult_neg laws]
  refine ⟨h1, ?_⟩
  rw [h1]
  cases quad P f a b n eps fuel with
  | none => rfl
  | some r => simp [Result.negValue, laws.neg_neg]

/-- C2 at a concrete input: the integrand `x`, bounds 0 and 1, on `Dbl`. -/
theorem quad_swap_bounds_witness :
    (quad (α := Dbl) .precise (fun x => x) (Dbl.clip 1) (Dbl.clip 0) 6 (Dbl.clip (1 / 1000)) 10
        = (quad .precise (fun x => x) (Dbl.clip 0) (Dbl.clip 1) 6 (Dbl.clip (1 / 1000)) 10).map
            Result.negValue ∧
      quad (α := Dbl) .precise (fun x => x) (Dbl.clip 0) (Dbl.clip 1) 6 (Dbl.clip (1 / 1000)) 10
        = (quad .precise (fun x => x) (Dbl.clip 1) (Dbl.clip 0) 6 (Dbl.clip (1 / 1000)) 10).map
            Result.negValue) ∧
      (quad (α := Dbl) .precise (fun x => x) (Dbl.clip 0) (Dbl.clip 1) 6 (Dbl.clip (1 / 1000))
        10).isSome = true :=
  ⟨quad_swap_bounds Dbl.signLaws .precise (fun x => x) (Dbl.clip 0) (Dbl.clip 1) 6
    (Dbl.clip (1 / 1000)) 10 (by decide!) (by decide!), by decide!⟩

end TanhSinh

namespace TanhSinh

open Arith

/-! ## Number of levels -/

/-- C3, amended.  For a cap `n` below `INT_MAX`, the outer loop of `quad`, from
any setup, and that of `qthsh` run `m` passes in sequence for some `m` with
`1 ≤ m ≤ max (n + 1) 1`, so `m ≤ INT_MAX` and no `++k` overflows: the result
is that of the `m` passes, so it is `none` only when the sweep of one of them
ran out of fuel, and the loop returns when every sweep does.  The pass number
`i` (from 0) starts with `k = i`, so the level index takes the values
`0, …, m - 1` and a returned state has `k = m`. -/
theorem quad_level_count {α : Type} [Arith α] (P : Profile) (f : α → α) (S : Setup α) (a b : α)
    (n : Int) (eps : α) (fuel : Nat) (hn : n < INT_MAX) :
    (∃ m : Nat, 1 ≤ m ∧ (m : Int) ≤ max (n + 1) 1 ∧ (m : Int) ≤ INT_MAX ∧
        quadLevels P f S n eps fuel = levelIter f S eps fuel m (quadInit f S) ∧
        (∀ (i : Nat) (L : Level α),
          levelIter f S eps fuel i (quadInit f S) = some L → L.k = i) ∧
        ((∀ L : Level α, (level f S eps fuel L).isSome = true) →
          (quadLevels P f S n eps fuel).isSome = true)) ∧
      (∃ m : Nat, 1 ≤ m ∧ (m : Int) ≤ max (n + 1) 1 ∧ (m : Int) ≤ INT_MAX ∧
        qthshRun P f a b n eps fuel =
          qthshLevelIter f a b ((b - a) / 2) eps fuel m (qthshInit f a b) ∧
        (∀ (i : Nat) (L : Level α),
          qthshLevelIter f a b ((b - a) / 2) eps fuel i (qthshInit f a b) = some L →
            L.k = i) ∧
        ((∀ L : Level α, (qthshLevel f a b ((b - a) / 2) eps fuel L).isSome = true) →
          (qthshRun P f a b n eps fuel).isSome = true)) := by
  have hmax : (0 : Int) < INT_MAX := by decide
  constructor
  · obtain ⟨m, h1, h2, h3⟩ :=
      levels_eq_iter P f S n eps fuel (levelFuel n) (quadInit f S)
        (by simp only [levelFuel, quadInit]; omega)
    have h2' : (m : Int) ≤ max (n + 1) 1 := by
      simp only [quadInit] at h2; simpa using h2
    refine ⟨m, h1, h2', ?_, h3, ?_, ?_⟩
    · rcases le_max_iff.mp h2' with h | h <;> omega
    · intro i L h
      have := levelIter_k f S eps fuel i _ L h
      simpa [quadInit] using this
    · intro h
      have h4 : quadLevels P f S n eps fuel = levelIter f S eps fuel m (quadInit f S) := h3
      rw [h4]
      exact levelIter_isSome f S eps fuel h m _
  · obtain ⟨m, h1, h2, h3⟩ :=
      qthshLevels_eq_iter P f a b ((b - a) / 2) n eps fuel (levelFuel n) (qthshInit f a b)
        (by simp only [levelFuel, qthshInit]; omega)
    have h2' : (m : Int) ≤ max (n + 1) 1 := by
      simp only [qthshInit] at h2; simpa using h2
    refine ⟨m, h1, h2', ?_, h3, ?_, ?_⟩
    · rcases le_max_iff.mp h2' with h | h <;> omega
    · intro i L h
      have := qthshLevelIter_k f a b ((b - a) / 2) eps fuel i _ L h
      simpa [qthshInit] using this
    · intro h
      have h4 : qthshRun P f a b n eps fuel =
          qthshLevelIter f a b ((b - a) / 2) eps fuel m (qthshInit f a b) := h3
      rw [h4]
      exact qthshLevelIter_isSome f a b ((b - a) / 2) eps fuel h m _

/-- C3 amended, at a concrete input: the integrand `x * x` over `[-1, 1]` with
the cap `n = 2`, on `Dbl`; both loops return after 3 levels, with `k = 3`. -/
theorem quad_level_count_witness :
    (2 : Int) < INT_MAX ∧
      (quadLevels (α := Dbl) .precise (fun x => x * x) unitSetup 2 (Dbl.clip (1 / 1000000000))
        100).map (fun L => L.k) = some 3 ∧
      (qthshRun (α := Dbl) .precise (fun x => x * x) (Dbl.clip (-1)) (Dbl.clip 1) 2
        (Dbl.clip (1 / 1000000000)) 100).map (fun L => L.k) = some 3 ∧
      ((∃ m : Nat, 1 ≤ m ∧ (m : Int) ≤ max (2 + 1) 1 ∧ (m : Int) ≤ INT_MAX ∧
        quadLevels (α := Dbl) .precise (fun x => x * x) unitSetup 2 (Dbl.clip (1 / 1000000000))
            100 =
          levelIter (fun x => x * x) unitSetup (Dbl.clip (1 / 1000000000)) 100 m
            (quadInit (fun x => x * x) unitSetup) ∧
        (∀ (i : Nat) (L : Level Dbl),
          levelIter (fun x => x * x) unitSetup (Dbl.clip (1 / 1000000000)) 100 i
            (quadInit (fun x => x * x) unitSetup) = some L → L.k = i) ∧
        ((∀ L : Level Dbl,
            (level (fun x => x * x) unitSetup (Dbl.clip (1 / 1000000000)) 100 L).isSome = true) →
          (quadLevels (α := Dbl) .precise (fun x => x * x) unitSetup 2
            (Dbl.clip (1 / 1000000000)) 100).isSome = true)) ∧
      (∃ m : Nat, 1 ≤ m ∧ (m : Int) ≤ max (2 + 1) 1 ∧ (m : Int) ≤ INT_MAX ∧
        qthshRun (α := Dbl) .precise (fun x => x * x) (Dbl.clip (-1)) (Dbl.clip 1) 2
            (Dbl.clip (1 / 1000000000)) 100 =
          qthshLevelIter (fun x => x * x) (Dbl.clip (-1)) (Dbl.clip 1)
            ((Dbl.clip 1 - Dbl.clip (-1)) / 2) (Dbl.clip (1 / 1000000000)) 100 m
            (qthshInit (fun x => x * x) (Dbl.clip (-1)) (Dbl.clip 1)) ∧
        (∀ (i : Nat) (L : Level Dbl),
          qthshLevelIter (fun x => x * x) (Dbl.clip (-1)) (Dbl.clip 1)
            ((Dbl.clip 1 - Dbl.clip (-1)) / 2) (Dbl.clip (1 / 1000000000)) 100 i
            (qthshInit (fun x => x * x) (Dbl.clip (-1)) (Dbl.clip 1)) = some L → L.k = i) ∧
        ((∀ L : Level Dbl,
            (qthshLevel (fun x => x * x) (Dbl.clip (-1)) (Dbl.clip 1)
              ((Dbl.clip 1 - Dbl.clip (-1)) / 2) (Dbl.clip (1 / 1000000000)) 100 L).isSome =
              true) →
          (qthshRun (α := Dbl) .precise (fun x => x * x) (Dbl.clip (-1)) (Dbl.clip 1) 2
            (Dbl.clip (1 / 1000000000)) 100).isSome = true))) :=
  ⟨by decide, by decide!, by decide!,
    quad_level_count .precise (fun x => x * x) unitSetup (Dbl.clip (-1)) (Dbl.clip 1) 2
      (Dbl.clip (1 / 1000000000)) 100 (by decide)⟩

/-- C3 fails as stated for a negative cap: with `n = -1` (so `n + 1 = 0`)
`quad` and `qthsh` on the integrand `x` over `[0, 1]` still perform one level,
the one with `k = 0`, and leave the loop with `k = 1`. -/
theorem level_count_negative_cap :
    ((quadSetup (α := Dbl) (fun x => x) (Dbl.clip 0) (Dbl.clip 1) (Dbl.clip (1 / 1000))).bind
        (fun S => (quadLevels .precise (fun x => x) S (-1) (Dbl.clip (1 / 1000)) 10).map
          (fun L => L.k))) = some 1 ∧
      (qthshRun (α := Dbl) .precise (fun x => x) (Dbl.clip 0) (Dbl.clip 1) (-1)
        (Dbl.clip (1 / 1000)) 10).map (fun L => L.k) = some 1 ∧
      ¬ ((1 : Int) ≤ -1 + 1) := by
  decide!

/-! ## `qthsh` is `quad` on a finite interval -/

/-- C8.  For finite bounds with `a ≤ b` (not `b < a`), `qthsh` returns what
`quad` returns, value and error estimate, for every integrand, cap, tolerance
and fuel. -/
theorem qthsh_eq_quad {α : Type} [Arith α] (laws : SignLaws α) (P : Profile) (f : α → α)
    (a b : α) (n : Int) (eps : α) (fuel : Nat) (ha : isfinite a = true)
    (hb : isfinite b = true) (hab : lt b a = false) :
    qthsh P f a b n eps fuel = quad P f a b n eps fuel := by
  unfold qthsh quad qthshRun quadLevels
  rw [quadSetup_finite f a b eps ha hb hab]
  simp only []
  rw [levels_congr P f _ n eps fuel (levelFuel n)
    (quadInit f { a := a, b := b, c := (a + b) / 2, d := (b - a) / 2, sign := 1,
                  v := (a + b) / 2, mode := 0 }) (qthshInit f a b) rfl rfl rfl]
  rw [← qthshLevels_eq P f _ n eps fuel rfl]
  simp only []
  cases qthshLevels P f a b ((b - a) / 2) n eps fuel (levelFuel n) (qthshInit f a b) with
  | none => rfl
  | some L => simp [quadResult, laws.one_mul]

/-- C8 at a concrete input: the integrand `x * x` over `[0, 1]`, on `Dbl`. -/
theorem qthsh_eq_quad_witness :
    qthsh (α := Dbl) .precise (fun x => x * x) (Dbl.clip 0) (Dbl.clip 1) 6
        (Dbl.clip (1 / 1000)) 10 =
      quad .precise (fun x => x * x) (Dbl.clip 0) (Dbl.clip 1) 6 (Dbl.clip (1 / 1000)) 10 ∧
    (qthsh (α := Dbl) .precise (fun x => x * x) (Dbl.clip 0) (Dbl.clip 1) 6
        (Dbl.clip (1 / 1000)) 10).isSome = true :=
  ⟨qthsh_eq_quad Dbl.signLaws .precise (fun x => x * x) (Dbl.clip 0) (Dbl.clip 1) 6
    (Dbl.clip (1 / 1000)) 10 (by decide!) (by decide!) (by decide!), by decide!⟩

end TanhSinh

namespace TanhSinh

open Arith

/-! ## The endpoint offset optimizer -/

/-- The first loop returns, with `j` at most half its initial value, when its
fuel covers the halvings of `j`. -/
theorem searchLoop_some {α : Type} [Arith α] (f : α → α) (a d : α) (i : Int) :
    ∀ (fuel : Nat) (j ev : Int) (sh : List Int), j ≤ 2 ^ (fuel + 1) →
      ∃ sr, searchLoop f a d i (fuel + 1) j ev sh = some sr ∧ sr.j ≤ j / 2 := by
  intro fuel
  induction fuel with
  | zero =>
    intro j ev sh hj
    have hj2 : ¬ (j / 2 > 1) := by
      simp only [zero_add, pow_one] at hj
      omega
    simp [searchLoop, hj2]
  | succ fuel ih =>
    intro j ev sh hj
    have hp : (2 : Int) ^ (fuel + 1 + 1) = 2 * 2 ^ (fuel + 1) := by rw [pow_succ]; ring
    rw [hp] at hj
    by_cases hc : (decide (j / 2 > 1) && !isfinite (probe f a d i (j / 2)).h) = true
    · obtain ⟨sr, h1, h2⟩ := ih (j / 2) (ev + 2) (sh ++ [i + j / 2]) (by omega)
      have hj1 : j / 2 > 1 := by
        simp only [Bool.and_eq_true, decide_eq_true_eq] at hc
        exact hc.1
      refine ⟨sr, ?_, by omega⟩
      rw [searchLoop]
      simp only [hc, if_true]
      exact h1
    · rw [searchLoop]
      simp only [hc]
      exact ⟨_, rfl, le_refl _⟩

theorem bisectBody_inv {α : Type} [Arith α] (f : α → α) (a d h2 : α) (st : Bisect α)
    (h : BisectInv st) :
    (bisectBody f a d h2 st).j = st.j / 2 ∧ 1 ≤ (bisectBody f a d h2 st).i ∧
      (bisectBody f a d h2 st).i + (bisectBody f a d h2 st).j ≤ 17 ∧
      ∃ e : Nat, 1 ≤ e ∧ e ≤ 16 ∧ (bisectBody f a d h2 st).lr = ofInt (2 ^ e) := by
  obtain ⟨h1, h2', h3, e, he1, he2, he3⟩ := h
  unfold bisectBody
  simp only []
  split
  · split
    · exact ⟨rfl, by simp only []; omega, by simp only []; omega, e, he1, he2, he3⟩
    · refine ⟨rfl, h1, by simp only []; omega, (st.i + st.j / 2).toNat, by omega, by omega, ?_⟩
      simp only [probe, shl1]
  · exact ⟨rfl, h1, by simp only []; omega, e, he1, he2, he3⟩

/-- The second loop returns when its fuel covers the halvings of `j`, and the
recorded `lr` is still a power of two from `2^1` to `2^16`. -/
theorem bisectLoop_some {α : Type} [Arith α] (f : α → α) (a d h2 : α) :
    ∀ (fuel : Nat) (st : Bisect α), BisectInv st → st.j ≤ 2 ^ (fuel + 1) →
      ∃ b, bisectLoop f a d h2 (fuel + 1) st = some b ∧
        ∃ e : Nat, 1 ≤ e ∧ e ≤ 16 ∧ b.lr = ofInt (2 ^ e) := by
  intro fuel
  induction fuel with
  | zero =>
    intro st hinv hj
    obtain ⟨hj', _, _, he⟩ := bisectBody_inv f a d h2 st hinv
    have hj2 : ¬ ((bisectBody f a d h2 st).j > 1) := by
      simp only [zero_add, pow_one] at hj
      omega
    exact ⟨_, by simp [bisectLoop, hj2], he⟩
  | succ fuel ih =>
    intro st hinv hj
    have hp : (2 : Int) ^ (fuel + 1 + 1) = 2 * 2 ^ (fuel + 1) := by rw [pow_succ]; ring
    rw [hp] at hj
    obtain ⟨hj', hi, hij, he⟩ := bisectBody_inv f a d h2 st hinv
    by_cases hc : (bisectBody f a d h2 st).j > 1
    · obtain ⟨b, hb1, hb2⟩ := ih (bisectBody f a d h2 st) ⟨hi, by omega, hij, he⟩ (by omega)
      refine ⟨b, ?_, hb2⟩
      rw [bisectLoop]
      simp only [hc, if_true]
      exact hb1
    · exact ⟨_, by rw [bisectLoop]; simp only [hc, if_false], he⟩

end TanhSinh

namespace TanhSinh

open Arith

theorem ofNat_eq_ofInt {α : Type} [Arith α] (n : Nat) :
    (OfNat.ofNat n : α) = ofInt (n : Int) := rfl

theorem scale_zero {α : Type} [Arith α] (laws : ScaleLaws α) (d : α) : scale d 0 = d := by
  have h := laws.mul_one d
  rw [ofNat_eq_ofInt] at h
  simpa [scale] using h

theorem scale_nonneg {α : Type} [Arith α] (d : α) (k : Nat) :
    scale d (k : Int) = d * ofInt (2 ^ k) := by
  simp [scale]

theorem scale_neg {α : Type} [Arith α] (d : α) (k : Nat) (hk : 0 < k) :
    scale d (-(k : Int)) = d / ofInt (2 ^ k) := by
  have : ¬ (0 : Int) ≤ -(k : Int) := by omega
  simp [scale, this]

/-- Lines 57-66 scale `d` by a power of two between `2^-16` and `2^16`; the
result has the `sign` of `d` unless a quotient underflows. -/
theorem adjust_scale {α : Type} [Arith α] (laws : ScaleLaws α) (eps d : α) (b : Bisect α)
    (h : ∃ e : Nat, 1 ≤ e ∧ e ≤ 16 ∧ b.lr = ofInt (2 ^ e)) :
    ∃ m : Int, -16 ≤ m ∧ m ≤ 16 ∧ adjust eps d b = scale d m ∧
      (NoUnderflow d → sign (adjust eps d b) = sign d) := by
  obtain ⟨e, he1, he2, he3⟩ := h
  unfold adjust
  split
  · have hr : ∃ k : Nat, k ≤ 16 ∧
        (if (!eq (b.lfl - b.lfr) (0 : α)) = true then b.lr / 2 else b.lr) = ofInt (2 ^ k) := by
      split
      · obtain ⟨e', rfl⟩ : ∃ e', e = e' + 1 := ⟨e - 1, by omega⟩
        exact ⟨e', by omega, by rw [he3, laws.half_pow e' (by omega)]⟩
      · exact ⟨e, he2, he3⟩
    obtain ⟨k, hk, hr⟩ := hr
    simp only [hr]
    split
    · rcases Nat.eq_zero_or_pos k with h0 | h0
      · subst h0
        have h1 : d / (ofInt (2 ^ 0) : α) = d := by
          have := laws.div_one d
          rw [ofNat_eq_ofInt] at this
          simpa using this
        exact ⟨0, by omega, by omega, by rw [h1, scale_zero laws], fun _ => by rw [h1]⟩
      · exact ⟨-(k : Int), by omega, by omega, (scale_neg d k h0).symm, fun hd => hd k hk⟩
    · exact ⟨(k : Int), by omega, by omega, (scale_nonneg d k).symm,
        fun _ => laws.sign_mul_pow d k hk⟩
  · exact ⟨0, by omega, by omega, (scale_zero laws d).symm, fun _ => rfl⟩

/-- C10, amended.  `exp_sinh_opt_d` returns, for every integrand, endpoint,
tolerance and offset `d`, and what it returns is `d` scaled by `2^m` for an
integer `m` with `-16 ≤ m ≤ 16`: `d` times the `double` `2^m`, or `d` divided
by the `double` `2^(-m)`.  When no quotient of `d` by a power of two up to
`2^16` underflows to zero, the returned offset has the `sign` of `d`, so it is
nonzero when `d` is. -/
theorem exp_sinh_opt_d_scale {α : Type} [Arith α] (laws : ScaleLaws α) (f : α → α)
    (a eps d : α) :
    ∃ (o : OptResult α) (m : Int), exp_sinh_opt_d f a eps d = some o ∧ -16 ≤ m ∧ m ≤ 16 ∧
      o.d = scale d m ∧
      (NoUnderflow d → sign o.d = sign d ∧ (sign d ≠ 0 → sign o.d ≠ 0)) := by
  have key : ∃ (o : OptResult α) (m : Int), exp_sinh_opt_d f a eps d = some o ∧ -16 ≤ m ∧
      m ≤ 16 ∧ o.d = scale d m ∧ (NoUnderflow d → sign o.d = sign d) := by
    have hz : ∀ (ev : Int) (sh : List Int), ∃ m : Int, -16 ≤ m ∧ m ≤ 16 ∧
        (OptResult.mk d ev sh).d = scale d m ∧
        (NoUnderflow d → sign (OptResult.mk d ev sh).d = sign d) :=
      fun ev sh => ⟨0, by omega, by omega, (scale_zero laws d).symm, fun _ => rfl⟩
    unfold exp_sinh_opt_d
    simp only []
    split
    · obtain ⟨sr, hsr, hj⟩ := searchLoop_some f a d 1 4 32 2 [] (by norm_num)
      have hsr' : searchLoop f a d 1 optFuel 32 2 [] = some sr := hsr
      rw [hsr']
      simp only []
      split
      · rename_i hc
        have hj1 : sr.j > 1 := by
          simp only [Bool.and_eq_true, decide_eq_true_eq] at hc
          exact hc.1.1
        obtain ⟨b, hb, he⟩ := bisectLoop_some f a d (f (a + d / 2) - f (a + d * 2) * 4) 4
          { i := 1, j := sr.j, ev := sr.ev, s := 0, lfl := sr.pr.fl, lfr := sr.pr.fr,
            lr := 2, sh := sr.sh }
          ⟨le_refl 1, by simp only []; omega, by simp only []; omega, 1, le_refl 1, by omega,
            by simp [ofNat_eq_ofInt]⟩
          (by simp only []; norm_num; omega)
        have hb' : bisectLoop f a d (f (a + d / 2) - f (a + d * 2) * 4) optFuel
          { i := 1, j := sr.j, ev := sr.ev, s := 0, lfl := sr.pr.fl, lfr := sr.pr.fr,
            lr := 2, sh := sr.sh } = some b := hb
        rw [hb']
        obtain ⟨m, hm1, hm2, hm3, hm4⟩ := adjust_scale laws eps d b he
        exact ⟨_, m, rfl, hm1, hm2, hm3, hm4⟩
      · obtain ⟨m, h1, h2, h3, h4⟩ := hz sr.ev sr.sh
        exact ⟨_, m, rfl, h1, h2, h3, h4⟩
    · obtain ⟨m, h1, h2, h3, h4⟩ := hz 2 []
      exact ⟨_, m, rfl, h1, h2, h3, h4⟩
  obtain ⟨o, m, h1, h2, h3, h4, h5⟩ := key
  exact ⟨o, m, h1, h2, h3, h4, fun hu => ⟨h5 hu, fun hd => by rw [h5 hu]; exact hd⟩⟩

end TanhSinh

namespace TanhSinh

open Arith

namespace Dbl

theorem mul_def (x y : Dbl) : x * y = mul x y := rfl

theorem div_def (x y : Dbl) : x / y = div x y := rfl

theorem sub_def (x y : Dbl) : x - y = sub x y := rfl

theorem neg_def (x : Dbl) : -x = neg x := rfl

theorem ofInt_def (z : Int) : (ofInt z : Dbl) = clip (z : ℚ) := rfl

theorem lit_def (n : Nat) : (OfNat.ofNat n : Dbl) = clip (n : ℚ) := by
  show clip (((n : Nat) : Int) : ℚ) = clip (n : ℚ)
  simp

theorem pow_le_maxDbl (k : Nat) (hk : k ≤ 64) : |(2 : ℚ) ^ k| ≤ maxDbl := by
  have h1 : (2 : ℚ) ^ k ≤ 2 ^ 64 := pow_le_pow_right₀ (by norm_num) hk
  have h2 : (2 : ℚ) ^ 64 ≤ maxDbl := by unfold maxDbl; norm_num
  rw [abs_of_pos (by positivity)]
  linarith

theorem zero_le_maxDbl : |(0 : ℚ)| ≤ maxDbl := by
  rw [abs_zero]; exact maxDbl_pos.le

theorem zero_def : (0 : Dbl) = fin 0 zero_le_maxDbl := by
  rw [lit_def]; simpa using clip_fin 0 zero_le_maxDbl

theorem ofInt_pow (k : Nat) (hk : k ≤ 64) :
    (ofInt (2 ^ k) : Dbl) = fin (2 ^ k) (pow_le_maxDbl k hk) := by
  rw [ofInt_def]
  push_cast
  exact clip_fin _ _

theorem lt_zero_clip (r : ℚ) : lt (fin 0 zero_le_maxDbl) (clip r) = decide (0 < r) := by
  have hm := maxDbl_pos
  unfold clip
  split
  · have : 0 < r := by linarith
    simp [lt, this]
  · split
    · have : ¬ 0 < r := by linarith
      simp [lt, this]
    · simp [lt]

theorem lt_clip_zero (r : ℚ) : lt (clip r) (fin 0 zero_le_maxDbl) = decide (r < 0) := by
  have hm := maxDbl_pos
  unfold clip
  split
  · have : ¬ r < 0 := by linarith
    simp [lt, this]
  · split
    · have : r < 0 := by linarith
      simp [lt, this]
    · simp [lt]

theorem sign_clip (r : ℚ) :
    sign (clip r) = (if 0 < r then 1 else 0) - (if r < 0 then 1 else 0) := by
  simp only [sign, zero_def, Arith.lt, lt_zero_clip, lt_clip_zero, decide_eq_true_eq]

theorem sign_fin (q : ℚ) (h : |q| ≤ maxDbl) :
    sign (fin q h) = (if 0 < q then 1 else 0) - (if q < 0 then 1 else 0) := by
  rw [← clip_fin q h, sign_clip]

theorem scaleLaws : ScaleLaws Dbl where
  mul_one := fun x => by
    have h1 : |(1 : ℚ)| ≤ maxDbl := by simpa using pow_le_maxDbl 0 (by omega)
    rw [lit_def, mul_def]
    simp only [Nat.cast_one, clip_fin 1 h1]
    cases x with
    | fin q h => simp only [mul, mul_one, clip_fin q h]
    | pinf => simp [mul, infOfSign]
    | ninf => simp [mul, infOfSign]
    | nan => simp [mul]
  div_one := fun x => by
    have h1 : |(1 : ℚ)| ≤ maxDbl := by simpa using pow_le_maxDbl 0 (by omega)
    rw [lit_def, div_def]
    simp only [Nat.cast_one, clip_fin 1 h1]
    cases x with
    | fin q h => simp [div, clip_fin q h]
    | pinf => simp [div]
    | ninf => simp [div]
    | nan => simp [div]
  half_pow := fun e he => by
    have h2 : |(2 : ℚ)| ≤ maxDbl := by simpa using pow_le_maxDbl 1 (by omega)
    rw [lit_def, div_def, ofInt_pow (e + 1) (by omega), ofInt_pow e (by omega)]
    simp only [Nat.cast_ofNat, clip_fin 2 h2]
    have h3 : (2 : ℚ) ^ (e + 1) / 2 = 2 ^ e := by rw [pow_succ]; field_simp
    simp [div, h3, clip_fin _ (pow_le_maxDbl e (by omega))]
  sign_mul_pow := fun x e he => by
    rw [mul_def, ofInt_pow e (by omega)]
    have hp : (0 : ℚ) < 2 ^ e := by positivity
    cases x with
    | fin q h =>
      have hn : q * 2 ^ e < 0 ↔ q < 0 :=
        ⟨fun h1 => by
          by_contra h2
          have := mul_nonneg (not_lt.mp h2) hp.le
          linarith, fun h1 => mul_neg_of_neg_of_pos h1 hp⟩
      simp only [mul, sign_clip, sign_fin, mul_pos_iff_of_pos_right hp, hn]
    | pinf => simp [mul, infOfSign, hp]
    | ninf => simp [mul, infOfSign, hp, not_lt.mpr hp.le]
    | nan => simp [mul]

/-- On `Dbl`, which has no underflow, every quotient by a power of two keeps
the `sign`. -/
theorem noUnderflow (x : Dbl) : NoUnderflow x := by
  intro e he
  rw [div_def, ofInt_pow e (by omega)]
  have hp : (0 : ℚ) < 2 ^ e := by positivity
  cases x with
  | fin q h =>
    have hn : q / 2 ^ e < 0 ↔ q < 0 :=
      ⟨fun h1 => by
        by_contra h2
        have := div_nonneg (not_lt.mp h2) hp.le
        linarith, fun h1 => div_neg_of_neg_of_pos h1 hp⟩
    simp only [div, hp.ne', if_false, sign_clip, sign_fin, div_pos_iff_of_pos_right hp, hn]
  | pinf => simp [div, not_lt.mpr hp.le]
  | ninf => simp [div, not_lt.mpr hp.le]
  | nan => simp [div]

end Dbl

end TanhSinh

namespace TanhSinh

open Arith

/-- C10 at a concrete input, on `Fp` with its underflow: for `heavyTailFp` at
the endpoint 0 the optimizer turns the offset 1 into `1/64`; no quotient of 1
by a power of two up to `2^16` underflows. -/
theorem exp_sinh_opt_d_scale_witness :
    (exp_sinh_opt_d heavyTailFp 0 (Fp.round false (1 / 1000)) 1).map (fun o => o.d) =
        some (Fp.round false (1 / 64)) ∧
      NoUnderflow (1 : Fp) ∧
      ∃ (o : OptResult Fp) (m : Int),
        exp_sinh_opt_d heavyTailFp 0 (Fp.round false (1 / 1000)) 1 = some o ∧
          -16 ≤ m ∧ m ≤ 16 ∧ o.d = scale 1 m ∧
          (NoUnderflow (1 : Fp) → sign o.d = sign (1 : Fp) ∧ (sign (1 : Fp) ≠ 0 → sign o.d ≠ 0)) :=
  ⟨by decide!, Fp.noUnderflow_one,
    exp_sinh_opt_d_scale Fp.fpScaleLaws heavyTailFp 0 (Fp.round false (1 / 1000)) 1⟩

/-- C10, counterexample.  On `Fp`, for the integrand `heavyTailTiny`, the
endpoint `+0`, `eps = 10^-9` and the offset `d = 2^-1074`, the smallest
positive `double`: the optimizer ends with `d /= 64`, which underflows, and
returns `+0`, although `d` is not zero; with the underflow the quotient
`d / 2^6` has lost the sign of `d`. -/
theorem opt_d_underflows_to_zero :
    (exp_sinh_opt_d heavyTailTiny (Fp.zero false) (Fp.round false (1 / 10 ^ 9))
        (Fp.round false minDbl)).map (fun o => o.d) = some (Fp.zero false) ∧
      sign (Fp.round false minDbl) = 1 ∧ sign (Fp.zero false) = 0 ∧
      sign (Fp.round false minDbl / ofInt (2 ^ 6)) = 0 := by
  decide!

/-! ## The left-infinite interval as a mirror image -/

/-- The mirrored integrand at `-b + x` reads `f` at `b + -x`, for an integrand
that cannot tell the negation of a sum from the sum of the negations (the two
are the same number, and differ only as the two zeros). -/
theorem mirror_arg {α : Type} [Arith α] (laws : SignLaws α) (f : α → α)
    (hz : ∀ x y : α, f (-(x + y)) = f (-x + -y)) (b x : α) :
    f (-(-b + x)) = f (b + -x) := by
  rw [hz, laws.neg_neg]

theorem probe_mirror {α : Type} [Arith α] (laws : SignLaws α) (f : α → α)
    (hz : ∀ x y : α, f (-(x + y)) = f (-x + -y)) (b d : α)
    (i j : Int) : probe f b (-d) i j = probe (fun y => f (-y)) (-b) d i j := by
  simp only [probe, laws.neg_div, laws.neg_mul, mirror_arg laws f hz]

theorem searchLoop_mirror {α : Type} [Arith α] (laws : SignLaws α) (f : α → α)
    (hz : ∀ x y : α, f (-(x + y)) = f (-x + -y)) (b d : α) (i : Int) :
    ∀ (fuel : Nat) (j ev : Int) (sh : List Int),
      searchLoop f b (-d) i fuel j ev sh = searchLoop (fun y => f (-y)) (-b) d i fuel j ev sh := by
  intro fuel
  induction fuel with
  | zero => intro j ev sh; rfl
  | succ fuel ih => intro j ev sh; simp only [searchLoop, probe_mirror laws f hz, ih]

theorem bisectLoop_mirror {α : Type} [Arith α] (laws : SignLaws α) (f : α → α)
    (hz : ∀ x y : α, f (-(x + y)) = f (-x + -y)) (b d h2 : α) :
    ∀ (fuel : Nat) (st : Bisect α),
      bisectLoop f b (-d) h2 fuel st = bisectLoop (fun y => f (-y)) (-b) d h2 fuel st := by
  intro fuel
  induction fuel with
  | zero => intro st; rfl
  | succ fuel ih => intro st; simp only [bisectLoop, bisectBody, probe_mirror laws f hz, ih]

theorem adjust_neg {α : Type} [Arith α] (laws : SignLaws α) (eps d : α) (b : Bisect α) :
    adjust eps (-d) b = -(adjust eps d b) := by
  unfold adjust
  split
  · simp only []
    split <;> simp only [laws.neg_div, laws.neg_mul]
  · rfl

/-- The optimizer at `b` with offset `-d` and the one for the mirrored integrand
at `-b` with offset `d` return opposite offsets, with equal counters. -/
theorem exp_sinh_opt_d_mirror {α : Type} [Arith α] (laws : SignLaws α) (f : α → α)
    (hz : ∀ x y : α, f (-(x + y)) = f (-x + -y)) (b eps d : α) :
    exp_sinh_opt_d f b eps (-d) =
      (exp_sinh_opt_d (fun y => f (-y)) (-b) eps d).map (fun o => { o with d := -o.d }) := by
  unfold exp_sinh_opt_d
  simp only [searchLoop_mirror laws f hz, bisectLoop_mirror laws f hz, laws.neg_div,
    laws.neg_mul, mirror_arg laws f hz, adjust_neg laws]
  split
  · cases searchLoop (fun y => f (-y)) (-b) d 1 optFuel 32 2 [] with
    | none => rfl
    | some sr =>
      simp only []
      split
      · cases bisectLoop (fun y => f (-y)) (-b) d (f (b + -(d / 2)) - f (b + -(d * 2)) * 4)
          optFuel { i := 1, j := sr.j, ev := sr.ev, s := 0, lfl := sr.pr.fl, lfr := sr.pr.fr,
                    lr := 2, sh := sr.sh } with
        | none => rfl
        | some bs => rfl
      · rfl
  · rfl

end TanhSinh

namespace TanhSinh

open Arith

theorem sinhHead_mirror {α : Type} [Arith α] (laws : SignLaws α) (hadd : EqNegAdd α)
    (f : α → α) (hz : ∀ x y : α, f (-(x + y)) = f (-x + -y)) (b d t : α) :
    sinhHead f 1 b (-d) t = sinhHead (fun y => f (-y)) 1 (-b) d t := by
  have he : ∀ x : α, eq (b + -x) b = eq (-b + x) (-b) := by
    intro x
    have h1 := hadd (-b) x b
    have h2 := laws.eq_neg (-b + x) (-b)
    rw [laws.neg_neg] at h1 h2
    rw [← h1, h2]
  simp only [sinhHead, if_true, laws.neg_div, mirror_arg laws f hz, he]

theorem sinhSweep_mirror {α : Type} [Arith α] (laws : SignLaws α) (hadd : EqNegAdd α)
    (f : α → α) (hz : ∀ x y : α, f (-(x + y)) = f (-x + -y)) (b d eps eh : α) :
    ∀ (fuel : Nat) (st : Sweep α),
      sinhSweep f 1 b (-d) eps eh fuel st =
        sinhSweep (fun y => f (-y)) 1 (-b) d eps eh fuel st := by
  intro fuel
  induction fuel with
  | zero => intro st; rfl
  | succ fuel ih =>
    intro st
    simp only [sinhSweep, sinhStep, sinhHead_mirror laws hadd f hz, laws.neg_mul,
      mirror_arg laws f hz, ih]

/-- Two runs of the outer loop agree when their level bodies do and their
initial states agree on `s`, `h` and `k`. -/
theorem levels_congr_body {α : Type} [Arith α] (P : Profile) (f g : α → α) (S T : Setup α)
    (n : Int) (eps : α) (fuel : Nat)
    (hbody : ∀ L : Level α, level f S eps fuel L = level g T eps fuel L) :
    ∀ (m : Nat) (L L' : Level α), L.s = L'.s → L.h = L'.h → L.k = L'.k →
      levels P f S n eps fuel m L = levels P g T n eps fuel m L' := by
  intro m L L' hs hh hk
  rw [levels_congr P f S n eps fuel m L L' hs hh hk]
  clear hs hh hk
  induction m generalizing L' with
  | zero => rfl
  | succ m ih =>
    simp only [levels, hbody]
    cases level g T eps fuel L' with
    | none => rfl
    | some L1 =>
      simp only []
      split
      · exact ih L1
      · rfl

/-- C7, amended.  For an integrand `f` that takes the same value at the
negation of a sum as at the sum of the negations (on `double` the two are the
same number and differ only when the sum is an exact zero, as `-0` and `+0`:
`f` takes the same value at both zeros), a finite bound `b`, a lower bound
`ninf` that is not finite and not above `b`, and an upper bound `pinf` that is
not finite and not below `-b`: `quad` for `f` over `(ninf, b)` returns what it
returns for `x ↦ f (-x)` over `(-b, pinf)`, value and error estimate, and the
optimizer called at `b` with offset `-1` returns the negation of the offset it
returns for the mirrored integrand at `-b` with offset `1`. -/
theorem quad_left_infinite_mirror {α : Type} [Arith α] (laws : SignLaws α)
    (hadd : EqNegAdd α) (P : Profile)
    (f : α → α) (b ninf pinf : α) (n : Int) (eps : α) (fuel : Nat)
    (hz : ∀ x y : α, f (-(x + y)) = f (-x + -y))
    (hb : isfinite b = true) (hn : isfinite ninf = false) (hp : isfinite pinf = false)
    (hbn : lt b ninf = false) (hpb : lt pinf (-b) = false) :
    quad P f ninf b n eps fuel = quad P (fun x => f (-x)) (-b) pinf n eps fuel ∧
      exp_sinh_opt_d f b eps (-1) =
        (exp_sinh_opt_d (fun x => f (-x)) (-b) eps 1).map (fun o => { o with d := -o.d }) := by
  refine ⟨?_, exp_sinh_opt_d_mirror laws f hz b eps 1⟩
  have hnb : isfinite (-b) = true := by rw [laws.isfinite_neg]; exact hb
  unfold quad quadSetup selectMode
  simp only [hb, hn, hp, hbn, hpb, hnb, exp_sinh_opt_d_mirror laws f hz b eps 1]
  cases exp_sinh_opt_d (fun x => f (-x)) (-b) eps 1 with
  | none => simp
  | some o =>
    simp only [Bool.false_and, Bool.and_false, Bool.false_eq_true, if_false, if_true,
      Option.map_some']
    have hbody : ∀ L : Level α,
        level f { a := ninf, b := b, c := b, d := -o.d, sign := -1, v := b + -o.d, mode := 1 }
            eps fuel L =
          level (fun x => f (-x))
            { a := -b, b := pinf, c := -b, d := o.d, sign := 1, v := -b + o.d, mode := 1 }
            eps fuel L := by
      intro L
      simp [level, levelSweep, sinhSweep_mirror laws hadd f hz]
    have hinit : f (b + -o.d) = (fun x => f (-x)) (-b + o.d) :=
      (mirror_arg laws f hz b o.d).symm
    unfold quadLevels
    rw [levels_congr_body P f (fun x => f (-x)) _ _ n eps fuel hbody (levelFuel n)
      (quadInit f { a := ninf, b := b, c := b, d := -o.d, sign := -1, v := b + -o.d, mode := 1 })
      (quadInit (fun x => f (-x))
        { a := -b, b := pinf, c := -b, d := o.d, sign := 1, v := -b + o.d, mode := 1 })
      hinit rfl rfl]
    cases levels P (fun x => f (-x))
      { a := -b, b := pinf, c := -b, d := o.d, sign := 1, v := -b + o.d, mode := 1 } n eps fuel
      (levelFuel n) (quadInit (fun x => f (-x))
        { a := -b, b := pinf, c := -b, d := o.d, sign := 1, v := -b + o.d, mode := 1 }) with
    | none => rfl
    | some L =>
      simp [quadResult, laws.neg_mul, laws.neg_neg, laws.one_mul]

end TanhSinh

namespace TanhSinh

open Arith

theorem heavyTailFp_zero (s : Bool) : heavyTailFp (Fp.zero s) = heavyTailFp (Fp.zero false) := by
  cases s
  · rfl
  · decide!

/-- The mirrored heavy tail takes the same value at the negation of a sum as at
the sum of the negations. -/
theorem heavyTailFp_mirror (x y : Fp) :
    heavyTailFp (-(-(x + y))) = heavyTailFp (-(-x + -y)) := by
  rcases Fp.negAdd_same x y with h | ⟨s, t, h1, h2⟩
  · rw [Fp.fp_neg_def (x + y), Fp.fp_add_def, h]
    rfl
  · have h3 : -(-(x + y)) = Fp.zero (!s) := by
      rw [Fp.fp_neg_def (x + y), Fp.fp_add_def, h1]
      rfl
    have h4 : -(-x + -y) = Fp.zero (!t) := by
      rw [Fp.fp_add_def, Fp.fp_neg_def x, Fp.fp_neg_def y, h2]
      rfl
    rw [h3, h4, heavyTailFp_zero, heavyTailFp_zero (!t)]

/-- C7 at a concrete input, on `Fp` with its two zeros: `x ↦ heavyTailFp (-x)`
over `(-∞, 0)` against `heavyTailFp` mirrored twice over `(-0, +∞)`; both runs
return. -/
theorem quad_left_infinite_mirror_witness :
    (quad .precise (fun x => heavyTailFp (-x)) (Fp.inf true) 0 1 (Fp.round false (1 / 10)) 10 =
        quad .precise (fun x => heavyTailFp (- -x)) (-0) (Fp.inf false) 1
          (Fp.round false (1 / 10)) 10 ∧
      exp_sinh_opt_d (fun x => heavyTailFp (-x)) 0 (Fp.round false (1 / 10)) (-1) =
        (exp_sinh_opt_d (fun x => heavyTailFp (- -x)) (-0) (Fp.round false (1 / 10)) 1).map
          (fun o => { o with d := -o.d })) ∧
      (quad .precise (fun x => heavyTailFp (-x)) (Fp.inf true) 0 1 (Fp.round false (1 / 10))
        10).isSome = true ∧
      (exp_sinh_opt_d (fun x => heavyTailFp (-x)) 0 (Fp.round false (1 / 10)) (-1)).map
        (fun o => o.d) = some (Fp.round true (-1 / 64)) :=
  ⟨quad_left_infinite_mirror Fp.fpSignLaws Fp.fpEqNegAdd .precise (fun x => heavyTailFp (-x)) 0
    (Fp.inf true) (Fp.inf false) 1 (Fp.round false (1 / 10)) 10 heavyTailFp_mirror
    (by decide!) (by decide!) (by decide!) (by decide!) (by decide!), by decide!, by decide!⟩

/-- C7, counterexample.  On `Fp`, for `f(x) = 1/x`, `b = 1`, `n = 2` and
`eps = 10^-3`: the optimizer returns the offsets `-1` and `1`, so both runs take
their first sample at `1 + -1 = -1 + 1 = +0`, where `f` is `+∞` and the
mirrored integrand `x ↦ f(-x)` is `f(-0) = -∞`; `quad` over `(-∞, 1)` returns
`+∞` and `quad` for the mirrored integrand over `(-1, +∞)` returns `-∞`. -/
theorem mirror_differs_at_zero :
    (exp_sinh_opt_d recipFp 1 (Fp.round false (1 / 1000)) (-1)).map (fun o => o.d) =
        some (-1) ∧
      (exp_sinh_opt_d (fun x => recipFp (-x)) (-1) (Fp.round false (1 / 1000)) 1).map
        (fun o => o.d) = some 1 ∧
      recipFp (1 + -1) = Fp.inf false ∧ recipFp (-(-1 + 1)) = Fp.inf true ∧
      (quad .precise recipFp (Fp.inf true) 1 2 (Fp.round false (1 / 1000)) 50).map
        (fun r => r.value) = some (Fp.inf false) ∧
      (quad .precise (fun x => recipFp (-x)) (-1) (Fp.inf false) 2 (Fp.round false (1 / 1000))
        50).map (fun r => r.value) = some (Fp.inf true) := by
  decide!

end TanhSinh

namespace TanhSinh

open Arith

/-! ## Non-finite samples -/

end TanhSinh

namespace TanhSinh

open Arith

/-! ## Odd integrands on the whole line -/

/-- The first pass of the first Sinh-Sinh sweep adds nothing for an odd
integrand whose weighted first sample is finite. -/
theorem sinhStep_odd {α : Type} [Arith α] (laws : ZeroLaws α) (f : α → α) (eh : α)
    (hodd : ∀ x, f (-x) = -(f x))
    (hw : isfinite (f ssR0) = true → isfinite (f ssR0 * ssW0) = true) :
    sinhStep f 2 0 1 eh { p := 0, q := 0, fp := 0, fm := 0, t := ssT0 } =
      some { p := 0, q := 0, fp := 0, fm := 0, t := ssT0 * eh } := by
  have h2 : (2 : Nat) ≠ 1 := by decide
  have hj := laws.zero_mul_jac
  have hs := laws.zero_sub_first
  have ha := laws.zero_add_first
  simp only [ssR0, ssW0] at hw hs ha
  simp only [ssJ0] at hj
  simp only [sinhStep, sinhHead, h2, if_false, laws.one_mul, hs, ha, hodd, laws.isfinite_neg,
    laws.neg_mul]
  by_cases hf : isfinite (f ((exp ((ssT0 : α) - quarter / ssT0) -
      1 / exp ((ssT0 : α) - quarter / ssT0)) / 2)) = true
  · simp only [hf, if_true, laws.cancel _ (hw hf), hj, laws.zero_add_zero]
  · simp only [hf, if_false, Bool.false_eq_true, hj, laws.zero_add_zero]

/-- C6, amended.  For `ninf` and `pinf` not finite (and not `pinf < ninf`), an
integrand that is odd with `f(0)` a zero (`+0` or `-0`), and fuel for at least
one pass of a sweep: when the first weighted sample `f(r)*w` of the Sinh-Sinh
sweep is finite if `f(r)` is, the sweep of level 0 adds 0, the outer loop stops
after that level with running sum 0 and `k = 1`, and `quad` returns 0, for
every cap `n` and tolerance `eps`. -/
theorem quad_odd_zero {α : Type} [Arith α] (laws : ZeroLaws α) (P : Profile) (f : α → α)
    (ninf pinf : α) (n : Int) (eps : α) (fuel : Nat)
    (hn : isfinite ninf = false) (hp : isfinite pinf = false) (hpn : lt pinf ninf = false)
    (hodd : ∀ x, f (-x) = -(f x)) (hf0 : f 0 = 0 ∨ f 0 = -0)
    (hw : isfinite (f ssR0) = true → isfinite (f ssR0 * ssW0) = true) :
    (quad P f ninf pinf n eps (fuel + 1)).map (fun r => r.value) = some 0 ∧
      (quadSetup f ninf pinf eps).bind (fun S => quadLevels P f S n eps (fuel + 1)) =
        some { s := 0, v := f 0 - 0, h := 2 / 2, k := 1 } := by
  have hS : quadSetup f ninf pinf eps =
      some { a := ninf, b := pinf, c := 0, d := 1, sign := 1, v := 0, mode := 2 } := by
    simp [quadSetup, selectMode, hn, hp, hpn]
  have hadd : f 0 + 0 = 0 := by
    rcases hf0 with h | h <;> rw [h]
    · exact laws.zero_add_zero
    · exact laws.negzero_add_zero
  have hsub : fabs (f 0 - 0) = 0 := by
    rcases hf0 with h | h <;> rw [h]
    · rw [laws.zero_sub_zero, laws.fabs_zero]
    · exact laws.fabs_negzero_sub_zero
  have hstep := sinhStep_odd laws f (exp ((2 : α) / 2)) hodd hw
  have hz : ∀ e : α, lt (e * fabs (0 : α)) (fabs (0 : α)) = false := by
    intro e; rw [laws.fabs_zero]; exact laws.lt_mul_zero e
  have hz2 : ∀ e : α, lt (e * fabs (0 : α)) (0 : α) = false := by
    intro e; rw [laws.fabs_zero]; exact laws.lt_mul_zero e
  have hsw : levelSweep f { a := ninf, b := pinf, c := 0, d := 1, sign := 1, v := 0, mode := 2 }
      eps (fuel + 1) { s := f 0, v := 0, h := 2, k := 0 } =
      some { p := 0, q := 0, fp := 0, fm := 0, t := ssT0 * exp ((2 : α) / 2) } := by
    have h2 : (2 : Nat) ≠ 0 := by decide
    simp only [levelSweep, h2, if_false, lt_irrefl, sinhSweep]
    rw [show exp ((2 : α) / 2) / 2 = ssT0 from rfl, hstep]
    simp only [hz, Bool.false_eq_true, if_false]
  have hL : quadLevels P f { a := ninf, b := pinf, c := 0, d := 1, sign := 1, v := 0, mode := 2 }
      n eps (fuel + 1) = some { s := 0, v := f 0 - 0, h := 2 / 2, k := 1 } := by
    simp only [quadLevels, levelFuel, quadInit, levels, level, hsw, hadd, hsub, hz2,
      Bool.false_and, Bool.false_eq_true, if_false, zero_add]
  refine ⟨?_, by rw [hS]; exact hL⟩
  simp only [quad, hS, hL, Option.map_some', quadResult, laws.one_mul, laws.zero_mul_half]

end TanhSinh

namespace TanhSinh

open Arith

namespace Dbl

theorem lt_def (x y : Dbl) : Arith.lt x y = lt x y := rfl

theorem isfinite_def (x : Dbl) : Arith.isfinite x = isfinite x := rfl

end Dbl

theorem oddMax_odd (x : Dbl) : oddMax (-x) = -(oddMax x) := by
  have hm := Dbl.maxDbl_pos
  have hmax : |maxDbl| ≤ maxDbl := by rw [abs_of_pos hm]
  have hnmax : |-maxDbl| ≤ maxDbl := by rw [abs_neg, abs_of_pos hm]
  simp only [oddMax, Dbl.lt_def, Dbl.neg_def, Dbl.clip_fin 0 Dbl.zero_le_maxDbl,
    Dbl.clip_fin maxDbl hmax, Dbl.clip_fin (-maxDbl) hnmax]
  cases x with
  | fin q h =>
    rcases lt_trichotomy q 0 with hq | hq | hq
    · have h1 : ¬ 0 < q := by linarith
      simp [Dbl.lt, Dbl.neg, hq, h1]
    · subst hq
      simp [Dbl.lt, Dbl.neg]
    · have h1 : ¬ q < 0 := by linarith
      simp [Dbl.lt, Dbl.neg, hq, h1]
  | pinf => simp [Dbl.lt, Dbl.neg]
  | ninf => simp [Dbl.lt, Dbl.neg]
  | nan => simp [Dbl.lt, Dbl.neg]

theorem signFp_odd (x : Fp) : signFp (-x) = -(signFp x) := by
  cases x with
  | fin q h =>
    rcases lt_or_gt_of_ne (Fp.fin_ne_zero h) with h1 | h1
    · have h2 : ¬ -q < 0 := by linarith
      simp only [Fp.fp_neg_def, Fp.neg, signFp, Fp.signbit, h1, h2, decide_True, decide_False,
        if_true, Bool.false_eq_true, if_false]
      decide!
    · have h2 : ¬ q < 0 := by linarith
      have h3 : -q < 0 := by linarith
      simp only [Fp.fp_neg_def, Fp.neg, signFp, Fp.signbit, h2, h3, decide_True, decide_False,
        if_true, Bool.false_eq_true, if_false]
  | zero s => cases s <;> decide!
  | inf s => cases s <;> decide!
  | nan => rfl

/-- C6, counterexample.  Two odd integrands for which `quad` over `(-∞, +∞)`
does not return 0.  On `Dbl`, `oddMax` is odd and finite everywhere, with
`oddMax 0 = 0`, yet its first two weighted samples of the Sinh-Sinh sweep are
`-∞` and `+∞`, their sum is `NaN`, and `quad` returns `NaN`.  On `Fp`, with
its two zeros, `signFp` (`copysign(1, x)`) is odd, with `signFp (+0) = 1` and
`signFp (-0) = -1`: `quad` takes `s = f(0) = 1`, every sweep adds 0, and after
the levels `k = 0..5` it returns `2^-5`. -/
theorem odd_overflow_not_zero :
    ((∀ x : Dbl, oddMax (-x) = -(oddMax x)) ∧ (∀ x : Dbl, isfinite (oddMax x) = true) ∧
      oddMax 0 = 0 ∧ oddMax ssR0 * ssW0 = Dbl.pinf ∧
      (quad .precise oddMax Dbl.ninf Dbl.pinf 6 (Dbl.clip (1 / 1000000000)) 10).map
        (fun r => r.value) = some Dbl.nan) ∧
    ((∀ x : Fp, signFp (-x) = -(signFp x)) ∧ signFp 0 = 1 ∧ signFp (-0) = -1 ∧
      (quad .precise signFp (Fp.inf true) (Fp.inf false) 5 (Fp.round false (1 / 1000))
        50).map (fun r => r.value) = some (Fp.round false (1 / 32))) := by
  refine ⟨⟨oddMax_odd, ?_, by decide!, by decide!, by decide!⟩,
    ⟨signFp_odd, by decide!, by decide!, by decide!⟩⟩
  intro x
  have hm := Dbl.maxDbl_pos
  have hmax : |maxDbl| ≤ maxDbl := by rw [abs_of_pos hm]
  have hnmax : |-maxDbl| ≤ maxDbl := by rw [abs_neg, abs_of_pos hm]
  simp only [oddMax, Dbl.clip_fin 0 Dbl.zero_le_maxDbl, Dbl.clip_fin maxDbl hmax,
    Dbl.clip_fin (-maxDbl) hnmax]
  split
  · rfl
  · split <;> rfl

/-- C6 amended, at a concrete input: the integrand `x` over `(-∞, +∞)` on
`Fp`. -/
theorem quad_odd_zero_witness :
    (quad (α := Fp) .precise (fun x => x) (Fp.inf true) (Fp.inf false) 6
        (Fp.round false (1 / 1000000000)) (9 + 1)).map (fun r => r.value) = some 0 ∧
      (quadSetup (α := Fp) (fun x => x) (Fp.inf true) (Fp.inf false)
        (Fp.round false (1 / 1000000000))).bind
        (fun S => quadLevels .precise (fun x => x) S 6 (Fp.round false (1 / 1000000000))
          (9 + 1)) =
        some { s := 0, v := (0 : Fp) - 0, h := 2 / 2, k := 1 } :=
  quad_odd_zero Fp.fpZeroLaws .precise (fun x => x) (Fp.inf true) (Fp.inf false) 6
    (Fp.round false (1 / 1000000000)) 9 (by decide!) (by decide!) (by decide!) (fun _ => rfl)
    (Or.inl rfl) (by decide!)

end TanhSinh

namespace TanhSinh

open Arith

/-! ## Raising the cap -/

theorem levelFuel_mono {n n' : Int} (h : n ≤ n') : levelFuel n ≤ levelFuel n' := by
  unfold levelFuel
  omega

/-- A run of the outer loop that ends with its convergence test satisfied is
also the run for any larger cap and any larger bound on the passes. -/
theorem levels_converged_cap {α : Type} [Arith α] (P : Profile) (f : α → α) (S : Setup α)
    (n n' : Int) (eps : α) (fuel : Nat) (hn : n ≤ n') :
    ∀ (g g' : Nat) (L L' : Level α), g ≤ g' → levels P f S n eps fuel g L = some L' →
      lt (ofInt (FUDGE1 P) * eps * fabs L'.s) (fabs L'.v) = false →
      levels P f S n' eps fuel g' L = some L' := by
  intro g
  induction g with
  | zero => intro g' L L' _ h; simp [levels] at h
  | succ g ih =>
    intro g' L L' hg h hconv
    obtain ⟨g'', rfl⟩ : ∃ g'', g' = g'' + 1 := ⟨g' - 1, by omega⟩
    cases hl : level f S eps fuel L with
    | none => simp [levels, hl] at h
    | some L1 =>
      simp only [levels, hl] at h ⊢
      by_cases hc : (lt (ofInt (FUDGE1 P) * eps * fabs L1.s) (fabs L1.v) &&
          decide (L1.k ≤ n)) = true
      · have hc' : (lt (ofInt (FUDGE1 P) * eps * fabs L1.s) (fabs L1.v) &&
            decide (L1.k ≤ n')) = true := by
          simp only [Bool.and_eq_true, decide_eq_true_eq] at hc ⊢
          exact ⟨hc.1, by omega⟩
        simp only [hc, if_true] at h
        simp only [hc', if_true]
        exact ih g'' L1 L' (by omega) h hconv
      · simp only [hc, Bool.false_eq_true, if_false, Option.some.injEq] at h
        subst h
        simp [hconv]

/-- C9, amended.  When the run of `quad` with cap `n` returns with its
convergence test satisfied (`fabs(v) > tol*fabs(s)` is false at the exit), the
run with cap `n + 1` returns the same value and the same error estimate, so the
estimate does not grow. -/
theorem quad_cap_succ_converged {α : Type} [Arith α] (P : Profile) (f : α → α) (a b : α)
    (n : Int) (eps : α) (fuel : Nat) (hconv : exitTest P f a b n eps fuel = some false) :
    quad P f a b (n + 1) eps fuel = quad P f a b n eps fuel ∧
      (quad P f a b n eps fuel).isSome = true := by
  unfold exitTest at hconv
  cases hS : quadSetup f a b eps with
  | none => simp [hS] at hconv
  | some S =>
    cases hL : quadLevels P f S n eps fuel with
    | none => simp [hS, hL] at hconv
    | some L =>
      simp only [hS, hL, Option.some.injEq] at hconv
      have h1 : quadLevels P f S (n + 1) eps fuel = some L :=
        levels_converged_cap P f S n (n + 1) eps fuel (by omega) (levelFuel n)
          (levelFuel (n + 1)) (quadInit f S) L (levelFuel_mono (by omega)) hL hconv
      simp [quad, hS, hL, h1]

/-- C9 amended, at a concrete input: the integrand `x` over `[0, 1]` with
`eps = 1/10` converges at the first level; caps 2 and 3 give the same result. -/
theorem quad_cap_succ_converged_witness :
    quad (α := Dbl) .precise (fun x => x) (Dbl.clip 0) (Dbl.clip 1) (2 + 1) (Dbl.clip (1 / 10))
        10 = quad .precise (fun x => x) (Dbl.clip 0) (Dbl.clip 1) 2 (Dbl.clip (1 / 10)) 10 ∧
      (quad (α := Dbl) .precise (fun x => x) (Dbl.clip 0) (Dbl.clip 1) 2 (Dbl.clip (1 / 10))
        10).isSome = true :=
  quad_cap_succ_converged (α := Dbl) .precise (fun x => x) (Dbl.clip 0) (Dbl.clip 1) 2
    (Dbl.clip (1 / 10)) 10 (by decide!)

/-- C9 fails as stated.  For the polynomial `bumpPoly` over `[-1, 1]` with
`eps = 1e-5` the error estimate with cap 0 is below `0.002` and the one with
cap 1 is above `0.5`; for the smooth `gaussBump` over `[-1, 1]` with
`eps = 1e-12` the estimate with cap 2 is below `1e-5` and the one with cap 3 is
above `0.9` (the bump sits at an abscissa that only the fourth level samples). -/
theorem err_grows_with_cap :
    (quad .precise bumpPoly (Dbl.clip (-1)) (Dbl.clip 1) 0 (Dbl.clip (1 / 100000)) 20).bind
      (fun r0 =>
        (quad .precise bumpPoly (Dbl.clip (-1)) (Dbl.clip 1) (0 + 1) (Dbl.clip (1 / 100000))
          20).map
          (fun r1 => lt r0.err r1.err && lt r0.err (Dbl.clip (2 / 1000)) &&
            lt (Dbl.clip (1 / 2)) r1.err)) = some true ∧
    (quad .precise gaussBump (Dbl.clip (-1)) (Dbl.clip 1) 2 (Dbl.clip (1 / 1000000000000))
        40).bind
      (fun r0 =>
        (quad .precise gaussBump (Dbl.clip (-1)) (Dbl.clip 1) (2 + 1)
          (Dbl.clip (1 / 1000000000000)) 40).map
          (fun r1 => lt r0.err r1.err && lt r0.err (Dbl.clip (1 / 100000)) &&
            lt (Dbl.clip (9 / 10)) r1.err)) = some true := by
  decide!

end TanhSinh

namespace TanhSinh

open Arith

/-! ## Pass counts of the endpoint offset optimizer -/

/-- The first loop as `exp_sinh_opt_d` starts it makes `k` passes, `1 ≤ k ≤ 5`:
it leaves `j = 32 / 2^k` and `ev = 2 + 2k`, has shifted by the first `k` of the
exponents 17, 9, 5, 3, 2, holds the probe of its last pass, and has met no
finite `h` before that pass. -/
theorem searchLoop_trace {α : Type} [Arith α] (f : α → α) (a d : α) :
    ∃ (k : Nat) (sr : Search α), 1 ≤ k ∧ k ≤ 5 ∧
      searchLoop f a d 1 optFuel 32 2 [] = some sr ∧ sr.j = 32 / 2 ^ k ∧
      sr.ev = 2 + 2 * (k : Int) ∧ sr.sh = List.take k [17, 9, 5, 3, 2] ∧
      sr.pr = probe f a d 1 sr.j := by
  by_cases h1 : isfinite (probe f a d 1 16).h = true
  · exact ⟨1, { j := 16, ev := 4, pr := probe f a d 1 16, sh := [17] }, by decide, by decide,
      by simp [searchLoop, optFuel, h1], rfl, rfl, rfl, rfl⟩
  by_cases h2 : isfinite (probe f a d 1 8).h = true
  · exact ⟨2, { j := 8, ev := 6, pr := probe f a d 1 8, sh := [17, 9] }, by decide, by decide,
      by simp [searchLoop, optFuel, h1, h2], rfl, rfl, rfl, rfl⟩
  by_cases h3 : isfinite (probe f a d 1 4).h = true
  · exact ⟨3, { j := 4, ev := 8, pr := probe f a d 1 4, sh := [17, 9, 5] }, by decide,
      by decide, by simp [searchLoop, optFuel, h1, h2, h3], rfl, rfl, rfl, rfl⟩
  by_cases h4 : isfinite (probe f a d 1 2).h = true
  · exact ⟨4, { j := 2, ev := 10, pr := probe f a d 1 2, sh := [17, 9, 5, 3] }, by decide,
      by decide, by simp [searchLoop, optFuel, h1, h2, h3, h4], rfl, rfl, rfl, rfl⟩
  · exact ⟨5, { j := 1, ev := 12, pr := probe f a d 1 1, sh := [17, 9, 5, 3, 2] }, by decide,
      by decide, by simp [searchLoop, optFuel, h1, h2, h3, h4], rfl, rfl, rfl, rfl⟩

/-- What one pass of the bisection body does to `j`, `ev`, `sh` and `i`. -/
theorem bisectBody_fields {α : Type} [Arith α] (f : α → α) (a d h2 : α) (st : Bisect α) :
    (bisectBody f a d h2 st).j = st.j / 2 ∧ (bisectBody f a d h2 st).ev = st.ev + 2 ∧
      (bisectBody f a d h2 st).sh = st.sh ++ [st.i + st.j / 2] ∧
      ((bisectBody f a d h2 st).i = st.i ∨ (bisectBody f a d h2 st).i = st.i + st.j / 2) := by
  unfold bisectBody
  simp only []
  split
  · split
    · exact ⟨rfl, rfl, rfl, Or.inr rfl⟩
    · exact ⟨rfl, rfl, rfl, Or.inl rfl⟩
  · exact ⟨rfl, rfl, rfl, Or.inl rfl⟩

/-- The second loop entered with `j = 2^(m+1)` makes `m + 1` passes: `ev` grows
by two in each, and each shifts by an exponent from 2 to 16. -/
theorem bisectLoop_trace {α : Type} [Arith α] (f : α → α) (a d h2 : α) :
    ∀ (m fuel : Nat) (st : Bisect α), m + 1 ≤ fuel → st.j = 2 ^ (m + 1) → 1 ≤ st.i →
      st.i + st.j ≤ 17 →
      ∃ (b : Bisect α) (es : List Int), bisectLoop f a d h2 fuel st = some b ∧
        b.ev = st.ev + 2 * ((m : Int) + 1) ∧ b.sh = st.sh ++ es ∧ es.length = m + 1 ∧
        ∀ e ∈ es, 2 ≤ e ∧ e ≤ 16 := by
  intro m
  induction m with
  | zero =>
    intro fuel st hfuel hj hi hij
    obtain ⟨g, rfl⟩ : ∃ g, fuel = g + 1 := ⟨fuel - 1, by omega⟩
    obtain ⟨hj', hev, hsh, _⟩ := bisectBody_fields f a d h2 st
    simp only [zero_add, pow_one] at hj
    have hc : ¬ ((bisectBody f a d h2 st).j > 1) := by omega
    refine ⟨bisectBody f a d h2 st, [st.i + st.j / 2], ?_, ?_, hsh, rfl, ?_⟩
    · rw [bisectLoop]; simp only [hc, if_false]
    · rw [hev]; simp
    · intro e he
      simp only [List.mem_singleton] at he
      omega
  | succ m ih =>
    intro fuel st hfuel hj hi hij
    obtain ⟨g, rfl⟩ : ∃ g, fuel = g + 1 := ⟨fuel - 1, by omega⟩
    obtain ⟨hj', hev, hsh, hi'⟩ := bisectBody_fields f a d h2 st
    have hp : (2 : Int) ^ (m + 1 + 1) = 2 * 2 ^ (m + 1) := by rw [pow_succ]; ring
    have hpos : (1 : Int) ≤ 2 ^ (m + 1) := one_le_pow₀ (by norm_num)
    have hp2 : (2 : Int) ^ (m + 1) = 2 * 2 ^ m := by rw [pow_succ]; ring
    have hpos2 : (1 : Int) ≤ 2 ^ m := one_le_pow₀ (by norm_num)
    have hjn : (bisectBody f a d h2 st).j = 2 ^ (m + 1) := by rw [hj', hj, hp]; omega
    have hc : (bisectBody f a d h2 st).j > 1 := by rw [hjn]; omega
    obtain ⟨b, es, hb, hbev, hbsh, hlen, hes⟩ :=
      ih g (bisectBody f a d h2 st) (by omega) hjn (by omega) (by rw [hjn]; rw [hj, hp] at hij hi'; omega)
    refine ⟨b, (st.i + st.j / 2) :: es, ?_, ?_, ?_, by simp [hlen], ?_⟩
    · rw [bisectLoop]; simp only [hc, if_true]; exact hb
    · rw [hbev, hev]; push_cast; ring
    · rw [hbsh, hsh]; simp
    · intro e he
      rcases List.mem_cons.mp he with rfl | he
      · rw [hj, hp] at hij ⊢; omega
      · exact hes e he

/-- The optimizer returns for every integrand; `ev` is 2 plus twice the number
of passes of the two loops together, there are at most 5 such passes, and every
exponent given to `<<` lies from 2 to 17. -/
theorem exp_sinh_opt_d_trace {α : Type} [Arith α] (f : α → α) (a eps d : α) :
    ∃ o, exp_sinh_opt_d f a eps d = some o ∧ o.sh.length ≤ 5 ∧
      o.ev = 2 + 2 * (o.sh.length : Int) ∧ ∀ e ∈ o.sh, 2 ≤ e ∧ e ≤ 17 := by
  obtain ⟨k, sr, hk1, hk5, hsr, hj, hev, hsh, _⟩ := searchLoop_trace f a d
  have hlen : sr.sh.length = k := by
    rw [hsh]; simp only [List.length_take, List.length_cons, List.length_nil]; omega
  have hmem : ∀ e ∈ sr.sh, 2 ≤ e ∧ e ≤ 17 := by
    intro e he
    rw [hsh] at he
    have he2 := List.mem_of_mem_take he
    simp only [List.mem_cons, List.mem_singleton, List.not_mem_nil, or_false] at he2
    omega
  unfold exp_sinh_opt_d
  simp only []
  split
  · rw [hsr]
    simp only []
    split
    · rename_i hc
      have hj1 : sr.j > 1 := by
        simp only [Bool.and_eq_true, decide_eq_true_eq] at hc
        exact hc.1.1
      have hk4 : k ≤ 4 := by
        by_contra hk
        have : k = 5 := by omega
        rw [this] at hj
        norm_num at hj
        omega
      have hj2 : sr.j = 2 ^ (4 - k + 1) := by
        rw [hj]
        interval_cases k <;> norm_num
      obtain ⟨b, es, hb, hbev, hbsh, hbl, hes⟩ :=
        bisectLoop_trace f a d (f (a + d / 2) - f (a + d * 2) * 4) (4 - k) optFuel
          { i := 1, j := sr.j, ev := sr.ev, s := 0, lfl := sr.pr.fl, lfr := sr.pr.fr, lr := 2,
            sh := sr.sh }
          (by unfold optFuel; omega) hj2 (le_refl _)
          (by simp only []; rw [hj]; interval_cases k <;> norm_num)
      rw [hb]
      refine ⟨_, rfl, ?_, ?_, ?_⟩
      · simp only [hbsh, List.length_append, hlen, hbl]; omega
      · simp only [hbsh, List.length_append, hlen, hbl, hbev, hev]
        push_cast
        omega
      · intro e he
        simp only [hbsh, List.mem_append] at he
        rcases he with he | he
        · exact hmem e he
        · have := hes e he
          omega
    · exact ⟨_, rfl, by rw [hlen]; exact hk5, by rw [hlen, hev], hmem⟩
  · exact ⟨_, rfl, by simp, by simp, by simp⟩

/-- Once the bisection is entered, the two loops make exactly 5 passes
together: the bisection makes 5 minus the number of passes of the first loop,
and `ev` ends at 12. -/
theorem bisect_passes_total {α : Type} [Arith α] (f : α → α) (a eps d : α) (sr : Search α)
    (h0 : (isfinite (f (a + d / 2) - f (a + d * 2) * 4) &&
      lt tiny (fabs (f (a + d / 2) - f (a + d * 2) * 4))) = true)
    (hsr : searchLoop f a d 1 optFuel 32 2 [] = some sr)
    (hc : (decide (sr.j > 1) && isfinite sr.pr.h &&
      sign sr.pr.h != sign (f (a + d / 2) - f (a + d * 2) * 4)) = true) :
    ∃ o, exp_sinh_opt_d f a eps d = some o ∧ o.sh.length = 5 ∧ o.ev = 12 := by
  obtain ⟨k, sr', hk1, hk5, hsr', hj, hev, hsh, _⟩ := searchLoop_trace f a d
  obtain rfl : sr' = sr := Option.some.inj (hsr'.symm.trans hsr)
  have hlen : sr'.sh.length = k := by
    rw [hsh]; simp only [List.length_take, List.length_cons, List.length_nil]; omega
  have hj1 : sr'.j > 1 := by
    simp only [Bool.and_eq_true, decide_eq_true_eq] at hc
    exact hc.1.1
  have hk4 : k ≤ 4 := by
    by_contra hk
    have : k = 5 := by omega
    rw [this] at hj
    norm_num at hj
    omega
  have hj2 : sr'.j = 2 ^ (4 - k + 1) := by
    rw [hj]
    interval_cases k <;> norm_num
  obtain ⟨b, es, hb, hbev, hbsh, hbl, hes⟩ :=
    bisectLoop_trace f a d (f (a + d / 2) - f (a + d * 2) * 4) (4 - k) optFuel
      { i := 1, j := sr'.j, ev := sr'.ev, s := 0, lfl := sr'.pr.fl, lfr := sr'.pr.fr, lr := 2,
        sh := sr'.sh }
      (by unfold optFuel; omega) hj2 (le_refl _)
      (by simp only []; rw [hj]; interval_cases k <;> norm_num)
  unfold exp_sinh_opt_d
  simp only [h0, if_true, hsr, hc, hb]
  refine ⟨_, rfl, ?_, ?_⟩
  · simp only [hbsh, List.length_append, hlen, hbl]; omega
  · simp only [hbev, hev]
    omega

/-- C11: `exp_sinh_opt_d` returns for every integrand (also one with non-finite
values), endpoint `a`, `eps` and `d`.  Its two loops make at most 5 passes
together (one exponent is recorded in `sh` per pass), and `ev`, which starts at
2, grows by 2 in each pass and is never decreased, ends at most at 12. -/
theorem exp_sinh_opt_d_terminates {α : Type} [Arith α] (f : α → α) (a eps d : α) :
    ∃ o, exp_sinh_opt_d f a eps d = some o ∧ o.sh.length ≤ 5 ∧
      o.ev = 2 + 2 * (o.sh.length : Int) ∧ o.ev ≤ 12 := by
  obtain ⟨o, ho, hlen, hev, _⟩ := exp_sinh_opt_d_trace f a eps d
  exact ⟨o, ho, hlen, hev, by omega⟩

/-- C19: in `exp_sinh_opt_d`, for every integrand, each exponent `i + j` given
to `1 << (i + j)` lies from 2 to 17, so the shift is `2^(i+j)`, from `2^2` to
`2^17` and below `2^31`; `r` is the `double` of that power of two. -/
theorem shift_exponent_range {α : Type} [Arith α] (f : α → α) (a eps d : α) :
    (∃ o, exp_sinh_opt_d f a eps d = some o ∧
      ∀ e ∈ o.sh, 2 ≤ e ∧ e ≤ 17 ∧ shl1 e = 2 ^ e.toNat ∧ 2 ^ 2 ≤ shl1 e ∧
        shl1 e ≤ 2 ^ 17 ∧ shl1 e < 2 ^ 31) ∧
      ∀ i j : Int, (probe f a d i j).r = ofInt (shl1 (i + j)) := by
  obtain ⟨o, ho, _, _, hmem⟩ := exp_sinh_opt_d_trace f a eps d
  refine ⟨⟨o, ho, ?_⟩, fun _ _ => rfl⟩
  intro e he
  obtain ⟨h2, h17⟩ := hmem e he
  have hlo : (2 : Int) ^ 2 ≤ 2 ^ e.toNat := pow_le_pow_right₀ (by norm_num) (by omega)
  have hhi : (2 : Int) ^ e.toNat ≤ 2 ^ 17 := pow_le_pow_right₀ (by norm_num) (by omega)
  refine ⟨h2, h17, rfl, hlo, hhi, ?_⟩
  unfold shl1
  calc (2 : Int) ^ e.toNat ≤ 2 ^ 17 := hhi
    _ < 2 ^ 31 := by norm_num

/-- C14: for the integrand `exp(-x) + 10⁻⁶ exp(x/100)` at `a = 0`, `d = 1` the
first loop makes two passes (`h` is not finite at `r = 2^17`) and leaves
`j = 8`; the bisection is entered and makes three passes, with the exponents 5,
7 and 8, not four. -/
theorem bisect_three_passes :
    (searchLoop growDecay 0 1 1 optFuel 32 2 []).map (fun sr => (sr.j, sr.ev, sr.sh)) =
        some (8, 6, [17, 9]) ∧
      (exp_sinh_opt_d growDecay 0 (Dbl.clip (1 / 10 ^ 9)) 1).map (fun o => (o.ev, o.sh)) =
        some (12, [17, 9, 5, 7, 8]) := by
  decide!

end TanhSinh

namespace TanhSinh

open Arith

/-! ## Raising the cap after convergence -/

/-- C17: for caps `n ≤ n'`, when the run of `quad` with cap `n` returns with
its convergence test satisfied (`fabs(v) > tol*fabs(s)` is false after its last
level, `tol = FUDGE1*eps`), the run with cap `n'` returns the same value and the
same error estimate. -/
theorem quad_cap_converged {α : Type} [Arith α] (P : Profile) (f : α → α) (a b : α)
    (n n' : Int) (eps : α) (fuel : Nat) (hn : n ≤ n')
    (hconv : exitTest P f a b n eps fuel = some false) :
    quad P f a b n' eps fuel = quad P f a b n eps fuel ∧
      (quad P f a b n eps fuel).isSome = true := by
  unfold exitTest at hconv
  cases hS : quadSetup f a b eps with
  | none => simp [hS] at hconv
  | some S =>
    cases hL : quadLevels P f S n eps fuel with
    | none => simp [hS, hL] at hconv
    | some L =>
      simp only [hS, hL, Option.some.injEq] at hconv
      have h1 : quadLevels P f S n' eps fuel = some L :=
        levels_converged_cap P f S n n' eps fuel hn (levelFuel n) (levelFuel n')
          (quadInit f S) L (levelFuel_mono hn) hL hconv
      simp [quad, hS, hL, h1]

/-- C17 at a concrete input: the integrand `x*x` over `[-1, 2]` with
`eps = 1/4` converges under cap 1; cap 6 gives the same result. -/
theorem quad_cap_converged_witness :
    (1 : Int) ≤ 6 ∧
      exitTest (α := Dbl) .precise (fun x => x * x) (Dbl.clip (-1)) (Dbl.clip 2) 1
        (Dbl.clip (1 / 4)) 10 = some false ∧
      quad (α := Dbl) .precise (fun x => x * x) (Dbl.clip (-1)) (Dbl.clip 2) 6
        (Dbl.clip (1 / 4)) 10 =
        quad .precise (fun x => x * x) (Dbl.clip (-1)) (Dbl.clip 2) 1 (Dbl.clip (1 / 4)) 10 :=
  ⟨by decide, by decide!,
    (quad_cap_converged (α := Dbl) .precise (fun x => x * x) (Dbl.clip (-1)) (Dbl.clip 2) 1 6
      (Dbl.clip (1 / 4)) 10 (by decide) (by decide!)).1⟩

end TanhSinh

namespace TanhSinh

open Arith

/-! ## The values kept for the two ends by a Tanh-Sinh sweep -/

theorem tanhSinhIter_succ {α : Type} [Arith α] (f : α → α) (a b d eh : α) (m : Nat)
    (st : Sweep α) :
    tanhSinhIter f a b d eh (m + 1) st =
      tanhSinhStep f a b d eh (tanhSinhIter f a b d eh m st) := by
  unfold tanhSinhIter
  exact Function.iterate_succ_apply' _ _ _

theorem tanhSinhIter_t {α : Type} [Arith α] (f : α → α) (a b d eh : α) (st : Sweep α) :
    ∀ m : Nat, (tanhSinhIter f a b d eh m st).t = tsT eh st.t m := by
  intro m
  induction m with
  | zero => rfl
  | succ m ih => rw [tanhSinhIter_succ, tsT, ← ih]; rfl

/-- One pass of the Tanh-Sinh body in terms of its offset and weight. -/
theorem tanhSinhStep_eq {α : Type} [Arith α] (f : α → α) (a b d eh : α) (st : Sweep α) :
    tanhSinhStep f a b d eh st =
      { p := st.p + tsWeight st.t *
          ((if lt a (a + tsOffset d st.t) then
              (if isfinite (f (a + tsOffset d st.t)) then f (a + tsOffset d st.t) else st.fp)
            else st.fp) +
           (if lt (b - tsOffset d st.t) b then
              (if isfinite (f (b - tsOffset d st.t)) then f (b - tsOffset d st.t) else st.fm)
            else st.fm))
        q := tsWeight st.t *
          ((if lt a (a + tsOffset d st.t) then
              (if isfinite (f (a + tsOffset d st.t)) then f (a + tsOffset d st.t) else st.fp)
            else st.fp) +
           (if lt (b - tsOffset d st.t) b then
              (if isfinite (f (b - tsOffset d st.t)) then f (b - tsOffset d st.t) else st.fm)
            else st.fm))
        fp := if lt a (a + tsOffset d st.t) then
            (if isfinite (f (a + tsOffset d st.t)) then f (a + tsOffset d st.t) else st.fp)
          else st.fp
        fm := if lt (b - tsOffset d st.t) b then
            (if isfinite (f (b - tsOffset d st.t)) then f (b - tsOffset d st.t) else st.fm)
          else st.fm
        t := st.t * eh } := rfl

/-- A pass of the Tanh-Sinh body reads the integrand at `a + x` only when
`a + x > a` and at `b - x` only when `b - x < b`: integrands that agree at the
abscissas that pass these tests give the same pass. -/
theorem tanhSinhStep_guarded {α : Type} [Arith α] (f g : α → α) (a b d eh : α) (st : Sweep α)
    (ha : lt a (a + tsOffset d st.t) = true →
      f (a + tsOffset d st.t) = g (a + tsOffset d st.t))
    (hb : lt (b - tsOffset d st.t) b = true →
      f (b - tsOffset d st.t) = g (b - tsOffset d st.t)) :
    tanhSinhStep f a b d eh st = tanhSinhStep g a b d eh st := by
  rw [tanhSinhStep_eq, tanhSinhStep_eq]
  by_cases h1 : lt a (a + tsOffset d st.t) = true
  · by_cases h2 : lt (b - tsOffset d st.t) b = true
    · simp only [h1, h2, if_true, ha h1, hb h2]
    · simp only [h1, h2, if_true, ha h1, Bool.false_eq_true, if_false]
  · by_cases h2 : lt (b - tsOffset d st.t) b = true
    · simp only [h1, h2, if_true, hb h2, Bool.false_eq_true, if_false]
    · simp only [h1, h2, Bool.false_eq_true, if_false]

/-- A Tanh-Sinh sweep that returns has run its body some `m ≥ 1` times. -/
theorem tanhSinhSweep_iter {α : Type} [Arith α] (f : α → α) (a b d eps eh : α) :
    ∀ (fuel : Nat) (st st' : Sweep α), tanhSinhSweep f a b d eps eh fuel st = some st' →
      ∃ m : Nat, 1 ≤ m ∧ m ≤ fuel ∧ st' = tanhSinhIter f a b d eh m st := by
  intro fuel
  induction fuel with
  | zero => intro st st' h; simp [tanhSinhSweep] at h
  | succ fuel ih =>
    intro st st' h
    rw [tanhSinhSweep] at h
    by_cases hc : lt (eps * fabs (tanhSinhStep f a b d eh st).p)
        (fabs (tanhSinhStep f a b d eh st).q) = true
    · simp only [hc, if_true] at h
      obtain ⟨m, _, hm, hst⟩ := ih _ st' h
      refine ⟨m + 1, by omega, by omega, ?_⟩
      rw [hst]
      unfold tanhSinhIter
      exact (Function.iterate_succ_apply _ _ _).symm
    · simp only [hc, Bool.false_eq_true, if_false, Option.some.injEq] at h
      exact ⟨1, le_refl _, by omega, h.symm⟩

/-- After `m` passes from a state with both kept values at 0, the kept values
are the ones the specification describes. -/
theorem tanhSinhIter_carried {α : Type} [Arith α] (f : α → α) (a b d eh : α) (st : Sweep α)
    (hp : st.fp = 0) (hm : st.fm = 0) :
    ∀ m : Nat,
      (tanhSinhIter f a b d eh m st).fp = lastFiniteAbove f a (tsOffsets d eh st.t m) ∧
        (tanhSinhIter f a b d eh m st).fm = lastFiniteBelow f b (tsOffsets d eh st.t m) := by
  intro m
  induction m with
  | zero => exact ⟨hp, hm⟩
  | succ m ih =>
    obtain ⟨ih1, ih2⟩ := ih
    rw [tanhSinhIter_succ, tanhSinhStep_eq, tanhSinhIter_t, ih1, ih2]
    simp only [tsOffsets, lastFiniteAbove, lastFiniteBelow]
    constructor
    · by_cases h1 : lt a (a + tsOffset d (tsT eh st.t m)) = true
      · by_cases h2 : isfinite (f (a + tsOffset d (tsT eh st.t m))) = true
        · simp [h1, h2]
        · simp [h1, h2]
      · simp [h1]
    · by_cases h1 : lt (b - tsOffset d (tsT eh st.t m)) b = true
      · by_cases h2 : isfinite (f (b - tsOffset d (tsT eh st.t m))) = true
        · simp [h1, h2]
        · simp [h1, h2]
      · simp [h1]

/-- C13: the values a Tanh-Sinh sweep keeps for the two ends, in `quad` (mode
0) and in `qthsh`.  Every level starts its sweep with both kept values at 0, so
nothing is kept from one level to the next.  A sweep that returns has run its
body `m ≥ 1` times in sequence.  After any number `m + 1` of passes the value
used for the `a` side, in `q = w*(fp + fm)`, is the most recent finite
`f(a + x)` over the offsets `x` of the passes up to this one with `a + x > a`,
or 0 if there is none, and likewise for the `b` side with `b - x < b`.  A pass
reads the integrand at `a + x` only if `a + x > a` and at `b - x` only if
`b - x < b` (so not when `a + x = a` or `b - x = b`): integrands that agree at
the abscissas passing these tests give the same pass. -/
theorem tanhSinh_kept_values {α : Type} [Arith α] (f : α → α) (a b d eps : α) :
    (∀ (S : Setup α) (fuel : Nat) (L : Level α), S.mode = 0 →
      levelSweep f S eps fuel L =
        tanhSinhSweep f S.a S.b S.d eps
          (if L.k > 0 then exp (L.h / 2) * exp (L.h / 2) else exp (L.h / 2)) fuel
          { p := 0, q := 0, fp := 0, fm := 0, t := exp (L.h / 2) }) ∧
    (∀ (fuel : Nat) (L : Level α),
      qthshLevelSweep f a b d eps fuel L =
        tanhSinhSweep f a b d eps
          (if L.k > 0 then exp (L.h / 2) * exp (L.h / 2) else exp (L.h / 2)) fuel
          { p := 0, q := 0, fp := 0, fm := 0, t := exp (L.h / 2) }) ∧
    (∀ (eh t0 : α) (fuel : Nat) (st : Sweep α),
      tanhSinhSweep f a b d eps eh fuel { p := 0, q := 0, fp := 0, fm := 0, t := t0 } =
          some st →
        ∃ m : Nat, 1 ≤ m ∧
          st = tanhSinhIter f a b d eh m { p := 0, q := 0, fp := 0, fm := 0, t := t0 }) ∧
    (∀ (eh t0 : α) (m : Nat),
      (tanhSinhIter f a b d eh (m + 1) { p := 0, q := 0, fp := 0, fm := 0, t := t0 }).fp =
          lastFiniteAbove f a (tsOffsets d eh t0 (m + 1)) ∧
        (tanhSinhIter f a b d eh (m + 1) { p := 0, q := 0, fp := 0, fm := 0, t := t0 }).fm =
          lastFiniteBelow f b (tsOffsets d eh t0 (m + 1)) ∧
        (tanhSinhIter f a b d eh (m + 1) { p := 0, q := 0, fp := 0, fm := 0, t := t0 }).q =
          tsWeight (tsT eh t0 m) *
            (lastFiniteAbove f a (tsOffsets d eh t0 (m + 1)) +
              lastFiniteBelow f b (tsOffsets d eh t0 (m + 1)))) ∧
    (∀ (g : α → α) (eh : α) (st : Sweep α),
      (lt a (a + tsOffset d st.t) = true →
        f (a + tsOffset d st.t) = g (a + tsOffset d st.t)) →
      (lt (b - tsOffset d st.t) b = true →
        f (b - tsOffset d st.t) = g (b - tsOffset d st.t)) →
      tanhSinhStep f a b d eh st = tanhSinhStep g a b d eh st) := by
  refine ⟨?_, ?_, ?_, ?_, ?_⟩
  · intro S fuel L hm
    simp only [levelSweep, hm, if_true]
  · intro fuel L
    simp only [qthshLevelSweep, qthshSweep_eq]
  · intro eh t0 fuel st h
    obtain ⟨m, hm1, _, hst⟩ := tanhSinhSweep_iter f a b d eps eh fuel _ st h
    exact ⟨m, hm1, hst⟩
  · intro eh t0 m
    obtain ⟨h1, h2⟩ := tanhSinhIter_carried f a b d eh
      { p := 0, q := 0, fp := 0, fm := 0, t := t0 } rfl rfl (m + 1)
    refine ⟨h1, h2, ?_⟩
    rw [← h1, ← h2, tanhSinhIter_succ, tanhSinhStep_eq, tanhSinhIter_t]
  · intro g eh st ha hb
    exact tanhSinhStep_guarded f g a b d eh st ha hb

end TanhSinh

namespace TanhSinh

open Arith

/-! ## The level delta and successive estimates -/

theorem level_fields {α : Type} [Arith α] {f : α → α} {S : Setup α} {eps : α} {fuel : Nat}
    {L L' : Level α} (h : level f S eps fuel L = some L') :
    ∃ st : Sweep α, levelSweep f S eps fuel L = some st ∧ L'.s = L.s + st.p ∧
      L'.v = L.s - st.p ∧ L'.h = L.h / 2 := by
  unfold level at h
  cases hs : levelSweep f S eps fuel L with
  | none => simp [hs] at h
  | some st =>
    simp only [hs, Option.some.injEq] at h
    exact ⟨st, rfl, by rw [← h], by rw [← h], by rw [← h]⟩

/-- The step size after `k` levels, in exact arithmetic: `2 / 2^k`. -/
theorem levelIter_h_exact {α : Type} [Arith α] (φ : α → ℚ) (hφ : ExactArith φ) (f : α → α)
    (S : Setup α) (eps : α) (fuel : Nat) :
    ∀ (k : Nat) (L L' : Level α), levelIter f S eps fuel k L = some L' →
      φ L'.h = φ L.h / 2 ^ k := by
  intro k
  induction k with
  | zero => intro L L' h; simp [levelIter] at h; simp [h]
  | succ k ih =>
    intro L L' h
    cases hl : level f S eps fuel L with
    | none => simp [levelIter, hl] at h
    | some L1 =>
      simp only [levelIter, hl] at h
      obtain ⟨_, _, _, _, hh⟩ := level_fields hl
      rw [ih L1 L' h, hh, hφ.div, ofNat_eq_ofInt, hφ.ofInt, pow_succ]
      push_cast
      rw [div_div, mul_comm]

/-- C12, amended.  In exact arithmetic, for the level `k + 1` of a run of
`quad` (from the state `L` after `k` levels to `L'`): the step size before the
level is `2/2^k`, that is `2^(1-k)`, and `s` starts at `f(v0)`; `d*h*v` after
the level equals the estimate `d*s*h` before the level minus the estimate after
it; and, for `d ≠ 0`, `|v|/|s|` is the magnitude of that change relative to the
estimate after the level. -/
theorem level_delta_exact {α : Type} [Arith α] (φ : α → ℚ) (hφ : ExactArith φ) (f : α → α)
    (S : Setup α) (eps : α) (fuel : Nat) (k : Nat) (L L' : Level α)
    (hL : levelIter f S eps fuel k (quadInit f S) = some L)
    (hL' : level f S eps fuel L = some L') :
    (quadInit f S).s = f S.v ∧ φ L.h = 2 / 2 ^ k ∧
      S.d * L'.h * L'.v = S.d * L.s * L.h - S.d * L'.s * L'.h ∧
      (φ S.d ≠ 0 →
        φ (fabs L'.v) / φ (fabs L'.s) =
          |φ (S.d * L.s * L.h) - φ (S.d * L'.s * L'.h)| / |φ (S.d * L'.s * L'.h)|) := by
  have hh : φ L.h = 2 / 2 ^ k := by
    rw [levelIter_h_exact φ hφ f S eps fuel k _ L hL]
    simp only [quadInit, ofNat_eq_ofInt, hφ.ofInt]
    push_cast
    rfl
  obtain ⟨st, _, hs, hv, hh'⟩ := level_fields hL'
  have h2 : φ (2 : α) = 2 := by rw [ofNat_eq_ofInt, hφ.ofInt]; push_cast; rfl
  have hid : φ (S.d * L'.h * L'.v) = φ (S.d * L.s * L.h) - φ (S.d * L'.s * L'.h) := by
    simp only [hs, hv, hh', hφ.mul, hφ.sub, hφ.add, hφ.div, h2]
    ring
  refine ⟨rfl, hh, ?_, ?_⟩
  · apply hφ.inj
    rw [hφ.sub]
    exact hid
  · intro hd
    have hhpos : φ L'.h ≠ 0 := by
      rw [hh', hφ.div, hh, h2]
      positivity
    rw [← hid]
    simp only [hφ.mul, hφ.fabs, abs_mul]
    have h1 : |φ S.d| ≠ 0 := abs_ne_zero.mpr hd
    have h3 : |φ L'.h| ≠ 0 := abs_ne_zero.mpr hhpos
    by_cases hs0 : |φ L'.s| = 0
    · simp [hs0]
    · field_simp
      ring

/-- C12 amended, at a concrete input: the integrand `x*x + 1` over `[0, 1]` in
the exact arithmetic `Exact`, at the first level. -/
theorem level_delta_exact_witness :
    ∃ L' : Level Exact,
      level sqPlusOne exactSetup ⟨1 / 100⟩ 20 (quadInit sqPlusOne exactSetup) = some L' ∧
      exactSetup.d * L'.h * L'.v =
        exactSetup.d * (quadInit sqPlusOne exactSetup).s * (quadInit sqPlusOne exactSetup).h -
          exactSetup.d * L'.s * L'.h := by
  have e1 : (level sqPlusOne exactSetup ⟨1 / 100⟩ 20
      (quadInit sqPlusOne exactSetup)).isSome = true := by decide!
  obtain ⟨L', hL'⟩ := Option.isSome_iff_exists.mp e1
  exact ⟨L', hL',
    (level_delta_exact Exact.val
      ⟨fun x y h => by cases x; cases y; simp_all, fun _ _ => rfl, fun _ _ => rfl,
        fun _ _ => rfl, fun _ _ => rfl, fun _ => rfl, fun _ => rfl⟩
      sqPlusOne exactSetup ⟨1 / 100⟩ 20 0 (quadInit sqPlusOne exactSetup) L' rfl hL').2.2.1⟩

/-- C12 fails as stated in `double` arithmetic.  For `1/|x|` over `[-1, 1]`
the first abscissa is the pole, `s` starts at `+∞`, and after the first level
`d*h*v` is `+∞` while the difference of the two estimates is `∞ - ∞`, a `NaN`.
For the parabola `0.6 maxDbl (1 - x²)` over `[-1, 1]` every sample, `s` and
`v` are finite, `d*h*v` after the first level is finite, and the estimate
`d*s*h` before that level overflows. -/
theorem level_delta_not_difference :
    ((level recipAbs unitSetup (Dbl.clip (1 / 1000)) 20 (quadInit recipAbs unitSetup)).map
        (fun L' => (unitSetup.d * L'.h * L'.v,
          unitSetup.d * (quadInit recipAbs unitSetup).s * (quadInit recipAbs unitSetup).h -
            unitSetup.d * L'.s * L'.h)) = some (Dbl.pinf, Dbl.nan)) ∧
    ((level tallParabola unitSetup (Dbl.clip (1 / 1000)) 20
        (quadInit tallParabola unitSetup)).map
        (fun L' => (isfinite L'.s, isfinite L'.v, isfinite (unitSetup.d * L'.h * L'.v),
          unitSetup.d * (quadInit tallParabola unitSetup).s *
              (quadInit tallParabola unitSetup).h - unitSetup.d * L'.s * L'.h)) =
        some (true, true, true, Dbl.pinf)) ∧
    quadSetup recipAbs (Dbl.clip (-1)) (Dbl.clip 1) (Dbl.clip (1 / 1000)) = some unitSetup ∧
    quadSetup tallParabola (Dbl.clip (-1)) (Dbl.clip 1) (Dbl.clip (1 / 1000)) =
      some unitSetup := by
  decide!

end TanhSinh

namespace TanhSinh

open Arith

/-! ## Homogeneity in the integrand -/

namespace Dbl

end Dbl

end TanhSinh

namespace TanhSinh

open Arith

/-! ## `qthsh` with reversed bounds -/

end TanhSinh

namespace TanhSinh

open Arith

namespace Dbl

/-! ## Order and size facts of `Dbl` -/

theorem lt_fin_clip (p : ℚ) (h : |p| ≤ maxDbl) (r : ℚ) :
    lt (fin p h) (clip r) = decide (p < r) := by
  have hp := abs_le.mp h
  unfold clip
  split
  · have : p < r := by linarith
    simp [lt, this]
  · split
    · have : ¬ p < r := by linarith
      simp [lt, this]
    · simp [lt]

theorem expE_bounds : (1 : ℚ) ≤ expE ∧ expE ≤ 3 := by
  unfold expE
  constructor <;> norm_num

theorem expFrac_bounds (r : ℚ) (h0 : 0 ≤ r) (h1 : r ≤ 1) : 1 ≤ expFrac r ∧ expFrac r ≤ 3 := by
  unfold expFrac
  have a1 : 1 ≤ 1 + r / 6 ∧ 1 + r / 6 ≤ 7 / 6 := ⟨by linarith, by linarith⟩
  have a2 : 1 ≤ 1 + r / 5 * (1 + r / 6) ∧ 1 + r / 5 * (1 + r / 6) ≤ 37 / 30 := by
    constructor <;> nlinarith
  have a3 : 1 ≤ 1 + r / 4 * (1 + r / 5 * (1 + r / 6)) ∧
      1 + r / 4 * (1 + r / 5 * (1 + r / 6)) ≤ 157 / 120 := by
    constructor <;> nlinarith
  have a4 : 1 ≤ 1 + r / 3 * (1 + r / 4 * (1 + r / 5 * (1 + r / 6))) ∧
      1 + r / 3 * (1 + r / 4 * (1 + r / 5 * (1 + r / 6))) ≤ 517 / 360 := by
    constructor <;> nlinarith
  have a5 : 1 ≤ 1 + r / 2 * (1 + r / 3 * (1 + r / 4 * (1 + r / 5 * (1 + r / 6)))) ∧
      1 + r / 2 * (1 + r / 3 * (1 + r / 4 * (1 + r / 5 * (1 + r / 6)))) ≤ 1237 / 720 := by
    constructor <;> nlinarith
  constructor <;> nlinarith

theorem expQ_pos (q : ℚ) : 0 < expQ q := by
  unfold expQ
  have h1 : (0 : ℚ) < expE := by linarith [expE_bounds.1]
  have h2 := (expFrac_bounds (q - ⌊q⌋) (by linarith [Int.floor_le q])
    (by linarith [Int.lt_floor_add_one q])).1
  have h3 : (0 : ℚ) < expE ^ ⌊q⌋ := zpow_pos h1 _
  nlinarith

theorem lt_clip_clip (p q : ℚ) (hp : |p| ≤ maxDbl) :
    Arith.lt (clip p) (clip q) = decide (p < q) := by
  rw [clip_fin p hp]
  exact lt_fin_clip p hp q

theorem zero_clip : (0 : Dbl) = clip 0 := by
  rw [lit_def]; norm_num

end Dbl




end TanhSinh

namespace TanhSinh

open Arith

/-! ## Abscissas at and beyond the bounds -/

/-- C15, counterexample.  Over `[-maxDbl, maxDbl]` the difference `b - a`
overflows, `d` is `+∞`, and the Tanh-Sinh sweep reads the integrand at `+∞` and
at `-∞`: the constant 1 and `farLow`, which agree at every finite argument,
give the values `+∞` and `-∞`.  Over the whole line the Sinh-Sinh sweep reaches
`r = +∞` and reads the integrand at `-∞` and `+∞`: `slowTail` and
`slowTailInf`, which agree at every finite argument, give `NaN` and `+∞`.
Between `maxDbl` and `+∞` there is no value at all, so any two integrands agree
there; yet over these bounds the constant 0 gives the value 0 and the constant
1 does not.  On `Fp`, over `[0, 2^-1074]`, both `(a+b)/2` and `(b-a)/2`
underflow to 0: the first abscissa is the endpoint `a = 0`, and `oneAtZero`,
which is 0 at every argument other than zero, gives the error estimate
`1/(1 + eps)` where the constant 0 gives 0. -/
theorem infinite_abscissa_sampled :
    ((∀ x : Dbl, lt (Dbl.clip (-maxDbl)) x = true → lt x (Dbl.clip maxDbl) = true →
        farLow x = 1) ∧
      (quad .precise (fun _ => 1) (Dbl.clip (-maxDbl)) (Dbl.clip maxDbl) 0
        (Dbl.clip (1 / 1000)) 100).map (fun r => r.value) = some Dbl.pinf ∧
      (quad .precise farLow (Dbl.clip (-maxDbl)) (Dbl.clip maxDbl) 0
        (Dbl.clip (1 / 1000)) 100).map (fun r => r.value) = some Dbl.ninf) ∧
    ((∀ x : Dbl, lt Dbl.ninf x = true → lt x Dbl.pinf = true → slowTailInf x = slowTail x) ∧
      (quad .precise slowTail Dbl.ninf Dbl.pinf 0 (Dbl.clip (1 / 1000)) 30).map
        (fun r => r.value) = some Dbl.nan ∧
      (quad .precise slowTailInf Dbl.ninf Dbl.pinf 0 (Dbl.clip (1 / 1000)) 30).map
        (fun r => r.value) = some Dbl.pinf) ∧
    ((∀ x : Dbl, lt (Dbl.clip maxDbl) x = true → lt x Dbl.pinf = true → False) ∧
      (quad .precise (fun _ => 0) (Dbl.clip maxDbl) Dbl.pinf 2 (Dbl.clip (1 / 1000)) 100).map
        (fun r => r.value) = some (0 : Dbl) ∧
      (quad .precise (fun _ => 1) (Dbl.clip maxDbl) Dbl.pinf 2 (Dbl.clip (1 / 1000)) 100).map
        (fun r => eq r.value (0 : Dbl)) = some false) ∧
    ((∀ x : Fp, lt 0 x = true → lt x (Fp.round false minDbl) = true → oneAtZero x = 0) ∧
      (quadSetup oneAtZero 0 (Fp.round false minDbl) (Fp.round false (1 / 1000))).map
        (fun S => (S.v, S.d)) = some (0, 0) ∧
      (quad .precise (fun _ => 0) 0 (Fp.round false minDbl) 2 (Fp.round false (1 / 1000))
        50).map (fun r => r.err) = some (0 : Fp) ∧
      (quad .precise oneAtZero 0 (Fp.round false minDbl) 2 (Fp.round false (1 / 1000))
        50).map (fun r => r.err) = some (Fp.round false (1000 / 1001))) := by
  refine ⟨⟨?_, by decide!, by decide!⟩, ⟨?_, by decide!, by decide!⟩,
    ⟨?_, by decide!, by decide!⟩, ⟨?_, by decide!, by decide!, by decide!⟩⟩
  · intro x h1 h2
    cases x with
    | fin q h => rfl
    | pinf => exact absurd h2 (by decide!)
    | ninf => exact absurd h1 (by decide!)
    | nan => exact absurd h1 (by decide!)
  · intro x h1 h2
    cases x with
    | fin q h => rfl
    | pinf => exact absurd h2 (by decide!)
    | ninf => exact absurd h1 (by decide!)
    | nan => exact absurd h1 (by decide!)
  · intro x h1 h2
    cases x with
    | fin q h =>
      have hM : |maxDbl| ≤ maxDbl := by rw [abs_of_pos Dbl.maxDbl_pos]
      rw [Dbl.clip_fin maxDbl hM] at h1
      have h3 : maxDbl < q := by simpa [Arith.lt, Dbl.lt] using h1
      have h4 := (abs_le.mp h).2
      linarith
    | pinf => exact absurd h2 (by decide!)
    | ninf => exact absurd h1 (by decide!)
    | nan => exact absurd h1 (by decide!)
  · intro x h1 h2
    cases x with
    | fin q h =>
      have hq : q ≠ 0 := Fp.fin_ne_zero h
      simp [oneAtZero, Fp.fp_zero_def, Fp.fp_eq_def, Fp.eq, Fp.val, hq]
    | zero s => exact absurd h1 (by cases s <;> decide!)
    | inf s =>
      cases s
      · exact absurd h2 (by decide!)
      · exact absurd h1 (by decide!)
    | nan => exact absurd h1 (by decide!)

end TanhSinh


namespace TanhSinh

open Arith

/-! ## The error estimate -/

/-- The setup of `quad` (lines 75-104) returns for every request. -/
theorem quadSetup_isSome {α : Type} [Arith α] (f : α → α) (a b eps : α) :
    (quadSetup f a b eps).isSome = true := by
  have hsel : ∀ (x y sg : α), (selectMode f x y sg eps).isSome = true := by
    intro x y sg
    obtain ⟨o1, h1, _⟩ := exp_sinh_opt_d_trace f x eps 1
    obtain ⟨o2, h2, _⟩ := exp_sinh_opt_d_trace f y eps (-1)
    unfold selectMode
    simp only [h1, h2]
    split
    · rfl
    · split
      · rfl
      · split <;> rfl
  unfold quadSetup
  split
  · exact hsel b a (-1)
  · exact hsel a b 1

/-- C5.  `quad` returns when the levels it runs return, at most
`max (n + 1) 1` of them, and so does `qthsh`.  When `quad` returns, the value
stored through `err` is `|v| / (FUDGE2*|s| + eps)` with `s = s' + p` and
`v = s' - p`, where `s'` is the running sum before the last pass of the outer
loop (a state reached from the initial one by `m` passes) and `p` the
increment left by the sweep of that pass; likewise for `qthsh`; and `FUDGE2`
is 1 or 16 by the profile. -/
theorem quad_err_formula {α : Type} [Arith α] (P : Profile) (f : α → α) (a b : α) (n : Int)
    (eps : α) (fuel : Nat) :
    (∀ r : Result α, quad P f a b n eps fuel = some r →
      ∃ (S : Setup α) (m : Nat) (Lp : Level α) (st : Sweep α),
        quadSetup f a b eps = some S ∧
        levelIter f S eps fuel m (quadInit f S) = some Lp ∧
        levelSweep f S eps fuel Lp = some st ∧
        quadLevels P f S n eps fuel =
          some { s := Lp.s + st.p, v := Lp.s - st.p, h := Lp.h / 2, k := Lp.k + 1 } ∧
        r.err = fabs (Lp.s - st.p) / (ofInt (FUDGE2 P) * fabs (Lp.s + st.p) + eps)) ∧
    (∀ r : Result α, qthsh P f a b n eps fuel = some r →
      ∃ (m : Nat) (Lp : Level α) (st : Sweep α),
        qthshLevelIter f a b ((b - a) / 2) eps fuel m (qthshInit f a b) = some Lp ∧
        qthshLevelSweep f a b ((b - a) / 2) eps fuel Lp = some st ∧
        qthshRun P f a b n eps fuel =
          some { s := Lp.s + st.p, v := Lp.s - st.p, h := Lp.h / 2, k := Lp.k + 1 } ∧
        r.err = fabs (Lp.s - st.p) / (ofInt (FUDGE2 P) * fabs (Lp.s + st.p) + eps)) ∧
    (∃ S : Setup α, quadSetup f a b eps = some S ∧
      ((∀ i : Nat, (i : Int) ≤ max (n + 1) 1 →
          (levelIter f S eps fuel i (quadInit f S)).isSome = true) →
        (quad P f a b n eps fuel).isSome = true)) ∧
    ((∀ i : Nat, (i : Int) ≤ max (n + 1) 1 →
        (qthshLevelIter f a b ((b - a) / 2) eps fuel i (qthshInit f a b)).isSome = true) →
      (qthsh P f a b n eps fuel).isSome = true) ∧
    FUDGE2 .precise = 1 ∧ FUDGE2 .fast = 16 := by
  refine ⟨?_, ?_, ?_, ?_, rfl, rfl⟩
  · intro r h
    unfold quad at h
    cases hS : quadSetup f a b eps with
    | none => simp [hS] at h
    | some S =>
      cases hL : quadLevels P f S n eps fuel with
      | none => simp [hS, hL] at h
      | some L =>
        simp only [hS, hL, Option.some.injEq] at h
        obtain ⟨m, Lp, st, h1, h2, h3⟩ :=
          levels_last P f S n eps fuel (levelFuel n) (quadInit f S) L hL
        refine ⟨S, m, Lp, st, rfl, h1, h2, h3 ▸ hL, ?_⟩
        rw [← h, h3]
        rfl
  · intro r h
    unfold qthsh at h
    cases hL : qthshRun P f a b n eps fuel with
    | none => simp [hL] at h
    | some L =>
      simp only [hL, Option.some.injEq] at h
      obtain ⟨m, Lp, st, h1, h2, h3⟩ :=
        qthshLevels_last P f a b ((b - a) / 2) n eps fuel (levelFuel n) (qthshInit f a b) L hL
      refine ⟨m, Lp, st, h1, h2, h3 ▸ rfl, ?_⟩
      rw [← h, h3]
  · obtain ⟨S, hS⟩ := Option.isSome_iff_exists.mp (quadSetup_isSome f a b eps)
    refine ⟨S, hS, ?_⟩
    intro hret
    obtain ⟨m, _, h2, h3⟩ :=
      levels_eq_iter P f S n eps fuel (levelFuel n) (quadInit f S)
        (by simp only [levelFuel, quadInit]; omega)
    have h2' : (m : Int) ≤ max (n + 1) 1 := by
      simp only [quadInit] at h2; simpa using h2
    have h4 : quadLevels P f S n eps fuel = levelIter f S eps fuel m (quadInit f S) := h3
    obtain ⟨L, hL⟩ := Option.isSome_iff_exists.mp (hret m h2')
    simp only [quad, hS, h4, hL, Option.isSome_some]
  · intro hret
    obtain ⟨m, _, h2, h3⟩ :=
      qthshLevels_eq_iter P f a b ((b - a) / 2) n eps fuel (levelFuel n) (qthshInit f a b)
        (by simp only [levelFuel, qthshInit]; omega)
    have h2' : (m : Int) ≤ max (n + 1) 1 := by
      simp only [qthshInit] at h2; simpa using h2
    have h4 : qthshRun P f a b n eps fuel =
        qthshLevelIter f a b ((b - a) / 2) eps fuel m (qthshInit f a b) := h3
    obtain ⟨L, hL⟩ := Option.isSome_iff_exists.mp (hret m h2')
    simp only [qthsh, h4, hL, Option.isSome_some]

/-- C5 at a concrete input: `quad` and `qthsh` return on the integrand `x` over
`[0, 1]` in the fast profile, and the error estimate of each has the stated
form. -/
theorem quad_err_formula_witness :
    (∃ r : Result Dbl,
      quad .fast (fun x => x) (Dbl.clip 0) (Dbl.clip 1) 6 (Dbl.clip (1 / 1000)) 10 = some r ∧
      ∃ (S : Setup Dbl) (m : Nat) (Lp : Level Dbl) (st : Sweep Dbl),
        quadSetup (fun x => x) (Dbl.clip 0) (Dbl.clip 1) (Dbl.clip (1 / 1000)) = some S ∧
        levelIter (fun x => x) S (Dbl.clip (1 / 1000)) 10 m (quadInit (fun x => x) S) = some Lp ∧
        levelSweep (fun x => x) S (Dbl.clip (1 / 1000)) 10 Lp = some st ∧
        quadLevels .fast (fun x => x) S 6 (Dbl.clip (1 / 1000)) 10 =
          some { s := Lp.s + st.p, v := Lp.s - st.p, h := Lp.h / 2, k := Lp.k + 1 } ∧
        r.err = fabs (Lp.s - st.p) /
          (ofInt (FUDGE2 .fast) * fabs (Lp.s + st.p) + Dbl.clip (1 / 1000))) ∧
    (∃ r : Result Dbl,
      qthsh .fast (fun x => x) (Dbl.clip 0) (Dbl.clip 1) 6 (Dbl.clip (1 / 1000)) 10 = some r ∧
      ∃ (m : Nat) (Lp : Level Dbl) (st : Sweep Dbl),
        qthshLevelIter (fun x => x) (Dbl.clip 0) (Dbl.clip 1) ((Dbl.clip 1 - Dbl.clip 0) / 2)
          (Dbl.clip (1 / 1000)) 10 m (qthshInit (fun x => x) (Dbl.clip 0) (Dbl.clip 1)) =
          some Lp ∧
        qthshLevelSweep (fun x => x) (Dbl.clip 0) (Dbl.clip 1) ((Dbl.clip 1 - Dbl.clip 0) / 2)
          (Dbl.clip (1 / 1000)) 10 Lp = some st ∧
        qthshRun .fast (fun x => x) (Dbl.clip 0) (Dbl.clip 1) 6 (Dbl.clip (1 / 1000)) 10 =
          some { s := Lp.s + st.p, v := Lp.s - st.p, h := Lp.h / 2, k := Lp.k + 1 } ∧
        r.err = fabs (Lp.s - st.p) /
          (ofInt (FUDGE2 .fast) * fabs (Lp.s + st.p) + Dbl.clip (1 / 1000))) := by
  have h : (quad (α := Dbl) .fast (fun x => x) (Dbl.clip 0) (Dbl.clip 1) 6
      (Dbl.clip (1 / 1000)) 10).isSome = true := by decide!
  have h' : (qthsh (α := Dbl) .fast (fun x => x) (Dbl.clip 0) (Dbl.clip 1) 6
      (Dbl.clip (1 / 1000)) 10).isSome = true := by decide!
  obtain ⟨r, hr⟩ := Option.isSome_iff_exists.mp h
  obtain ⟨r', hr'⟩ := Option.isSome_iff_exists.mp h'
  exact ⟨⟨r, hr, (quad_err_formula .fast (fun x => x) (Dbl.clip 0) (Dbl.clip 1) 6
      (Dbl.clip (1 / 1000)) 10).1 r hr⟩,
    ⟨r', hr', (quad_err_formula .fast (fun x => x) (Dbl.clip 0) (Dbl.clip 1) 6
      (Dbl.clip (1 / 1000)) 10).2.1 r' hr'⟩⟩

end TanhSinh

namespace TanhSinh

open Arith

/-! ## What becomes of a non-finite sample -/

/-- An Exp-Sinh pass in terms of `expSinhPass`: the `break` when `c + d/r == c`,
otherwise `q` is the sum of the terms with a finite sample. -/
theorem sinhStep_expSinh {α : Type} [Arith α] (f : α → α) (c d eh : α) (st : Sweep α) :
    sinhStep f 1 c d eh st =
      (if eq (c + d / exp (st.t - quarter / st.t)) c then none
       else some { p := st.p + expSinhPass f c d st.t, q := expSinhPass f c d st.t,
                   fp := st.fp, fm := st.fm, t := st.t * eh }) := by
  simp only [sinhStep, sinhHead, if_true, expSinhPass, sumFinite, List.foldl]
  by_cases hc : eq (c + d / exp (st.t - quarter / st.t)) c = true
  · simp only [hc, if_true]
  · simp only [hc, Bool.false_eq_true, if_false]

/-- A Sinh-Sinh pass in terms of `sinhSinhPass`. -/
theorem sinhStep_sinhSinh {α : Type} [Arith α] (f : α → α) (mode : Nat) (c d eh : α)
    (st : Sweep α) (hm : mode ≠ 1) :
    sinhStep f mode c d eh st =
      some { p := st.p + sinhSinhPass f c d st.t, q := sinhSinhPass f c d st.t,
             fp := st.fp, fm := st.fm, t := st.t * eh } := by
  simp only [sinhStep, sinhHead, hm, if_false, sinhSinhPass, sumFinite, List.foldl]

end TanhSinh

namespace TanhSinh

open Arith

/-! ## The abscissas that decide the result -/

theorem probe_agree {α : Type} [Arith α] (f g : α → α) (a d : α) (h : OptAgree f g a d)
    (i j : Int) (h2 : 2 ≤ i + j) (h17 : i + j ≤ 17) : probe f a d i j = probe g a d i j := by
  obtain ⟨_, _, he⟩ := h
  obtain ⟨e1, e2⟩ := he (i + j) h2 h17
  simp only [probe, e1, e2]

theorem searchLoop_agree {α : Type} [Arith α] (f g : α → α) (a d : α)
    (h : OptAgree f g a d) :
    ∀ (fuel : Nat) (j ev : Int) (sh : List Int), 2 ≤ j → j ≤ 33 →
      searchLoop f a d 1 fuel j ev sh = searchLoop g a d 1 fuel j ev sh := by
  intro fuel
  induction fuel with
  | zero => intro j ev sh _ _; rfl
  | succ fuel ih =>
    intro j ev sh h2 h33
    have hp := probe_agree f g a d h 1 (j / 2) (by omega) (by omega)
    simp only [searchLoop, hp]
    by_cases hc : (decide (j / 2 > 1) && !isfinite (probe g a d 1 (j / 2)).h) = true
    · have hj : j / 2 > 1 := by
        simp only [Bool.and_eq_true, decide_eq_true_eq] at hc
        exact hc.1
      simp only [hc, if_true]
      exact ih _ _ _ (by omega) (by omega)
    · simp only [hc, Bool.false_eq_true, if_false]

theorem bisectBody_agree {α : Type} [Arith α] (f g : α → α) (a d h2 : α)
    (h : OptAgree f g a d) (st : Bisect α) (hinv : BisectInv st) :
    bisectBody f a d h2 st = bisectBody g a d h2 st := by
  obtain ⟨h1, hj, hij, _⟩ := hinv
  have hp := probe_agree f g a d h st.i (st.j / 2) (by omega) (by omega)
  simp only [bisectBody, hp]

theorem bisectLoop_agree {α : Type} [Arith α] (f g : α → α) (a d h2 : α)
    (h : OptAgree f g a d) :
    ∀ (fuel : Nat) (st : Bisect α), BisectInv st →
      bisectLoop f a d h2 fuel st = bisectLoop g a d h2 fuel st := by
  intro fuel
  induction fuel with
  | zero => intro st _; rfl
  | succ fuel ih =>
    intro st hinv
    obtain ⟨hj', hi, hij, he⟩ := bisectBody_inv g a d h2 st hinv
    simp only [bisectLoop, bisectBody_agree f g a d h2 h st hinv]
    by_cases hc : (bisectBody g a d h2 st).j > 1
    · simp only [hc, if_true]
      exact ih _ ⟨hi, by omega, hij, he⟩
    · simp only [hc, if_false]

/-- The optimizer returns the same for integrands that agree at its probes. -/
theorem exp_sinh_opt_d_agree {α : Type} [Arith α] (f g : α → α) (a eps d : α)
    (h : OptAgree f g a d) : exp_sinh_opt_d f a eps d = exp_sinh_opt_d g a eps d := by
  obtain ⟨sr, hsr, hj⟩ := searchLoop_some g a d 1 4 32 2 [] (by norm_num)
  have hsr' : searchLoop g a d 1 optFuel 32 2 [] = some sr := hsr
  unfold exp_sinh_opt_d
  simp only [h.1, h.2.1, searchLoop_agree f g a d h optFuel 32 2 [] (by norm_num) (by norm_num),
    hsr']
  split
  · split
    · rename_i hc
      have hj1 : sr.j > 1 := by
        simp only [Bool.and_eq_true, decide_eq_true_eq] at hc
        exact hc.1.1
      rw [bisectLoop_agree f g a d _ h optFuel _
        ⟨le_refl 1, by simp only []; omega, by simp only []; omega, 1, le_refl 1, by omega,
          by simp [ofNat_eq_ofInt]⟩]
    · rfl
  · rfl

theorem tsT_shift {α : Type} [Arith α] (eh t : α) :
    ∀ m : Nat, tsT eh (t * eh) m = tsT eh t (m + 1) := by
  intro m
  induction m with
  | zero => rfl
  | succ m ih => rw [tsT, ih]; rfl

/-- A Tanh-Sinh sweep is the same for integrands that agree at the abscissas of
its passes that pass the tests `a + x > a` and `b - x < b`. -/
theorem tanhSinhSweep_agree_at {α : Type} [Arith α] (f g : α → α) (a b d eps eh : α) :
    ∀ (fuel : Nat) (st : Sweep α),
      (∀ m : Nat,
        (lt a (a + tsOffset d (tsT eh st.t m)) = true →
          f (a + tsOffset d (tsT eh st.t m)) = g (a + tsOffset d (tsT eh st.t m))) ∧
        (lt (b - tsOffset d (tsT eh st.t m)) b = true →
          f (b - tsOffset d (tsT eh st.t m)) = g (b - tsOffset d (tsT eh st.t m)))) →
      tanhSinhSweep f a b d eps eh fuel st = tanhSinhSweep g a b d eps eh fuel st := by
  intro fuel
  induction fuel with
  | zero => intro st _; rfl
  | succ fuel ih =>
    intro st h
    have h0 := h 0
    have hstep := tanhSinhStep_guarded f g a b d eh st h0.1 h0.2
    have ht : (tanhSinhStep g a b d eh st).t = st.t * eh := rfl
    simp only [tanhSinhSweep, hstep]
    split
    · apply ih
      intro m
      rw [ht, tsT_shift]
      exact h (m + 1)
    · rfl

/-- An Exp-Sinh sweep is the same for integrands that agree at the two
abscissas of every pass whose `c + d/r` is not `== c`. -/
theorem expSinhSweep_agree_at {α : Type} [Arith α] (f g : α → α) (c d eps eh : α) :
    ∀ (fuel : Nat) (st : Sweep α),
      (∀ m : Nat,
        eq (c + d / exp (tsT eh st.t m - quarter / tsT eh st.t m)) c = false →
          f (c + d / exp (tsT eh st.t m - quarter / tsT eh st.t m)) =
              g (c + d / exp (tsT eh st.t m - quarter / tsT eh st.t m)) ∧
            f (c + d * exp (tsT eh st.t m - quarter / tsT eh st.t m)) =
              g (c + d * exp (tsT eh st.t m - quarter / tsT eh st.t m))) →
      sinhSweep f 1 c d eps eh fuel st = sinhSweep g 1 c d eps eh fuel st := by
  intro fuel
  induction fuel with
  | zero => intro st _; rfl
  | succ fuel ih =>
    intro st h
    have h0 := h 0
    simp only [tsT] at h0
    have hstep : sinhStep f 1 c d eh st = sinhStep g 1 c d eh st := by
      rw [sinhStep_expSinh, sinhStep_expSinh]
      by_cases hc : eq (c + d / exp (st.t - quarter / st.t)) c = true
      · simp only [hc, if_true]
      · have hc' : eq (c + d / exp (st.t - quarter / st.t)) c = false := by
          simpa using hc
        obtain ⟨e1, e2⟩ := h0 hc'
        simp only [hc, expSinhPass, e1, e2]
    simp only [sinhSweep, hstep]
    cases hs : sinhStep g 1 c d eh st with
    | none => rfl
    | some st' =>
      have ht : st'.t = st.t * eh := by
        rw [sinhStep_expSinh] at hs
        split at hs
        · cases hs
        · cases hs; rfl
      simp only []
      split
      · apply ih
        intro m
        rw [ht, tsT_shift]
        exact h (m + 1)
      · rfl

/-- A Sinh-Sinh sweep is the same for integrands that agree at the two
abscissas of every pass. -/
theorem sinhSinhSweep_agree_at {α : Type} [Arith α] (f g : α → α) (c d eps eh : α) :
    ∀ (fuel : Nat) (st : Sweep α),
      (∀ m : Nat,
        f (c - d * ((exp (tsT eh st.t m - quarter / tsT eh st.t m) -
              1 / exp (tsT eh st.t m - quarter / tsT eh st.t m)) / 2)) =
            g (c - d * ((exp (tsT eh st.t m - quarter / tsT eh st.t m) -
              1 / exp (tsT eh st.t m - quarter / tsT eh st.t m)) / 2)) ∧
          f (c + d * ((exp (tsT eh st.t m - quarter / tsT eh st.t m) -
              1 / exp (tsT eh st.t m - quarter / tsT eh st.t m)) / 2)) =
            g (c + d * ((exp (tsT eh st.t m - quarter / tsT eh st.t m) -
              1 / exp (tsT eh st.t m - quarter / tsT eh st.t m)) / 2))) →
      sinhSweep f 2 c d eps eh fuel st = sinhSweep g 2 c d eps eh fuel st := by
  have h21 : (2 : Nat) ≠ 1 := by decide
  intro fuel
  induction fuel with
  | zero => intro st _; rfl
  | succ fuel ih =>
    intro st h
    have h0 := h 0
    simp only [tsT] at h0
    obtain ⟨e1, e2⟩ := h0
    have hstep : sinhStep f 2 c d eh st = sinhStep g 2 c d eh st := by
      rw [sinhStep_sinhSinh f 2 c d eh st h21, sinhStep_sinhSinh g 2 c d eh st h21]
      simp only [sinhSinhPass, e1, e2]
    simp only [sinhSweep, hstep, sinhStep_sinhSinh g 2 c d eh st h21]
    split
    · apply ih
      intro m
      simp only []
      rw [tsT_shift]
      exact h (m + 1)
    · rfl

/-- The mode left by the setup is 0, 1 or 2. -/
theorem quadSetup_mode {α : Type} [Arith α] (f : α → α) (a b eps : α) (S : Setup α)
    (h : quadSetup f a b eps = some S) : S.mode = 0 ∨ S.mode = 1 ∨ S.mode = 2 := by
  have hsel : ∀ (x y sg : α), selectMode f x y sg eps = some S →
      S.mode = 0 ∨ S.mode = 1 ∨ S.mode = 2 := by
    intro x y sg hs
    unfold selectMode at hs
    simp only [] at hs
    split at hs
    · cases hs; exact Or.inl rfl
    · split at hs
      · split at hs
        · cases hs
        · cases hs; exact Or.inr (Or.inl rfl)
      · split at hs
        · split at hs
          · cases hs
          · cases hs; exact Or.inr (Or.inl rfl)
        · cases hs; exact Or.inr (Or.inr rfl)
  unfold quadSetup at h
  split at h
  · exact hsel _ _ _ h
  · exact hsel _ _ _ h

/-- The sweep of the outer pass number `k` is the same for integrands that
agree at the abscissas it can read. -/
theorem levelSweep_agree_at {α : Type} [Arith α] (f g : α → α) (S : Setup α) (eps : α)
    (fuel : Nat) (hmode : S.mode = 0 ∨ S.mode = 1 ∨ S.mode = 2) (hs : SweepAgree f g S)
    (k : Nat) (L : Level α) (hh : L.h = halved k) (hk : L.k = (k : Int)) :
    levelSweep f S eps fuel L = levelSweep g S eps fuel L := by
  have heh : (if L.k > 0 then exp (halved (k + 1) : α) * exp (halved (k + 1))
      else exp (halved (k + 1))) = (levelEh k : α) := by
    rw [hk]
    unfold levelEh
    by_cases hk0 : k > 0
    · have : (k : Int) > 0 := by omega
      simp only [hk0, this, if_true]
    · have : ¬ (k : Int) > 0 := by omega
      simp only [hk0, this, if_false]
  have hh2 : L.h / 2 = halved (k + 1) := by rw [hh]; rfl
  unfold levelSweep
  simp only [hh2]
  rw [heh]
  rcases hmode with hm | hm | hm
  · simp only [hm, if_true]
    apply tanhSinhSweep_agree_at
    intro m
    have := (hs k m).1 hm
    simpa [sweepT] using this
  · have h10 : (1 : Nat) ≠ 0 := by decide
    simp only [hm, h10, if_false]
    apply expSinhSweep_agree_at
    intro m
    have := (hs k m).2.1 hm
    simpa [sweepT] using this
  · have h20 : (2 : Nat) ≠ 0 := by decide
    simp only [hm, h20, if_false]
    apply sinhSinhSweep_agree_at
    intro m
    have := (hs k m).2.2 hm
    simpa [sweepT] using this

/-- The outer loop is the same for integrands that agree at the abscissas its
sweeps can read, from states that agree. -/
theorem levels_agree_at {α : Type} [Arith α] (P : Profile) (f g : α → α) (S : Setup α)
    (n : Int) (eps : α) (fuel : Nat) (hmode : S.mode = 0 ∨ S.mode = 1 ∨ S.mode = 2)
    (hs : SweepAgree f g S) :
    ∀ (m k : Nat) (L : Level α), L.h = halved k → L.k = (k : Int) →
      levels P f S n eps fuel m L = levels P g S n eps fuel m L := by
  intro m
  induction m with
  | zero => intro k L _ _; rfl
  | succ m ih =>
    intro k L hh hk
    have hsw := levelSweep_agree_at f g S eps fuel hmode hs k L hh hk
    have hl : level f S eps fuel L = level g S eps fuel L := by
      simp only [level, hsw]
    simp only [levels, hl]
    cases hg : level g S eps fuel L with
    | none => rfl
    | some L' =>
      obtain ⟨_, _, _, _, hh'⟩ := level_fields hg
      have hk' := level_k hg
      simp only []
      split
      · exact ih (k + 1) L' (by rw [hh', hh]; rfl) (by rw [hk', hk]; push_cast; rfl)
      · rfl

/-- C15, amended.  For bounds that are not swapped (`b < a` is false), `quad`
returns the same, value and error estimate, for two integrands that agree at
the abscissas it can read: the first abscissa `v`; the probes of the optimizer
when one bound is infinite (`OptAgree`); and the abscissas of the sweeps
(`SweepAgree`), where a Tanh-Sinh sweep reads `a + x` only if `a + x > a` and
`b - x` only if `b - x < b`, and an Exp-Sinh pass reads its two abscissas only
if `c + d/r` is not `== c`.  What an integrand is at any other point, the
setup, and so the offset `d` of the optimizer, included, does not matter. -/
theorem quad_interior_only {α : Type} [Arith α] (P : Profile) (f g : α → α) (a b : α)
    (n : Int) (eps : α) (fuel : Nat) (hab : lt b a = false)
    (ho1 : isfinite a = true → isfinite b = false → OptAgree f g a 1)
    (ho2 : isfinite a = false → isfinite b = true → OptAgree f g b (-1))
    (hs : ∀ S : Setup α, quadSetup f a b eps = some S → f S.v = g S.v ∧ SweepAgree f g S) :
    quadSetup f a b eps = quadSetup g a b eps ∧
      quad P f a b n eps fuel = quad P g a b n eps fuel := by
  have hsetup : quadSetup f a b eps = quadSetup g a b eps := by
    unfold quadSetup selectMode
    simp only [hab, Bool.false_eq_true, if_false]
    cases ha : isfinite a <;> cases hb : isfinite b
    · rfl
    · simp only [Bool.false_and, Bool.false_eq_true, if_false, if_true,
        exp_sinh_opt_d_agree f g b eps (-1) (ho2 ha hb)]
    · simp only [Bool.and_false, Bool.false_eq_true, if_false, if_true,
        exp_sinh_opt_d_agree f g a eps 1 (ho1 ha hb)]
    · rfl
  refine ⟨hsetup, ?_⟩
  unfold quad
  rw [← hsetup]
  cases hS : quadSetup f a b eps with
  | none => rfl
  | some S =>
    obtain ⟨hv, hsw⟩ := hs S hS
    have hmode := quadSetup_mode f a b eps S hS
    have hinit : quadInit f S = quadInit g S := by
      simp only [quadInit, hv]
    have hL : quadLevels P f S n eps fuel = quadLevels P g S n eps fuel := by
      unfold quadLevels
      rw [hinit]
      exact levels_agree_at P f g S n eps fuel hmode hsw (levelFuel n) 0 _ rfl rfl
    simp only [hL]

end TanhSinh

namespace TanhSinh

open Arith

/-! ## Two instances: a finite interval and a half line -/

/-- In exact arithmetic every offset of a Tanh-Sinh sweep over `[0, 1]` lies
strictly between 0 and 1. -/
theorem exact_offset_inside (t : Exact) :
    0 < (tsOffset (⟨1 / 2⟩ : Exact) t).val ∧ (tsOffset (⟨1 / 2⟩ : Exact) t).val < 1 := by
  have hu := Dbl.expQ_pos ((1 : ℚ) / t.val - t.val)
  have hval : (tsOffset (⟨1 / 2⟩ : Exact) t).val =
      1 / 2 * (2 * Dbl.expQ ((1 : ℚ) / t.val - t.val) /
        (1 + Dbl.expQ ((1 : ℚ) / t.val - t.val))) := by
    show (1 / 2 : ℚ) * ((((2 : Nat) : Int) : ℚ) * Dbl.expQ ((((1 : Nat) : Int) : ℚ) / t.val - t.val) /
      ((((1 : Nat) : Int) : ℚ) + Dbl.expQ ((((1 : Nat) : Int) : ℚ) / t.val - t.val))) = _
    norm_num
  rw [hval]
  have h1 : (0 : ℚ) < 1 + Dbl.expQ ((1 : ℚ) / t.val - t.val) := by linarith
  constructor
  · positivity
  · rw [show (1 : ℚ) / 2 * (2 * Dbl.expQ ((1 : ℚ) / t.val - t.val) /
        (1 + Dbl.expQ ((1 : ℚ) / t.val - t.val))) =
        Dbl.expQ ((1 : ℚ) / t.val - t.val) / (1 + Dbl.expQ ((1 : ℚ) / t.val - t.val)) by
      field_simp]
    rw [div_lt_one h1]
    linarith

theorem offEnds_inside (x : Exact) (h0 : x.val ≠ 0) (h1 : x.val ≠ 1) : x = offEnds x := by
  simp [offEnds, h0, h1]

/-- Over `[0, 1]` in exact arithmetic the identity and `offEnds` agree at every
abscissa a sweep can read. -/
theorem exact_sweepAgree : SweepAgree (fun x => x) offEnds exactSetup := by
  intro k m
  refine ⟨fun _ => ?_, fun h => absurd h (by decide), fun h => absurd h (by decide)⟩
  obtain ⟨h0, h1⟩ := exact_offset_inside (sweepT 0 k m)
  constructor
  · intro _
    apply offEnds_inside
    · show (0 : ℚ) + (tsOffset (⟨1 / 2⟩ : Exact) (sweepT 0 k m)).val ≠ 0
      linarith
    · show (0 : ℚ) + (tsOffset (⟨1 / 2⟩ : Exact) (sweepT 0 k m)).val ≠ 1
      linarith
  · intro _
    apply offEnds_inside
    · show (1 : ℚ) - (tsOffset (⟨1 / 2⟩ : Exact) (sweepT 0 k m)).val ≠ 0
      linarith
    · show (1 : ℚ) - (tsOffset (⟨1 / 2⟩ : Exact) (sweepT 0 k m)).val ≠ 1
      linarith

namespace Fp

theorem signbit_round (r : ℚ) (h : 0 ≤ r) : signbit (round false r) = false := by
  unfold round
  split
  · rfl
  · split
    · rfl
    · simp [signbit, not_lt.mpr h]

theorem signbit_exp (y : Fp) : signbit (exp y) = false := by
  cases y with
  | fin q h =>
    simp only [exp]
    split
    · rfl
    · split
      · rfl
      · exact signbit_round _ (Dbl.expQ_pos q).le
  | zero s => exact signbit_round 1 (by norm_num)
  | inf s => cases s <;> rfl
  | nan => rfl

theorem fin_pos {q : ℚ} (h : minDbl / 2 < |q| ∧ |q| ≤ maxDbl) (hs : signbit (fin q h) = false) :
    0 < q := by
  have h0 := fin_ne_zero h
  have : ¬ q < 0 := by simpa [signbit] using hs
  rcases lt_or_gt_of_ne h0 with h1 | h1
  · exact absurd h1 this
  · exact h1

theorem signbit_mul (x y : Fp) (hx : signbit x = false) (hy : signbit y = false) :
    signbit (mul x y) = false := by
  cases x with
  | fin p hp =>
    cases y with
    | fin q hq =>
      have h1 := fin_pos hp hx
      have h2 := fin_pos hq hy
      have h3 : ¬ p < 0 := by linarith
      have h4 : ¬ q < 0 := by linarith
      simp only [mul, h3, h4, decide_False, Bool.xor_false]
      exact signbit_round _ (mul_pos h1 h2).le
    | zero t => simp_all [mul, signbit]
    | inf t => simp_all [mul, signbit]
    | nan => rfl
  | zero s => cases y <;> simp_all [mul, signbit]
  | inf s => cases y <;> simp_all [mul, signbit]
  | nan => cases y <;> rfl

theorem signbit_div (x y : Fp) (hx : signbit x = false) (hy : signbit y = false) :
    signbit (div x y) = false := by
  cases x with
  | fin p hp =>
    cases y with
    | fin q hq =>
      have h1 := fin_pos hp hx
      have h2 := fin_pos hq hy
      have h3 : ¬ p < 0 := by linarith
      have h4 : ¬ q < 0 := by linarith
      simp only [div, h3, h4, decide_False, Bool.xor_false]
      exact signbit_round _ (div_pos h1 h2).le
    | zero t => simp_all [div, signbit]
    | inf t => simp_all [div, signbit]
    | nan => rfl
  | zero s => cases y <;> simp_all [div, signbit]
  | inf s => cases y <;> simp_all [div, signbit]
  | nan => cases y <;> rfl

theorem signbit_zero_add (y : Fp) (hy : signbit y = false) :
    signbit (add (zero false) y) = false := by
  cases y <;> simp_all [add, signbit]

theorem lt_zero_of_signbit (x : Fp) (hx : signbit x = false) : lt x (zero false) = false := by
  cases x with
  | fin q h =>
    have : ¬ q < 0 := by simpa [signbit] using hx
    simp [lt, val, this]
  | zero s => simp [lt, val]
  | inf s => simpa [lt, signbit] using hx
  | nan => rfl

end Fp

theorem heavyTailOff_eq (x : Fp) (h : lt x 0 = false) : heavyTailFp x = heavyTailOff x := by
  simp [heavyTailOff, heavyTailFp, h]

/-- Over `(0, +∞)` the integrands `heavyTailFp` and `heavyTailOff`, which
differ at every negative argument, agree at every abscissa a sweep can read. -/
theorem halfLine_sweepAgree : SweepAgree heavyTailFp heavyTailOff halfLineSetup := by
  have hd : Fp.signbit (Fp.round false (1 / 64)) = false := Fp.signbit_round _ (by norm_num)
  have key : ∀ y : Fp,
      heavyTailFp ((0 : Fp) + Fp.round false (1 / 64) / exp y) =
          heavyTailOff (0 + Fp.round false (1 / 64) / exp y) ∧
        heavyTailFp ((0 : Fp) + Fp.round false (1 / 64) * exp y) =
          heavyTailOff (0 + Fp.round false (1 / 64) * exp y) := by
    intro y
    have he := Fp.signbit_exp y
    constructor
    · apply heavyTailOff_eq
      rw [Fp.fp_zero_def]
      exact Fp.lt_zero_of_signbit _ (Fp.signbit_zero_add _ (Fp.signbit_div _ _ hd he))
    · apply heavyTailOff_eq
      rw [Fp.fp_zero_def]
      exact Fp.lt_zero_of_signbit _ (Fp.signbit_zero_add _ (Fp.signbit_mul _ _ hd he))
  intro k m
  exact ⟨fun h => absurd h (by decide), fun _ _ => key _, fun h => absurd h (by decide)⟩

/-- C15 amended, at two concrete inputs.  Over `[0, 1]` in exact arithmetic
the identity and `offEnds`, which differ at both endpoints, give the same
setup and the same result, and `quad` returns.  Over `(0, +∞)` on `Fp`, where
the optimizer runs, `heavyTailFp` and `heavyTailOff`, which differ at every
negative argument, give the same setup and the same result, and `quad`
returns. -/
theorem quad_interior_only_witness :
    (offEnds (Exact.mk 0) ≠ Exact.mk 0 ∧ offEnds (Exact.mk 1) ≠ Exact.mk 1 ∧
      (quad .precise (fun x => x) (Exact.mk 0) (Exact.mk 1) 2 (Exact.mk (1 / 1000))
        20).isSome = true ∧
      (quadSetup (fun x => x) (Exact.mk 0) (Exact.mk 1) (Exact.mk (1 / 1000)) =
          quadSetup offEnds (Exact.mk 0) (Exact.mk 1) (Exact.mk (1 / 1000)) ∧
        quad .precise (fun x => x) (Exact.mk 0) (Exact.mk 1) 2 (Exact.mk (1 / 1000)) 20 =
          quad .precise offEnds (Exact.mk 0) (Exact.mk 1) 2 (Exact.mk (1 / 1000)) 20)) ∧
    (heavyTailFp (-1) ≠ heavyTailOff (-1) ∧
      (quad .precise heavyTailFp 0 (Fp.inf false) 2 (Fp.round false (1 / 1000)) 30).isSome =
        true ∧
      (quadSetup heavyTailFp 0 (Fp.inf false) (Fp.round false (1 / 1000)) =
          quadSetup heavyTailOff 0 (Fp.inf false) (Fp.round false (1 / 1000)) ∧
        quad .precise heavyTailFp 0 (Fp.inf false) 2 (Fp.round false (1 / 1000)) 30 =
          quad .precise heavyTailOff 0 (Fp.inf false) 2 (Fp.round false (1 / 1000)) 30)) :=
  ⟨⟨by decide!, by decide!, by decide!,
    quad_interior_only .precise (fun x => x) offEnds (Exact.mk 0) (Exact.mk 1) 2
      (Exact.mk (1 / 1000)) 20 (by decide!) (fun _ h => absurd h (by decide))
      (fun h _ => absurd h (by decide))
      (fun S hS => by
        have h : quadSetup (fun x => x) (Exact.mk 0) (Exact.mk 1) (Exact.mk (1 / 1000)) =
            some exactSetup := by decide!
        rw [h] at hS
        cases hS
        exact ⟨by decide!, exact_sweepAgree⟩)⟩,
   ⟨by decide!, by decide!,
    quad_interior_only .precise heavyTailFp heavyTailOff 0 (Fp.inf false) 2
      (Fp.round false (1 / 1000)) 30 (by decide!)
      (fun _ _ => ⟨by decide!, by decide!, fun e h2 h17 => by
        interval_cases e <;> exact ⟨by decide!, by decide!⟩⟩)
      (fun h _ => absurd h (by decide!))
      (fun S hS => by
        have h : quadSetup heavyTailFp 0 (Fp.inf false) (Fp.round false (1 / 1000)) =
            some halfLineSetup := by decide!
        rw [h] at hS
        cases hS
        exact ⟨by decide!, halfLine_sweepAgree⟩)⟩⟩

end TanhSinh
